import Mathlib

/-!
# Dynamic tree key-value database: a shallow embedding of `src/src/tree.c`

The C program keeps one tree of heap-allocated `NODE`s.  The embedding reads the
memory as follows.

* A C string is the list of its bytes; the byte `b` is written as the character
  with code `b`, so a key is a `String` and `strcmp` compares character codes.
* The tree hanging from the forest root is a value of the inductive type `NODE`;
  `numChildren` is the length of the `children` list.
* A `NODE *` is a `Ptr`: the list of child indices that leads from the forest
  root to the node.  Dereferencing is `nodeAt`, writing through a pointer is
  `modifyAt`.
* Every `calloc`/`realloc` is taken to succeed, and the counters are taken to fit
  their machine types (`int`, `unsigned int`, `unsigned long`); the arguments
  `root`, `targetKey`, `key` are taken to be non-null.
* Loops that are not structurally recursive carry a fuel argument; the entry
  points pass a fuel that the theorems below show to be sufficient.
-/

namespace TreeDB

/-! ## Data types (`src/inc/tree.h`) -/

/-- Return code `OK` of tree.h. -/
def OK : Int := 0

/-- Return code `ERROR` of tree.h. -/
def ERROR : Int := 1

/-- Defines amount of nodes to pre-allocate (tree.h); it only sizes buffers. -/
def MEMLIMIT : Nat := 10

/-- Node types of tree.h. -/
inductive nodeType where
  | errorUndefinedNode
  | noSuchNode
  | emptyNode
  | parentNode
  | stringNode
  | integerNode
deriving DecidableEq, Repr

/-- Search modes of tree.h. -/
inductive searchMode where
  | targetNode
  | traversedTarget
  | fullTree
deriving DecidableEq, Repr

/-- Data in node: `unsigned long integer; char *string` (`none` is `NULL`). -/
structure DATA where
  integer : Nat
  string : Option String
deriving DecidableEq, Repr

/-- Tree node: key, value and the array of children (`numChildren` is its length). -/
inductive NODE where
  | mk (key : String) (value : DATA) (children : List NODE)
deriving Repr

/-- Field `key` of a node. -/
def NODE.key : NODE → String
  | .mk k _ _ => k

/-- Field `value` of a node. -/
def NODE.value : NODE → DATA
  | .mk _ v _ => v

/-- Field `children` of a node. -/
def NODE.children : NODE → List NODE
  | .mk _ _ cs => cs

/-- Field `numChildren` of a node. -/
def NODE.numChildren (n : NODE) : Nat := n.children.length

mutual
/-- Equality of two trees is decidable. -/
def NODE.decEq : (a b : NODE) → Decidable (a = b)
  | .mk k1 v1 cs1, .mk k2 v2 cs2 =>
    if hk : k1 = k2 then
      if hv : v1 = v2 then
        match NODE.decEqList cs1 cs2 with
        | isTrue h => isTrue (by rw [hk, hv, h])
        | isFalse h => isFalse (fun e => h (by cases e; rfl))
      else isFalse (fun e => hv (by cases e; rfl))
    else isFalse (fun e => hk (by cases e; rfl))
/-- Equality of two lists of trees is decidable. -/
def NODE.decEqList : (a b : List NODE) → Decidable (a = b)
  | [], [] => isTrue rfl
  | [], _ :: _ => isFalse (fun e => by cases e)
  | _ :: _, [] => isFalse (fun e => by cases e)
  | a :: as, b :: bs =>
    match NODE.decEq a b with
    | isTrue h =>
      match NODE.decEqList as bs with
      | isTrue h' => isTrue (by rw [h, h'])
      | isFalse h' => isFalse (fun e => h' (by cases e; rfl))
    | isFalse h => isFalse (fun e => h (by cases e; rfl))
end

instance : DecidableEq NODE := NODE.decEq

/-- A node pointer: the child indices leading from the forest root to the node. -/
abbrev Ptr := List Nat

/-- Search results: `numNodes`, `node` (single node search, `none` is `NULL`) and
`nodes` (multiple node search; the empty list is the `NULL` array). -/
structure SEARCHRESULT where
  numNodes : Nat
  node : Option Ptr
  nodes : List Ptr
deriving DecidableEq, Repr

/-- A search result as `calloc (1, sizeof(SEARCHRESULT))` returns it. -/
def SEARCHRESULT.calloc : SEARCHRESULT := ⟨0, none, []⟩

/-! ## Memory access -/

/-- Dereference a pointer: the node reached from `n` along the child indices. -/
def nodeAt : NODE → Ptr → Option NODE
  | n, [] => some n
  | .mk _ _ cs, i :: rest =>
    match cs[i]? with
    | some c => nodeAt c rest
    | none => none

/-- Write through a pointer: replace the node reached along the child indices by
its image under `f`; a pointer that leads nowhere changes nothing. -/
def modifyAt : NODE → Ptr → (NODE → NODE) → NODE
  | n, [], f => f n
  | .mk k v cs, i :: rest, f =>
    match cs[i]? with
    | some c => .mk k v (cs.set i (modifyAt c rest f))
    | none => .mk k v cs

mutual
/-- Number of nodes of a tree. -/
def NODE.size : NODE → Nat
  | .mk _ _ cs => 1 + NODE.sizeList cs
/-- Number of nodes of a list of trees. -/
def NODE.sizeList : List NODE → Nat
  | [] => 0
  | c :: cs => c.size + NODE.sizeList cs
end

/-- The pointers to the children of the node `node` stored at `current`, in array order. -/
def childPtrs (current : Ptr) (node : NODE) : List Ptr :=
  (List.range node.numChildren).map (fun i => current ++ [i])

/-! ## Strings -/

/-- Comparison of two byte strings as `strcmp` does it: the sign of the
difference of the first bytes that differ (`a < b` on characters compares their
codes), the end of a string counting as the smallest byte. -/
def strcmpAux : List Char → List Char → Int
  | [], [] => 0
  | [], _ :: _ => -1
  | _ :: _, [] => 1
  | a :: as, b :: bs =>
    if a = b then strcmpAux as bs else if a < b then -1 else 1

/-- The C library function `strcmp`. -/
def strcmp (a b : String) : Int := strcmpAux a.data b.data

/-- One call of `strtok` on the unread text `s`: skip leading delimiters, return
the token up to the next delimiter and the text after that delimiter; `none`
when no token is left. -/
def strtok (delims : List Char) (s : List Char) : Option (List Char × List Char) :=
  match s.dropWhile (fun c => decide (c ∈ delims)) with
  | [] => none
  | c :: cs =>
    some ((c :: cs).takeWhile (fun c => !decide (c ∈ delims)),
          ((c :: cs).dropWhile (fun c => !decide (c ∈ delims))).drop 1)

/-- The loop of `SplitEndKey`: `while (token) { strcpy(key, token); token = strtok(NULL, ".*"); }`.
`key` is the buffer content, `rest` the text `strtok` has not read yet. -/
def SplitEndKeyLoop : Nat → List Char → List Char → List Char
  | 0, key, _ => key
  | fuel + 1, key, rest =>
    match strtok ['.', '*'] rest with
    | none => key
    | some (token, rest') => SplitEndKeyLoop fuel token rest'

/-- Split full key path into end key (excl. "*").  The buffer starts as a copy of
`fullKey` and every token found overwrites it.  The C code copies `fullKey`
without its terminator and copies each token with `strcpy` inside the one
buffer; this function is the case in which a zero byte follows the copy and
`strcpy` leaves an exact copy of the token.  `SplitEndKeyMem` has the bytes behind
the copy and the result of an overlapping `strcpy` as parameters. -/
def SplitEndKey (fullKey : String) : String :=
  ⟨SplitEndKeyLoop (fullKey.data.length + 1) fullKey.data fullKey.data⟩

/-! ## Search -/

/-- The `while (stackSize)` loop of `DephtFirst`.  `stack` is the array
`stack[0 .. stackSize-1]`, so the top of the stack is its last element.  Pushing
the children writes `children[0]` over the slot of `current` and the others
above it; the final `stackSize--` then leaves `children[numChildren-1]` on top. -/
def DephtFirstLoop (tree : NODE) (targetKey : String) (search : searchMode) :
    Nat → List Ptr → SEARCHRESULT → SEARCHRESULT
  | 0, _, result => result
  | fuel + 1, stack, result =>
    match stack.getLast? with
    | none => result
    | some current =>
      match nodeAt tree current with
      | none => result
      | some node =>
        let result :=
          if search ≠ searchMode.targetNode then
            { result with nodes := result.nodes ++ [current], numNodes := result.numNodes + 1 }
          else result
        if strcmp node.key targetKey = 0 ∧ search ≠ searchMode.fullTree then
          if search = searchMode.targetNode then
            { result with node := some current, numNodes := result.numNodes + 1 }
          else result
        else
          DephtFirstLoop tree targetKey search fuel (stack.dropLast ++ childPtrs current node) result

/-- Find node(s) by depth first traversal, starting from the node `root` points
to.  Each pass of the loop takes one node off the stack, so the number of nodes
of the tree is enough fuel. -/
def DephtFirst (tree : NODE) (root : Ptr) (result : SEARCHRESULT) (targetKey : String)
    (search : searchMode) : SEARCHRESULT :=
  DephtFirstLoop tree targetKey search tree.size [root] result

/-- Search (handle search types), with `UNIQUEKEYS == TRUE`: a target key that
contains '.' is cut down to its end key unless the whole tree is asked for.
The C function always returns `OK`, and no caller reads that value; the model
returns the search result. -/
def Search (tree : NODE) (root : Ptr) (result : SEARCHRESULT) (targetKey : String)
    (search : searchMode) : SEARCHRESULT :=
  if search ≠ searchMode.fullTree ∧ '.' ∈ targetKey.data then
    DephtFirst tree root result (SplitEndKey targetKey) search
  else
    DephtFirst tree root result targetKey search

/-! ## Nodes and their types -/

/-- Create node (no rules- usage is AddNode()): `calloc` leaves integer 0, no
string, no children. -/
def CreateNode (key : String) : NODE := .mk key ⟨0, none⟩ []

/-- Init tree root. -/
def InitTree : NODE := CreateNode "root"

/-- Get node type by node (`none` is the null pointer). -/
def NodeType : Option NODE → nodeType
  | none => nodeType.noSuchNode
  | some node =>
    if node.numChildren ≠ 0 then nodeType.parentNode
    else if node.value.string.isSome then nodeType.stringNode
    else nodeType.integerNode

/-! ## Sorting the children -/

/-- Swap node pointers: exchange the array entries `i - 1` and `i`. -/
def Swap (children : List NODE) (i : Nat) : List NODE :=
  match children[i - 1]?, children[i]? with
  | some x, some y => (children.set (i - 1) y).set i x
  | _, _ => children

/-- The `for` loop of `BubbleSort`, entered with loop variable `i`: a swap sets
`i = 0`, which the loop increment turns into 1.  `none` means the fuel ran out. -/
def BubbleSortLoop : Nat → Nat → List NODE → Option (List NODE)
  | 0, _, _ => none
  | fuel + 1, i, children =>
    if i < children.length then
      match children[i - 1]?, children[i]? with
      | some x, some y =>
        if strcmp x.key y.key > 0 then BubbleSortLoop fuel 1 (Swap children i)
        else BubbleSortLoop fuel (i + 1) children
      | _, _ => none
    else some children

/-- Fuel for `BubbleSort` on `n` children: each swap removes one inversion and is
followed by at most `n` comparisons. -/
def BubbleSortFuel (n : Nat) : Nat := n * n * n + n + 1

/-- Bubble sort node keys, on the child array of a node. -/
def BubbleSort (children : List NODE) : List NODE :=
  (BubbleSortLoop (BubbleSortFuel children.length) 1 children).getD children

/-! ## Mutators and accessors -/

/-- Add node: `key` must not be found, `targetKey` must be found; the node found
loses its value, gets the new node appended and its children sorted. -/
def AddNode (root : NODE) (targetKey key : String) : Int × NODE :=
  let result := Search root [] SEARCHRESULT.calloc key searchMode.targetNode
  match result.node with
  | some _ => (ERROR, root)
  | none =>
    let result := Search root [] result targetKey searchMode.targetNode
    match result.node with
    | none => (ERROR, root)
    | some target =>
      (OK, modifyAt root target
        (fun n => .mk n.key ⟨0, none⟩ (BubbleSort (n.children ++ [CreateNode key]))))

/-- Set node integer. -/
def SetInt (root : NODE) (targetKey : String) (valueInteger : Nat) : Int × NODE :=
  let result := Search root [] SEARCHRESULT.calloc targetKey searchMode.targetNode
  match result.node with
  | some target =>
    let type := NodeType (nodeAt root target)
    if type ≠ nodeType.parentNode then
      if type = nodeType.integerNode then
        (OK, modifyAt root target
          (fun n => .mk n.key ⟨valueInteger, n.value.string⟩ n.children))
      else (ERROR, root)
    else (ERROR, root)
  | none => (ERROR, root)

/-- Set node string. -/
def SetString (root : NODE) (targetKey : String) (valueString : String) : Int × NODE :=
  let result := Search root [] SEARCHRESULT.calloc targetKey searchMode.targetNode
  match result.node with
  | some target =>
    let type := NodeType (nodeAt root target)
    if type ≠ nodeType.parentNode then
      if type = nodeType.stringNode ∨
          (nodeAt root target).map (fun n => n.value.integer) = some 0 then
        (OK, modifyAt root target
          (fun n => .mk n.key ⟨n.value.integer, some valueString⟩ n.children))
      else (ERROR, root)
    else (ERROR, root)
  | none => (ERROR, root)

/-- Get node integer (0 when the key is not found or the node is of another type). -/
def GetInt (root : NODE) (targetKey : String) : Nat :=
  let result := Search root [] SEARCHRESULT.calloc targetKey searchMode.targetNode
  match result.node with
  | some target =>
    if NodeType (nodeAt root target) = nodeType.integerNode then
      ((nodeAt root target).map (fun n => n.value.integer)).getD 0
    else 0
  | none => 0

/-- Get node string (`none` is `NULL`). -/
def GetString (root : NODE) (targetKey : String) : Option String :=
  let result := Search root [] SEARCHRESULT.calloc targetKey searchMode.targetNode
  match result.node with
  | some target =>
    if NodeType (nodeAt root target) = nodeType.stringNode then
      (nodeAt root target).bind (fun n => n.value.string)
    else none
  | none => none

/-! ## Delete -/

/-- The variables of the upward walk of `Delete`, and what the walk does to memory.
`tree` is the memory as linked from the root, `toFree` the array `toFree[0 .. queued]`.
`unlinked` lists the child slots (as pointers before the patch) whose block is no
longer in the patched child array; `aliased` is set when the patch writes the last
child into more than one slot, so that one block hangs in two places. -/
structure DeleteWalk where
  tree : NODE
  current : Ptr
  toFree : List Ptr
  modifiedPrevious : Bool
  unlinked : List Ptr
  aliased : Bool
deriving Repr

/-- The key behind a pointer (`p->key`); a pointer that leads nowhere gives `none`. -/
def keyAt (tree : NODE) (p : Ptr) : Option String := (nodeAt tree p).map NODE.key

/-- The test of the `x` loop for the child `c`: some `toFree[x]->key` compares equal to its key. -/
def inToFree (keys : List String) (c : NODE) : Bool :=
  keys.any (fun k => decide (strcmp k c.key = 0))

/-- Remove child from parents children: after `numChildren--` the array entries
`0 .. numChildren` whose key is the key of a queued node are overwritten with the
entry at index `numChildren`, and the array keeps its first `numChildren`
entries.  (The entry at index `numChildren` is only ever assigned to itself.) -/
def swapOut (keys : List String) (children : List NODE) : List NODE :=
  match children.getLast? with
  | none => children
  | some last => children.dropLast.map (fun c => if inToFree keys c then last else c)

/-- The slots of `children` that `swapOut` overwrites (those below the last one). -/
def swappedSlots (keys : List String) (children : List NODE) : List Nat :=
  (List.range (children.length - 1)).filter
    (fun z => (children[z]?.map (inToFree keys)).getD false)

/-- The slots whose block is no longer in the array after `swapOut`: the
overwritten ones, or the last one when none is overwritten. -/
def droppedSlots (keys : List String) (children : List NODE) : List Nat :=
  match swappedSlots keys children with
  | [] => [children.length - 1]
  | zs => zs

/-- The body of `for (i = 0; i < resultToNode->nodes[cnt]->numChildren; ++i)` for
the visited node `parent`, entered with loop variable `i`. -/
def DeleteChildLoop (parent : Ptr) : Nat → Nat → DeleteWalk → DeleteWalk
  | 0, _, w => w
  | fuel + 1, i, w =>
    match nodeAt w.tree parent with
    | none => w
    | some node =>
      match node.children[i]? with
      | none => w
      | some child =>
        if (keyAt w.tree w.current).map (fun k => strcmp child.key k) = some 0 then
          let w := { w with current := parent }
          if node.numChildren ≤ 1 ∧ parent ≠ [] then
            DeleteChildLoop parent fuel (i + 1) { w with toFree := w.toFree ++ [parent] }
          else if w.modifiedPrevious = false then
            let keys := w.toFree.filterMap (keyAt w.tree)
            DeleteChildLoop parent fuel (i + 1)
              { w with
                tree := modifyAt w.tree parent
                  (fun n => .mk n.key n.value (swapOut keys n.children))
                modifiedPrevious := true
                unlinked := (droppedSlots keys node.children).map (fun z => parent ++ [z])
                aliased := decide (1 < (swappedSlots keys node.children).length) }
          else DeleteChildLoop parent fuel (i + 1) w
        else DeleteChildLoop parent fuel (i + 1) w

/-- One pass of `while (cnt >= 0)`: the child loop for the visited node `nodes[cnt]`;
the number of children it has on entry bounds the iterations. -/
def DeleteStep (w : DeleteWalk) (parent : Ptr) : DeleteWalk :=
  DeleteChildLoop parent (((nodeAt w.tree parent).map NODE.numChildren).getD 0) 0 w

/-- What a call of `Delete` returns and leaves behind: the return code, the
memory as linked from the root, the blocks passed to `free` (pointers into the
tree before the call, in the order of the calls), and `unlinked`, `aliased` as in
`DeleteWalk`. -/
structure DeleteResult where
  rc : Int
  tree : NODE
  freed : List Ptr
  unlinked : List Ptr
  aliased : Bool
deriving Repr

/-- The freed blocks that a child array (or `root` itself) still points to after the call. -/
def DeleteResult.dangling (r : DeleteResult) : List Ptr :=
  r.freed.filter (fun f => !r.unlinked.any (fun u => u.isPrefixOf f))

/-- The memory reached from the root after the call is again a tree of live
blocks: nothing freed is still linked and no block hangs in two places.
Otherwise every later call reads freed memory. -/
def DeleteResult.intact (r : DeleteResult) : Bool :=
  r.dangling.isEmpty && !r.aliased

/-- Delete target node (incl. child nodes and empty parent nodes). -/
def Delete (root : NODE) (targetKey : String) : DeleteResult :=
  let resultToNode := Search root [] SEARCHRESULT.calloc targetKey searchMode.traversedTarget
  match resultToNode.nodes.getLast? with
  | none => ⟨ERROR, root, [], [], false⟩
  | some target =>
    if (keyAt root target).map (fun k => strcmp k targetKey) = some 0 then
      let resultNodeChildren :=
        Search root target SEARCHRESULT.calloc "dummy" searchMode.fullTree
      let w := resultToNode.nodes.dropLast.reverse.foldl DeleteStep
        ⟨root, target, [target], false, [], false⟩
      ⟨OK, w.tree, resultNodeChildren.nodes.drop 1 ++ w.toFree.reverse, w.unlinked, w.aliased⟩
    else ⟨ERROR, root, [], [], false⟩

/-! ## Reference listings used to state the behaviour of the search -/

mutual
/-- The order in which the loop of `DephtFirst` takes the nodes of the subtree
stored at `p` off its stack: the node, then the subtrees of its children from the
last child to the first. -/
def visitOrder : Ptr → NODE → List Ptr
  | p, .mk _ _ cs => p :: visitOrderList p 0 cs
/-- The visiting order of the children `cs`, stored from index `i` on under `p`. -/
def visitOrderList : Ptr → Nat → List NODE → List Ptr
  | _, _, [] => []
  | p, i, c :: cs => visitOrderList p (i + 1) cs ++ visitOrder (p ++ [i]) c
end

mutual
/-- The recursive preorder listing in the words of the specification: each node is
followed by the listings of its children in their stored order, first child first. -/
def specPreorder : Ptr → NODE → List Ptr
  | p, .mk _ _ cs => p :: specPreorderList p 0 cs
/-- The specification's listing of the children `cs`, stored from index `i` on under `p`. -/
def specPreorderList : Ptr → Nat → List NODE → List Ptr
  | _, _, [] => []
  | p, i, c :: cs => specPreorder (p ++ [i]) c ++ specPreorderList p (i + 1) cs
end

/-- The visiting order of the subtree a pointer of `tree` leads to (empty for a
pointer that leads nowhere). -/
def visitFrom (tree : NODE) (p : Ptr) : List Ptr :=
  match nodeAt tree p with
  | some n => visitOrder p n
  | none => []

/-- The specification's preorder listing of the subtree a pointer of `tree` leads to. -/
def specPreorderFrom (tree : NODE) (p : Ptr) : List Ptr :=
  match nodeAt tree p with
  | some n => specPreorder p n
  | none => []

/-- Some node of the tree has key `k`. -/
def hasKey (tree : NODE) (k : String) : Prop :=
  ∃ p n, nodeAt tree p = some n ∧ n.key = k

/-- What the loop of `DephtFirst` does with the nodes it takes off the stack, one
after the other, when they come in the order `order`. -/
def scanOrder (tree : NODE) (targetKey : String) (search : searchMode) :
    List Ptr → SEARCHRESULT → SEARCHRESULT
  | [], result => result
  | current :: rest, result =>
    let result :=
      if search ≠ searchMode.targetNode then
        { result with nodes := result.nodes ++ [current], numNodes := result.numNodes + 1 }
      else result
    if (keyAt tree current).map (fun k => strcmp k targetKey) = some 0
        ∧ search ≠ searchMode.fullTree then
      if search = searchMode.targetNode then
        { result with node := some current, numNodes := result.numNodes + 1 }
      else result
    else scanOrder tree targetKey search rest result

/-- The order in which the loop of `DephtFirst` takes nodes off a stack that is
never cut short: the subtree of the top entry first, the bottom entry's last. -/
def stackOrder (tree : NODE) (stack : List Ptr) : List Ptr :=
  stack.reverse.flatMap (visitFrom tree)

/-- The number of nodes of the subtree behind a pointer (0 for a pointer that leads nowhere). -/
def sizeAt (tree : NODE) (p : Ptr) : Nat :=
  ((nodeAt tree p).map NODE.size).getD 0

/-! ## Notions used to state the behaviour of the mutators -/

/-- The order `BubbleSort` establishes: `a` may stand before `b` when
`strcmp(a->key, b->key)` is not positive. -/
def keyLE (a b : NODE) : Prop := strcmp a.key b.key ≤ 0

/-- The number of pairs of children that stand in the wrong order. -/
def inversions : List NODE → Nat
  | [] => 0
  | x :: xs => xs.countP (fun y => decide (0 < strcmp x.key y.key)) + inversions xs

/-- The fields of a node other than the contents of its child array: key, value
and `numChildren`. -/
def NODE.fields (n : NODE) : String × DATA × Nat := (n.key, n.value, n.numChildren)

/-- The pointer `a` comes before the pointer `b` in the visiting order of
`DephtFirst`: `a` is a proper ancestor of `b`, or where the two paths part `a`
takes the child with the larger index. -/
def visitedBefore : Ptr → Ptr → Bool
  | [], [] => false
  | [], _ :: _ => true
  | _ :: _, [] => false
  | i :: p, j :: q => decide (j < i) || (decide (i = j) && visitedBefore p q)

/-- The node at `p` has key `k` and no node with key `k` is visited before it. -/
def isFirst (tree : NODE) (k : String) (p : Ptr) : Prop :=
  keyAt tree p = some k ∧ ∀ q, keyAt tree q = some k → visitedBefore q p = false

mutual
/-- The keys of all nodes of a tree. -/
def NODE.keys : NODE → List String
  | .mk k _ cs => k :: NODE.keysList cs
/-- The keys of all nodes of a list of trees. -/
def NODE.keysList : List NODE → List String
  | [] => []
  | c :: cs => c.keys ++ NODE.keysList cs
end

/-- A sequence of `AddNode(targetKey, key)` calls, run from the tree `t`; the
return codes are dropped. -/
def addNodes (t : NODE) (calls : List (String × String)) : NODE :=
  calls.foldl (fun t c => (AddNode t c.1 c.2).2) t

/-! ## Sequences of calls -/

/-- A call of one of the four mutating functions, with its arguments other than the root. -/
inductive Call where
  | addNode (targetKey key : String)
  | setInt (targetKey : String) (valueInteger : Nat)
  | setString (targetKey valueString : String)
  | delete (targetKey : String)
deriving Repr

/-- The tree after one call; return codes are dropped.  A `Delete` that leaves a
freed block linked (or frees the root) gives `none`: from then on the calls read
freed memory and the program has no defined tree. -/
def runCall (t : NODE) : Call → Option NODE
  | .addNode targetKey key => some (AddNode t targetKey key).2
  | .setInt targetKey valueInteger => some (SetInt t targetKey valueInteger).2
  | .setString targetKey valueString => some (SetString t targetKey valueString).2
  | .delete targetKey =>
    if (Delete t targetKey).intact then some (Delete t targetKey).tree else none

/-- The tree after a sequence of calls, started from the tree `t`. -/
def runCalls : NODE → List Call → Option NODE
  | t, [] => some t
  | t, c :: cs =>
    match runCall t c with
    | some t' => runCalls t' cs
    | none => none

/-- Every node a pointer of `t` leads to satisfies `P`. -/
def AllNodes (P : NODE → Prop) (t : NODE) : Prop :=
  ∀ p n, nodeAt t p = some n → P n

/-- A node that has at least one child holds no string and integer 0. -/
def payloadExclusive (n : NODE) : Prop :=
  n.numChildren ≠ 0 → n.value.string = none ∧ n.value.integer = 0

/-! ## Sample trees for evaluating the definitions -/

/-- A tree with the keys root, a, b, c, d: `root` has the children `a` and `b`,
`a` has the children `c` and `d`. -/
def sampleTree : NODE :=
  .mk "root" ⟨0, none⟩
    [.mk "a" ⟨0, none⟩ [.mk "c" ⟨0, none⟩ [], .mk "d" ⟨0, none⟩ []], .mk "b" ⟨0, none⟩ []]

/-- A root with the two leaves `a` and `b`. -/
def twoLeaves : NODE :=
  .mk "root" ⟨0, none⟩ [.mk "a" ⟨0, none⟩ [], .mk "b" ⟨0, none⟩ []]

/-- A root with one leaf `p` that holds the string "hello". -/
def stringLeafTree : NODE :=
  .mk "root" ⟨0, none⟩ [.mk "p" ⟨0, some "hello"⟩ []]

/-- A root whose two leaves `b` and `a` are stored in descending order. -/
def unsortedLeaves : NODE :=
  .mk "root" ⟨0, none⟩ [.mk "b" ⟨0, none⟩ [], .mk "a" ⟨0, none⟩ []]

/-- A node that holds a string holds integer 0. -/
def stringExclusive (n : NODE) : Prop :=
  n.value.string ≠ none → n.value.integer = 0

/-- A root with the leaf `i` holding the integer 7 and the leaf `s` holding the
string "x". -/
def typedLeaves : NODE :=
  .mk "root" ⟨0, none⟩ [.mk "i" ⟨7, none⟩ [], .mk "s" ⟨0, some "x"⟩ []]

/-- The children of a node stand in ascending key order (`strcmp` of a child and
any later child is not positive). -/
def sortedChildren (n : NODE) : Prop :=
  n.children.Pairwise (fun a b => strcmp a.key b.key ≤ 0)

/-- The call is a call of `Delete`. -/
def Call.isDelete : Call → Bool
  | .delete _ => true
  | _ => false

/-- The variables of the upward walk of `Delete` when it starts: `current` is the
target, which is also the only queued node. -/
def DeleteWalk.start (t : NODE) (target : Ptr) : DeleteWalk :=
  ⟨t, target, [target], false, [], false⟩

/-- What `Delete` returns once the target has been found at `target`, the nodes
visited before it being `pre`. -/
def DeleteResult.ofWalk (t : NODE) (pre : List Ptr) (target : Ptr) : DeleteResult :=
  ⟨OK, (pre.reverse.foldl DeleteStep (DeleteWalk.start t target)).tree,
    (visitFrom t target).drop 1 ++
      (pre.reverse.foldl DeleteStep (DeleteWalk.start t target)).toFree.reverse,
    (pre.reverse.foldl DeleteStep (DeleteWalk.start t target)).unlinked,
    (pre.reverse.foldl DeleteStep (DeleteWalk.start t target)).aliased⟩

/-- The tree root → p → a → {s, t}, built with `AddNode`. -/
def chainTree : NODE :=
  addNodes InitTree [("root", "p"), ("p", "a"), ("a", "s"), ("a", "t")]

/-! ## The upward walk of `Delete` on a tree with distinct keys -/

/-- The key that `Search` hands to `DephtFirst` in the modes other than
`fullTree`: `(key) ? (key) : (targetKey)`. -/
def lookupKey (targetKey : String) : String :=
  if '.' ∈ targetKey.data then SplitEndKey targetKey else targetKey

/-- The tree `t'` is the tree `t` with at most the payload of the node at `target`
changed: the same pointers lead to nodes, every node has the key and the number of
children it had, and every node but the one at `target` has the payload it had. -/
def payloadWriteAt (t t' : NODE) (target : Ptr) : Prop :=
  ∀ q, (nodeAt t' q).map (fun n => (n.key, n.numChildren)) =
        (nodeAt t q).map (fun n => (n.key, n.numChildren)) ∧
      (q ≠ target → (nodeAt t' q).map NODE.value = (nodeAt t q).map NODE.value)

/-- What a call of `SetInt` or `SetString` with target key `k` that returned `r`
has done to the tree `t`: nothing when it returned `ERROR`, and otherwise at most
a change of the payload of the node the lookup of `k` finds. -/
def payloadWriteOnly (t : NODE) (k : String) (r : Int × NODE) : Prop :=
  (r.1 = OK ∨ r.1 = ERROR) ∧ (r.1 = ERROR → r.2 = t) ∧
  (r.1 = OK → ∃ target,
    (Search t [] SEARCHRESULT.calloc k searchMode.targetNode).node = some target ∧
    payloadWriteAt t r.2 target)

/-! ## Notions used to state how a dotted target key is cut -/

/-- The non-empty segments of the text `s` when it is split at the characters in
`delims`. -/
def segments (delims : List Char) (s : List Char) : List (List Char) :=
  (s.splitOnP (fun c => decide (c ∈ delims))).filter (fun seg => !seg.isEmpty)

/-- The last non-empty segment of `fullKey` when it is split at the characters
'.' and '*'; `none` when every segment is empty. -/
def lastSegment (fullKey : String) : Option String :=
  ((segments ['.', '*'] fullKey.data).getLast?).map String.mk

/-- The tree root → {p → "x.y", y}, built with `AddNode`: the key "x.y" contains '.'. -/
def dottedTree : NODE :=
  addNodes InitTree [("root", "p"), ("p", "x.y"), ("root", "y")]

/-! ## GetText -/

/-- Return translation for node string value- or english text if translation is void.
The function ends with `free (result); return result->node->value.string;`: the
pointer `result->node` is read from the block after it has been freed.  The
parameter `free` is what the call `free (result)` leaves in that block (the
identity for an allocator that does not touch a freed block).  The outer `none`
of the value is the dereference of a null pointer, or of a pointer that leads to
no node; the inner one is the string pointer `NULL`.  The buffer `path` is
allocated without room for the terminator that `strcat` writes; the model takes
its content to be the two strings one after the other. -/
def GetText (free : SEARCHRESULT → SEARCHRESULT) (root : NODE) (targetKey language : String) :
    Option (Option String) :=
  let result := Search root [] SEARCHRESULT.calloc language searchMode.targetNode
  let path := language ++ targetKey
  let result :=
    match result.node with
    | some languageNode =>
      let result := Search root languageNode result path searchMode.targetNode
      if NodeType (result.node.bind (nodeAt root)) ≠ nodeType.stringNode then
        let result := Search root [] result "en" searchMode.targetNode
        match result.node with
        | some start => Search root start result targetKey searchMode.targetNode
        | none => result
      else result
    | none => result
  ((free result).node.bind (nodeAt root)).map (fun n => n.value.string)

/-- A tree with texts in two languages: root → {en → {greeting}, no → {nogreeting}}. -/
def textTree : NODE :=
  .mk "root" ⟨0, none⟩
    [.mk "en" ⟨0, none⟩ [.mk "greeting" ⟨0, some "hello"⟩ []],
     .mk "no" ⟨0, none⟩ [.mk "nogreeting" ⟨0, some "hei"⟩ []]]

/-- A tree in which the language node `de` is a leaf that holds a string:
root → {de, en → {greeting}}. -/
def leafLanguageTree : NODE :=
  .mk "root" ⟨0, none⟩
    [.mk "de" ⟨0, some "x"⟩ [],
     .mk "en" ⟨0, none⟩ [.mk "greeting" ⟨0, some "hello"⟩ []]]

/-! ## Reading the text file -/

/-- The C string at the start of the buffer `s` after the call `strtok (s, delims)`:
the call writes the terminator over the delimiter that ends the first token. -/
def strtokCut (delims : List Char) (s : List Char) : List Char :=
  s.takeWhile (fun c => decide (c ∈ delims)) ++
    (s.dropWhile (fun c => decide (c ∈ delims))).takeWhile (fun c => !decide (c ∈ delims))

/-- The token returned by `strtok (NULL, delims)` right after `strtok (s, delims)`. -/
def strtokSecond (delims : List Char) (s : List Char) : Option (List Char) :=
  match strtok delims s with
  | none => none
  | some (_, rest) => (strtok delims rest).map Prod.fst

/-- The tokens that `strtok (s, delims)` and the calls `strtok (NULL, delims)` after
it return, until one returns `NULL`. -/
def strtokAll (delims : List Char) : Nat → List Char → List (List Char)
  | 0, _ => []
  | fuel + 1, s =>
    match strtok delims s with
    | none => []
    | some (token, rest) => token :: strtokAll delims fuel rest

/-- The C library predicate `isspace` in the "C" locale. -/
def isspace (c : Char) : Bool :=
  decide (c ∈ [' ', '\t', '\n', '\x0b', '\x0c', '\r'])

/-- The C library call `strtoul (token, NULL, 10)` for an `unsigned long` of 64
bits: white space is skipped, a sign is read, the digits that follow are the
value; a value that does not fit gives `ULONG_MAX`, a minus sign negates modulo
`2 ^ 64`, and a text without digits gives 0. -/
def strtoul (token : List Char) : Nat :=
  let s := token.dropWhile isspace
  let digits :=
    (if s.head? = some '-' ∨ s.head? = some '+' then s.drop 1 else s).takeWhile Char.isDigit
  let v := digits.foldl (fun n c => n * 10 + (c.toNat - '0'.toNat)) 0
  if 2 ^ 64 ≤ v then 2 ^ 64 - 1
  else if s.head? = some '-' then (2 ^ 64 - v) % 2 ^ 64
  else v

/-- The variables of `DeserializeTextFile` that live from one line to the next. -/
structure Deserializer where
  root : NODE
  integer : Nat
  path : Option String
  iRc : Int
deriving Repr

/-- The loop `while (token)` of `DeserializeTextFile` over the tokens of the key
path: a token that no lookup finds is added below the node with the key
`targetKey` (as "no" followed by the token when `targetKey` is "no", which also
sets `path`), and becomes the next `targetKey`.  The lookups made in the loop call
`strtok` only for a key that contains '.', which no token does. -/
def DeserializeKeys : NODE → String → Option String → List String →
    NODE × String × Option String
  | root, targetKey, path, [] => (root, targetKey, path)
  | root, targetKey, path, token :: rest =>
    match (Search root [] SEARCHRESULT.calloc token searchMode.targetNode).node with
    | some _ => DeserializeKeys root token path rest
    | none =>
      if strcmp targetKey "no" = 0 then
        DeserializeKeys (AddNode root targetKey ("no" ++ token)).2 token
          (some ("no" ++ token)) rest
      else
        DeserializeKeys (AddNode root targetKey token).2 token path rest

/-- What `DeserializeTextFile` does with one line that `fscanf` has read: the
text between the first two quotes, when there is one, is the string value,
otherwise the second token of the line is read as a number; the first token of
the line is the key path, whose segments are looked up and added; the value is
then set on the last segment (on `path` when a string is set and `path` is not
null). -/
def DeserializeLine (s : Deserializer) (line : String) : Deserializer :=
  let string := strtokSecond ['"'] line.data
  let line1 := strtokCut ['"'] line.data
  let number : Nat × Int × List Char :=
    match string with
    | some _ => (s.integer, s.iRc, line1)
    | none =>
      match strtokSecond ['\t', ' ', '='] line1 with
      | some token => (strtoul token, s.iRc, strtokCut ['\t', ' ', '='] line1)
      | none => (s.integer, ERROR, strtokCut ['\t', ' ', '='] line1)
  let tokens :=
    match strtok ['\t', ' ', '='] number.2.2 with
    | some (keyPath, _) => (strtokAll ['.'] (keyPath.length + 1) keyPath).map String.mk
    | none => []
  let keys := DeserializeKeys s.root s.root.key s.path tokens
  match string with
  | some text =>
    match keys.2.2 with
    | some path => ⟨(SetString keys.1 path ⟨text⟩).2, number.1, none, number.2.1⟩
    | none => ⟨(SetString keys.1 keys.2.1 ⟨text⟩).2, number.1, none, number.2.1⟩
  | none => ⟨(SetInt keys.1 keys.2.1 number.1).2, number.1, keys.2.2, number.2.1⟩

/-- The loop `while (iRc == OK && !feof (file))` over the lines of the file. -/
def DeserializeLines : Deserializer → List String → Deserializer
  | s, [] => s
  | s, line :: rest =>
    if s.iRc = OK then DeserializeLines (DeserializeLine s line) rest else s

/-- Deserialize database from text file (parsed line by line); `lines` are the
lines of the file as `fscanf` reads them. -/
def DeserializeTextFile (root : NODE) (lines : List String) : Int × NODE :=
  ((DeserializeLines ⟨root, 0, none, OK⟩ lines).iRc,
   (DeserializeLines ⟨root, 0, none, OK⟩ lines).root)

/-! ## Notions used to state what reading a line does -/

mutual
/-- The pairs (key of a node, key of one of its children), for all nodes of a tree. -/
def NODE.edges : NODE → List (String × String)
  | .mk k _ cs => NODE.edgesList k cs
/-- The pairs of `NODE.edges` for the children `cs` of a node with key `k`. -/
def NODE.edgesList : String → List NODE → List (String × String)
  | _, [] => []
  | k, c :: cs => (k, c.key) :: (c.edges ++ NODE.edgesList k cs)
end

/-- A key path: the segments with a '.' between them. -/
def dottedPath : List String → String
  | [] => ""
  | [s] => s
  | s :: rest => s ++ "." ++ dottedPath rest

/-- The pairs (previous segment, segment) of a key path read into a tree whose
root has the key `rootKey` and whose keys are `keys`, for the segments that are
not among `keys`; the segment before the first one is `rootKey`. -/
def newEdges (keys : List String) (rootKey : String) (segs : List String) :
    List (String × String) :=
  ((rootKey :: segs).zip segs).filter (fun e => decide (e.2 ∉ keys))

/-- Every node with the key `k` is a leaf, and its payload satisfies `C`. -/
def leafWith (k : String) (C : DATA → Prop) (n : NODE) : Prop :=
  n.key = k → n.numChildren = 0 ∧ C n.value

/-- `SplitEndKey` as `Search` calls it, on a buffer of `strlen (targetKey)` bytes
that holds the copy without terminator: `strtok` reads on past the buffer, through
the bytes `beyond` that lie between its end and the next zero byte in memory.
`SplitEndKey` is the case in which a zero byte follows the buffer at once. -/
def SplitEndKeyBeyond (beyond : List Char) (fullKey : String) : String :=
  ⟨SplitEndKeyLoop ((fullKey.data ++ beyond).length + 1) (fullKey.data ++ beyond)
    (fullKey.data ++ beyond)⟩

/-! ## `SetValue` -/

/-- An unnamed argument of a `SetValue` call: what `va_arg (ap, unsigned long)`
or `va_arg (ap, char *)` reads. -/
inductive VaArg where
  | integer (value : Nat)
  | string (value : String)
deriving DecidableEq, Repr

/-- The loop of `SetValue` over the format, `p` being the characters from `*p`
on and `ap` the unnamed arguments not read yet.  The return codes of `SetInt`
and `SetString` are dropped.  `none` stands for the runs the C code leaves
undefined: `*++p` is the terminator, so that `p++` steps past it, or `va_arg`
meets no argument of the type it reads. -/
def SetValueLoop (targetKey : String) : List Char → List VaArg → NODE → Option (Int × NODE)
  | [], _, root => some (OK, root)
  | [c], _, root => if c ≠ '%' then some (ERROR, root) else none
  | c :: d :: p, ap, root =>
    if c ≠ '%' then some (ERROR, root)
    else if d = 'd' then
      match ap with
      | VaArg.integer value :: ap =>
        SetValueLoop targetKey p ap (SetInt root targetKey value).2
      | _ => none
    else if d = 's' then
      match ap with
      | VaArg.string value :: ap =>
        SetValueLoop targetKey p ap (SetString root targetKey value).2
      | _ => none
    else SetValueLoop targetKey p ap root

/-- String / integer mutator (sets argument to corresponding format- %s for
string, %d for int). -/
def SetValue (root : NODE) (targetKey format : String) (ap : List VaArg) :
    Option (Int × NODE) :=
  SetValueLoop targetKey format.data ap root

/-- The call that `SetValue` makes for one unnamed argument under its
directive. -/
def setCall (root : NODE) (targetKey : String) : VaArg → Int × NODE
  | VaArg.integer value => SetInt root targetKey value
  | VaArg.string value => SetString root targetKey value

/-- The directive under which an unnamed argument is read. -/
def directive : VaArg → String
  | VaArg.integer _ => "%d"
  | VaArg.string _ => "%s"

/-- The format made of the directives of the arguments `ap`, in their order. -/
def directives : List VaArg → String
  | [] => ""
  | a :: ap => directive a ++ directives ap

/-! ## `SplitEndKey` on the buffer, and calls that cut their keys with it -/

/-- `strcpy (key, token)` in `SplitEndKey`, where `token` lies `gap` bytes behind
the start of `key` in the same buffer.  When `token` and its terminator fit in
these `gap` bytes, source and destination do not overlap and `key` holds a copy
of `token`.  Otherwise they overlap, C leaves the behaviour undefined, and
`overlap gap token` stands for the text the library leaves at `key`. -/
def strcpyInBuffer (overlap : Nat → List Char → List Char) (gap : Nat) (token : List Char) :
    List Char :=
  if token.length < gap then token else overlap gap token

/-- The loop of `SplitEndKey` with the places in the buffer: `pos` is the offset
of the text `rest` that `strtok` has not read yet, and the token `strtok` finds
starts behind the delimiters it skips. -/
def SplitEndKeyMemLoop (overlap : Nat → List Char → List Char) :
    Nat → Nat → List Char → List Char → List Char
  | 0, _, key, _ => key
  | fuel + 1, pos, key, rest =>
    match strtok ['.', '*'] rest with
    | none => key
    | some (token, rest') =>
      let gap := pos + (rest.takeWhile (fun c => decide (c ∈ ['.', '*']))).length
      SplitEndKeyMemLoop overlap fuel (gap + token.length + 1)
        (strcpyInBuffer overlap gap token) rest'

/-- `SplitEndKey` as `Search` calls it, with the two things the C code leaves
open as parameters: the bytes `beyond` that follow the copy up to the next zero
byte (the copy has no terminator), and what a `strcpy` between overlapping parts
of the buffer leaves at its start. -/
def SplitEndKeyMem (overlap : Nat → List Char → List Char) (beyond : List Char)
    (fullKey : String) : String :=
  ⟨SplitEndKeyMemLoop overlap ((fullKey.data ++ beyond).length + 1) 0
    (fullKey.data ++ beyond) (fullKey.data ++ beyond)⟩

/-- `Search`, the end key of a target that contains '.' being what `split` gives
for it. -/
def SearchVia (split : String → String) (tree : NODE) (root : Ptr) (result : SEARCHRESULT)
    (targetKey : String) (search : searchMode) : SEARCHRESULT :=
  if search ≠ searchMode.fullTree ∧ '.' ∈ targetKey.data then
    DephtFirst tree root result (split targetKey) search
  else
    DephtFirst tree root result targetKey search

/-- `AddNode`, its two lookups cutting their targets with `split`. -/
def AddNodeVia (split : String → String) (root : NODE) (targetKey key : String) : Int × NODE :=
  let result := SearchVia split root [] SEARCHRESULT.calloc key searchMode.targetNode
  match result.node with
  | some _ => (ERROR, root)
  | none =>
    let result := SearchVia split root [] result targetKey searchMode.targetNode
    match result.node with
    | none => (ERROR, root)
    | some target =>
      (OK, modifyAt root target
        (fun n => .mk n.key ⟨0, none⟩ (BubbleSort (n.children ++ [CreateNode key]))))

/-- The tree root → abcd, built with `AddNode`. -/
def abcdTree : NODE := (AddNode InitTree "root" "abcd").2

/-- The tree root → b, built with `AddNode`. -/
def oneLeaf : NODE := (AddNode InitTree "root" "b").2

/-! # Theorems -/

/-! ## Induction over trees -/

theorem NODE.induct {P : NODE → Prop}
    (h : ∀ k v cs, (∀ c ∈ cs, P c) → P (NODE.mk k v cs)) : ∀ n, P n := by
  intro n
  refine @NODE.rec P (fun cs => ∀ c ∈ cs, P c) ?_ ?_ ?_ n
  · intro k v cs ih
    exact h k v cs ih
  · intro c hc
    cases hc
  · intro hd tl ih1 ih2 c hc
    rcases List.mem_cons.1 hc with rfl | hc
    · exact ih1
    · exact ih2 c hc

theorem NODE.eta (n : NODE) : NODE.mk n.key n.value n.children = n := by
  cases n; rfl

theorem NODE.size_pos (n : NODE) : 0 < n.size := by
  cases n
  simp [NODE.size]

theorem NODE.sizeList_eq_sum (cs : List NODE) :
    NODE.sizeList cs = (cs.map NODE.size).sum := by
  induction cs with
  | nil => rfl
  | cons c cs ih => simp [NODE.sizeList, ih]

/-! ## `strcmp` -/

theorem strcmpAux_eq_zero (a b : List Char) : strcmpAux a b = 0 ↔ a = b := by
  induction a generalizing b with
  | nil => cases b <;> simp [strcmpAux]
  | cons x xs ih =>
    cases b with
    | nil => simp [strcmpAux]
    | cons y ys =>
      by_cases hxy : x = y
      · simp [strcmpAux, hxy, ih]
      · simp only [strcmpAux, hxy, if_false]
        split <;> simp [hxy]

theorem strcmp_eq_zero (a b : String) : strcmp a b = 0 ↔ a = b := by
  unfold strcmp
  rw [strcmpAux_eq_zero]
  constructor
  · intro h
    exact String.ext h
  · intro h
    rw [h]

/-! ## Pointers -/

theorem nodeAt_append (t : NODE) (p q : Ptr) :
    nodeAt t (p ++ q) = (nodeAt t p).bind (fun n => nodeAt n q) := by
  induction p generalizing t with
  | nil => simp [nodeAt]
  | cons i p ih =>
    cases t with
    | mk k v cs =>
      simp only [List.cons_append, nodeAt]
      cases cs[i]? with
      | none => simp
      | some c => simpa using ih c

theorem nodeAt_singleton (n : NODE) (i : Nat) : nodeAt n [i] = n.children[i]? := by
  cases n with
  | mk k v cs =>
    simp only [nodeAt, NODE.children]
    cases cs[i]? <;> rfl

theorem nodeAt_snoc (t : NODE) (p : Ptr) (i : Nat) (n : NODE) (h : nodeAt t p = some n) :
    nodeAt t (p ++ [i]) = n.children[i]? := by
  rw [nodeAt_append, h]
  simpa using nodeAt_singleton n i

theorem visitOrderList_eq (tree : NODE) (p : Ptr) (all : List NODE)
    (hp : (nodeAt tree p).map NODE.children = some all) :
    ∀ (cs : List NODE) (i : Nat), all.drop i = cs →
      visitOrderList p i cs =
        ((List.range' i cs.length).map (fun j => p ++ [j])).reverse.flatMap (visitFrom tree) := by
  intro cs
  induction cs with
  | nil => intro i _; simp [visitOrderList]
  | cons c cs ih =>
    intro i hdrop
    obtain ⟨n, hn, hall⟩ := Option.map_eq_some'.1 hp
    have hi : all[i]? = some c := by
      have := congrArg List.head? hdrop
      simpa [List.head?_drop] using this
    have hrest : all.drop (i + 1) = cs := by
      have := congrArg List.tail hdrop
      simpa [List.tail_drop] using this
    have hc : nodeAt tree (p ++ [i]) = some c := by
      rw [nodeAt_snoc tree p i n hn, hall, hi]
    simp only [visitOrderList, List.length_cons, List.range'_succ, List.map_cons,
      List.reverse_cons, List.flatMap_append, List.flatMap_cons, List.flatMap_nil,
      List.append_nil]
    rw [ih (i + 1) hrest]
    simp [visitFrom, hc]

theorem visitFrom_eq (tree : NODE) (p : Ptr) (n : NODE) (h : nodeAt tree p = some n) :
    visitFrom tree p = p :: (childPtrs p n).reverse.flatMap (visitFrom tree) := by
  have hl := visitOrderList_eq tree p n.children (by simp [h]) n.children 0 (by simp)
  cases n with
  | mk k v cs =>
    simp only [visitFrom, h, visitOrder, childPtrs, NODE.numChildren, NODE.children] at hl ⊢
    rw [hl, List.range_eq_range']

/-! ## The loop of `DephtFirst` follows the visiting order -/

theorem childPtrs_getElem? (p : Ptr) (n : NODE) (i : Nat) :
    (childPtrs p n)[i]? = if i < n.numChildren then some (p ++ [i]) else none := by
  unfold childPtrs
  by_cases h : i < n.numChildren
  · simp [h, List.getElem?_range h]
  · simp [h]
    omega

theorem childPtrs_map (tree : NODE) (p : Ptr) (n : NODE) (h : nodeAt tree p = some n)
    {β : Type} (g : Option NODE → β) :
    (childPtrs p n).map (fun q => g (nodeAt tree q)) = n.children.map (fun c => g (some c)) := by
  apply List.ext_getElem?
  intro i
  simp only [List.getElem?_map, childPtrs_getElem?, NODE.numChildren]
  by_cases hi : i < n.children.length
  · simp [hi, nodeAt_snoc tree p i n h, List.getElem?_eq_getElem hi]
  · simp [hi, List.getElem?_eq_none (Nat.le_of_not_lt hi)]

theorem childPtrs_valid (tree : NODE) (p : Ptr) (n : NODE) (h : nodeAt tree p = some n) :
    ∀ q ∈ childPtrs p n, (nodeAt tree q).isSome = true := by
  intro q hq
  have := childPtrs_map tree p n h Option.isSome
  have hall : ∀ b ∈ (childPtrs p n).map (fun q => (nodeAt tree q).isSome), b = true := by
    rw [this]
    intro b hb
    simp at hb
    obtain ⟨_, _, rfl⟩ := hb
    rfl
  exact hall _ (List.mem_map_of_mem _ hq)

theorem childPtrs_size (tree : NODE) (p : Ptr) (n : NODE) (h : nodeAt tree p = some n) :
    ((childPtrs p n).map (sizeAt tree)).sum + 1 = n.size := by
  have := childPtrs_map tree p n h (fun o => (o.map NODE.size).getD 0)
  unfold sizeAt
  rw [this]
  cases n with
  | mk k v cs =>
    simp only [NODE.children, NODE.size, NODE.sizeList_eq_sum, Option.map_some',
      Option.getD_some]
    have e : (fun c : NODE => c.size) = NODE.size := rfl
    rw [e]
    omega

theorem sizeAt_pos (tree : NODE) (p : Ptr) (h : (nodeAt tree p).isSome = true) :
    0 < sizeAt tree p := by
  obtain ⟨n, hn⟩ := Option.isSome_iff_exists.1 h
  simp [sizeAt, hn, NODE.size_pos]

theorem DephtFirstLoop_eq_scanOrder (tree : NODE) (targetKey : String) (search : searchMode) :
    ∀ (fuel : Nat) (stack : List Ptr) (result : SEARCHRESULT),
      (∀ p ∈ stack, (nodeAt tree p).isSome = true) →
      (stack.map (sizeAt tree)).sum ≤ fuel →
      DephtFirstLoop tree targetKey search fuel stack result =
        scanOrder tree targetKey search (stackOrder tree stack) result := by
  intro fuel
  induction fuel with
  | zero =>
    intro stack result hvalid hfuel
    cases stack with
    | nil => simp [DephtFirstLoop, stackOrder, scanOrder]
    | cons p ps =>
      have := sizeAt_pos tree p (hvalid p (List.mem_cons_self _ _))
      simp at hfuel
      omega
  | succ fuel ih =>
    intro stack result hvalid hfuel
    rcases List.eq_nil_or_concat stack with rfl | ⟨bottom, current, rfl⟩
    · simp [DephtFirstLoop, stackOrder, scanOrder]
    · rw [List.concat_eq_append] at hvalid hfuel ⊢
      obtain ⟨node, hnode⟩ := Option.isSome_iff_exists.1 (hvalid current (by simp))
      have horder : stackOrder tree (bottom ++ [current]) =
          current :: stackOrder tree (bottom ++ childPtrs current node) := by
        simp [stackOrder, visitFrom_eq tree current node hnode, List.flatMap_append]
      have hkey : keyAt tree current = some node.key := by simp [keyAt, hnode]
      rw [horder]
      simp only [DephtFirstLoop, List.getLast?_concat, hnode, List.dropLast_concat, scanOrder,
        hkey, Option.map_some', Option.some.injEq]
      have hstep : ∀ r, DephtFirstLoop tree targetKey search fuel
            (bottom ++ childPtrs current node) r =
          scanOrder tree targetKey search
            (stackOrder tree (bottom ++ childPtrs current node)) r := by
        intro r
        apply ih
        · intro q hq
          rcases List.mem_append.1 hq with hq | hq
          · exact hvalid q (List.mem_append_left _ hq)
          · exact childPtrs_valid tree current node hnode q hq
        · have h1 := childPtrs_size tree current node hnode
          have h2 : sizeAt tree current = node.size := by simp [sizeAt, hnode]
          simp only [List.map_append, List.sum_append, List.map_cons, List.map_nil,
            List.sum_cons, List.sum_nil] at hfuel ⊢
          omega
      split <;> simp [hstep]

/-! ## The visiting order lists every node of the subtree once -/

theorem visitOrderList_length (cs : List NODE)
    (h : ∀ c ∈ cs, ∀ p, (visitOrder p c).length = c.size) :
    ∀ p i, (visitOrderList p i cs).length = NODE.sizeList cs := by
  induction cs with
  | nil => intro p i; simp [visitOrderList, NODE.sizeList]
  | cons c cs ih =>
    intro p i
    have h1 := ih (fun c' hc' => h c' (List.mem_cons_of_mem _ hc')) p (i + 1)
    have h2 := h c (List.mem_cons_self _ _) (p ++ [i])
    simp only [visitOrderList, List.length_append, NODE.sizeList, h1, h2]
    omega

theorem visitOrder_length (n : NODE) : ∀ p, (visitOrder p n).length = n.size := by
  induction n using NODE.induct with
  | h k v cs ih =>
    intro p
    simp only [visitOrder, List.length_cons, NODE.size, visitOrderList_length cs ih p 0]
    omega

theorem mem_visitOrderList (cs : List NODE)
    (h : ∀ c ∈ cs, ∀ p q, q ∈ visitOrder p c ↔ ∃ r, q = p ++ r ∧ (nodeAt c r).isSome = true) :
    ∀ p i q, q ∈ visitOrderList p i cs ↔
      ∃ j c r, cs[j]? = some c ∧ q = p ++ (i + j) :: r ∧ (nodeAt c r).isSome = true := by
  induction cs with
  | nil => intro p i q; simp [visitOrderList]
  | cons c cs ih =>
    intro p i q
    have h1 := ih (fun c' hc' => h c' (List.mem_cons_of_mem _ hc')) p (i + 1) q
    have h2 := h c (List.mem_cons_self _ _) (p ++ [i]) q
    simp only [visitOrderList, List.mem_append, h1, h2]
    constructor
    · rintro (⟨j, c', r, hj, hq, hr⟩ | ⟨r, hq, hr⟩)
      · refine ⟨j + 1, c', r, by simpa using hj, ?_, hr⟩
        rw [hq]
        congr 2
        omega
      · exact ⟨0, c, r, by simp, by simpa using hq, hr⟩
    · rintro ⟨j, c', r, hj, hq, hr⟩
      cases j with
      | zero =>
        right
        simp only [List.getElem?_cons_zero, Option.some.injEq] at hj
        subst hj
        exact ⟨r, by simpa using hq, hr⟩
      | succ j =>
        left
        refine ⟨j, c', r, by simpa using hj, ?_, hr⟩
        rw [hq]
        congr 2
        omega

theorem mem_visitOrder (n : NODE) :
    ∀ p q, q ∈ visitOrder p n ↔ ∃ r, q = p ++ r ∧ (nodeAt n r).isSome = true := by
  induction n using NODE.induct with
  | h k v cs ih =>
    intro p q
    simp only [visitOrder, List.mem_cons, mem_visitOrderList cs ih p 0 q]
    constructor
    · rintro (rfl | ⟨j, c, r, hj, hq, hr⟩)
      · exact ⟨[], by simp, by simp [nodeAt]⟩
      · refine ⟨j :: r, by simpa using hq, ?_⟩
        simp [nodeAt, hj, hr]
    · rintro ⟨r, hq, hr⟩
      cases r with
      | nil => left; simpa using hq
      | cons j r =>
        right
        simp only [nodeAt] at hr
        cases hc : cs[j]? with
        | none => simp [hc] at hr
        | some c =>
          simp only [hc] at hr
          exact ⟨j, c, r, hc, by simpa using hq, hr⟩

theorem visitOrderList_nodup (cs : List NODE)
    (hmem : ∀ c ∈ cs, ∀ p q, q ∈ visitOrder p c ↔ ∃ r, q = p ++ r ∧ (nodeAt c r).isSome = true)
    (h : ∀ c ∈ cs, ∀ p, (visitOrder p c).Nodup) :
    ∀ p i, (visitOrderList p i cs).Nodup := by
  induction cs with
  | nil => intro p i; simp [visitOrderList]
  | cons c cs ih =>
    intro p i
    have hmem' : ∀ c' ∈ cs, ∀ p q, q ∈ visitOrder p c' ↔
        ∃ r, q = p ++ r ∧ (nodeAt c' r).isSome = true :=
      fun c' hc' => hmem c' (List.mem_cons_of_mem _ hc')
    have h1 := ih hmem' (fun c' hc' => h c' (List.mem_cons_of_mem _ hc')) p (i + 1)
    have h2 := h c (List.mem_cons_self _ _) (p ++ [i])
    simp only [visitOrderList]
    refine List.Nodup.append h1 h2 ?_
    intro q hq1 hq2
    obtain ⟨j, c', r, _, hq, _⟩ := (mem_visitOrderList cs hmem' p (i + 1) q).1 hq1
    obtain ⟨r', hq', _⟩ := (hmem c (List.mem_cons_self _ _) (p ++ [i]) q).1 hq2
    rw [hq, List.append_assoc] at hq'
    have := List.append_cancel_left hq'
    simp at this
    omega

theorem visitOrder_nodup (n : NODE) : ∀ p, (visitOrder p n).Nodup := by
  induction n using NODE.induct with
  | h k v cs ih =>
    intro p
    have hmem : ∀ c ∈ cs, ∀ p q, q ∈ visitOrder p c ↔
        ∃ r, q = p ++ r ∧ (nodeAt c r).isSome = true := fun c _ => mem_visitOrder c
    simp only [visitOrder, List.nodup_cons]
    refine ⟨?_, visitOrderList_nodup cs hmem ih p 0⟩
    intro hp
    obtain ⟨j, c, r, _, hq, _⟩ := (mem_visitOrderList cs hmem p 0 p).1 hp
    have := congrArg List.length hq
    simp at this

theorem mem_visitFrom (tree : NODE) (p q : Ptr) :
    q ∈ visitFrom tree p ↔ p <+: q ∧ (nodeAt tree q).isSome = true := by
  unfold visitFrom
  cases hn : nodeAt tree p with
  | none =>
    simp only [List.not_mem_nil, false_iff, not_and]
    rintro ⟨r, rfl⟩
    simp [nodeAt_append, hn]
  | some n =>
    simp only [mem_visitOrder]
    constructor
    · rintro ⟨r, rfl, hr⟩
      exact ⟨List.prefix_append _ _, by simpa [nodeAt_append, hn] using hr⟩
    · rintro ⟨⟨r, rfl⟩, hq⟩
      exact ⟨r, rfl, by simpa [nodeAt_append, hn] using hq⟩

theorem visitFrom_nodup (tree : NODE) (p : Ptr) : (visitFrom tree p).Nodup := by
  unfold visitFrom
  cases nodeAt tree p with
  | none => simp
  | some n => exact visitOrder_nodup n p

theorem visitFrom_length (tree : NODE) (p : Ptr) : (visitFrom tree p).length = sizeAt tree p := by
  unfold visitFrom sizeAt
  cases nodeAt tree p with
  | none => simp
  | some n => simp [visitOrder_length]

theorem sizeAt_le_size : ∀ (p : Ptr) (tree : NODE), sizeAt tree p ≤ tree.size := by
  intro p
  induction p with
  | nil => intro tree; simp [sizeAt, nodeAt]
  | cons i p ih =>
    intro tree
    cases tree with
    | mk k v cs =>
      unfold sizeAt
      simp only [nodeAt]
      cases hc : cs[i]? with
      | none => simp
      | some c =>
        have h1 := ih c
        unfold sizeAt at h1
        have h2 : c.size ≤ (cs.map NODE.size).sum :=
          List.single_le_sum (by simp) _ (List.mem_map_of_mem _ (List.getElem?_mem hc))
        simp only [NODE.size, NODE.sizeList_eq_sum]
        omega

theorem DephtFirst_eq_scanOrder (tree : NODE) (root : Ptr) (result : SEARCHRESULT)
    (targetKey : String) (search : searchMode) :
    DephtFirst tree root result targetKey search =
      scanOrder tree targetKey search (visitFrom tree root) result := by
  unfold DephtFirst
  cases hn : nodeAt tree root with
  | none =>
    obtain ⟨m, hm⟩ : ∃ m, tree.size = m + 1 := ⟨tree.size - 1, by have := tree.size_pos; omega⟩
    simp [hm, DephtFirstLoop, hn, visitFrom, scanOrder]
  | some n =>
    rw [DephtFirstLoop_eq_scanOrder tree targetKey search tree.size [root] result
      (by simp [hn]) (by simpa using sizeAt_le_size root tree)]
    simp [stackOrder]

/-! ## What the scan returns in each mode -/

theorem scanOrder_fullTree (tree : NODE) (k : String) :
    ∀ (order : List Ptr) (r : SEARCHRESULT),
      scanOrder tree k searchMode.fullTree order r =
        ⟨r.numNodes + order.length, r.node, r.nodes ++ order⟩ := by
  intro order
  induction order with
  | nil => intro r; simp [scanOrder]
  | cons p ps ih =>
    intro r
    simp only [scanOrder, ih]
    simp
    omega

theorem scanOrder_no_match (tree : NODE) (k : String) (search : searchMode) :
    ∀ (order : List Ptr) (r : SEARCHRESULT),
      (∀ q ∈ order, keyAt tree q ≠ some k) →
      scanOrder tree k search order r =
        if search = searchMode.targetNode then r
        else ⟨r.numNodes + order.length, r.node, r.nodes ++ order⟩ := by
  intro order
  induction order with
  | nil => intro r _; cases search <;> simp [scanOrder]
  | cons p ps ih =>
    intro r h
    have hp : ¬ (keyAt tree p).map (fun x => strcmp x k) = some 0 := by
      intro hc
      obtain ⟨x, hx, hx0⟩ := Option.map_eq_some'.1 hc
      exact h p (List.mem_cons_self _ _) (by rw [hx, (strcmp_eq_zero x k).1 hx0])
    have ih' := fun r => ih r (fun q hq => h q (List.mem_cons_of_mem _ hq))
    cases search <;> simp [scanOrder, hp, ih'] <;> omega

theorem scanOrder_match (tree : NODE) (k : String) (search : searchMode)
    (hs : search ≠ searchMode.fullTree) (p : Ptr) (post : List Ptr)
    (hp : keyAt tree p = some k) :
    ∀ (pre : List Ptr) (r : SEARCHRESULT),
      (∀ q ∈ pre, keyAt tree q ≠ some k) →
      scanOrder tree k search (pre ++ p :: post) r =
        if search = searchMode.targetNode then ⟨r.numNodes + 1, some p, r.nodes⟩
        else ⟨r.numNodes + (pre.length + 1), r.node, r.nodes ++ (pre ++ [p])⟩ := by
  intro pre
  induction pre with
  | nil =>
    intro r _
    have h0 : (keyAt tree p).map (fun x => strcmp x k) = some 0 := by
      simp [hp, (strcmp_eq_zero k k).2 rfl]
    cases search <;> simp [scanOrder, h0] at hs ⊢
  | cons a pre ih =>
    intro r h
    have ha : ¬ (keyAt tree a).map (fun x => strcmp x k) = some 0 := by
      intro hc
      obtain ⟨x, hx, hx0⟩ := Option.map_eq_some'.1 hc
      exact h a (List.mem_cons_self _ _) (by rw [hx, (strcmp_eq_zero x k).1 hx0])
    have ih' := fun r => ih r (fun q hq => h q (List.mem_cons_of_mem _ hq))
    cases search
    · simp [scanOrder, ha, ih']
    · simp [scanOrder, ha, ih']
      omega
    · exact absurd rfl hs

theorem first_match_split {α : Type} (P : α → Prop) (l : List α) (h : ∃ q ∈ l, P q) :
    ∃ pre p post, l = pre ++ p :: post ∧ P p ∧ ∀ q ∈ pre, ¬ P q := by
  classical
  induction l with
  | nil => simp at h
  | cons a l ih =>
    by_cases ha : P a
    · exact ⟨[], a, l, rfl, ha, by simp⟩
    · obtain ⟨q, hq, hPq⟩ := h
      have hq' : q ∈ l := by
        rcases List.mem_cons.1 hq with rfl | hq
        · exact absurd hPq ha
        · exact hq
      obtain ⟨pre, p, post, hl, hp, hpre⟩ := ih ⟨q, hq', hPq⟩
      refine ⟨a :: pre, p, post, by simp [hl], hp, ?_⟩
      intro x hx
      rcases List.mem_cons.1 hx with rfl | hx
      · exact ha
      · exact hpre x hx

theorem Search_eq_DephtFirst (tree : NODE) (root : Ptr) (result : SEARCHRESULT)
    (k : String) (search : searchMode) (hk : '.' ∉ k.data) :
    Search tree root result k search = DephtFirst tree root result k search := by
  simp [Search, hk]

theorem Search_fullTree (tree : NODE) (root : Ptr) (result : SEARCHRESULT) (k : String) :
    Search tree root result k searchMode.fullTree =
      ⟨result.numNodes + (visitFrom tree root).length, result.node,
        result.nodes ++ visitFrom tree root⟩ := by
  simp [Search, DephtFirst_eq_scanOrder, scanOrder_fullTree]

theorem hasKey_iff_mem_visitFrom (tree : NODE) (k : String) :
    hasKey tree k ↔ ∃ q ∈ visitFrom tree [], keyAt tree q = some k := by
  constructor
  · rintro ⟨p, n, hp, hk⟩
    exact ⟨p, (mem_visitFrom tree [] p).2 ⟨List.nil_prefix, by simp [hp]⟩, by simp [keyAt, hp, hk]⟩
  · rintro ⟨q, _, hq⟩
    obtain ⟨n, hn, hk⟩ := Option.map_eq_some'.1 hq
    exact ⟨q, n, hn, hk⟩

/-! ## Claims about `Search` -/

/-- C1. For a key `k` without '.', `Search` in `targetNode` mode started at the
root sets `result.node` to a node with key `k` when some node of the tree has key
`k`, and leaves `result.node` as it was (absent, for a fresh result) when no node
has key `k`. -/
theorem search_targetNode_finds (tree : NODE) (k : String) (result : SEARCHRESULT)
    (hk : '.' ∉ k.data) :
    (hasKey tree k →
      ∃ p n, (Search tree [] result k searchMode.targetNode).node = some p ∧
        nodeAt tree p = some n ∧ n.key = k) ∧
    (¬ hasKey tree k → (Search tree [] result k searchMode.targetNode).node = result.node) := by
  rw [Search_eq_DephtFirst tree [] result k _ hk, DephtFirst_eq_scanOrder]
  constructor
  · intro h
    obtain ⟨pre, p, post, hl, hp, hpre⟩ :=
      first_match_split (fun q => keyAt tree q = some k) _ ((hasKey_iff_mem_visitFrom tree k).1 h)
    obtain ⟨n, hn, hnk⟩ := Option.map_eq_some'.1 hp
    refine ⟨p, n, ?_, hn, hnk⟩
    rw [hl, scanOrder_match tree k _ (by decide) p post hp pre result hpre]
    simp
  · intro h
    rw [scanOrder_no_match tree k _ _ result
      (fun q hq hc => h ((hasKey_iff_mem_visitFrom tree k).2 ⟨q, hq, hc⟩))]
    simp

/-- C1, evaluated: in `sampleTree` the key "c" is found at the first child of the
first child of the root. -/
theorem search_targetNode_finds_witness :
    '.' ∉ "c".data ∧
    ∃ p n, (Search sampleTree [] SEARCHRESULT.calloc "c" searchMode.targetNode).node = some p ∧
      nodeAt sampleTree p = some n ∧ n.key = "c" :=
  ⟨by decide,
   (search_targetNode_finds sampleTree "c" SEARCHRESULT.calloc (by decide)).1
     ⟨[0, 0], .mk "c" ⟨0, none⟩ [], rfl, rfl⟩⟩

/-- C2. `Search` in `fullTree` mode, started at any node `start` of the tree with a
fresh result and any target key, returns a sequence without repetition whose
members are exactly the pointers to the nodes of the subtree rooted at `start`;
its first element is `start`, and `numNodes` is the length of the sequence and the
number of nodes of that subtree. -/
theorem search_fullTree_complete (tree : NODE) (start : Ptr) (n : NODE) (k : String)
    (hstart : nodeAt tree start = some n) :
    (Search tree start SEARCHRESULT.calloc k searchMode.fullTree).nodes.Nodup ∧
    (∀ q, q ∈ (Search tree start SEARCHRESULT.calloc k searchMode.fullTree).nodes ↔
      start <+: q ∧ (nodeAt tree q).isSome = true) ∧
    (Search tree start SEARCHRESULT.calloc k searchMode.fullTree).nodes.head? = some start ∧
    (Search tree start SEARCHRESULT.calloc k searchMode.fullTree).numNodes =
      (Search tree start SEARCHRESULT.calloc k searchMode.fullTree).nodes.length ∧
    (Search tree start SEARCHRESULT.calloc k searchMode.fullTree).numNodes = n.size := by
  rw [Search_fullTree]
  simp only [SEARCHRESULT.calloc, List.nil_append, Nat.zero_add]
  refine ⟨visitFrom_nodup tree start, mem_visitFrom tree start, ?_, trivial, ?_⟩
  · rw [visitFrom_eq tree start n hstart]
    rfl
  · rw [visitFrom_length]
    simp [sizeAt, hstart]

/-- C2, evaluated: from the node `a` of `sampleTree` the search returns the three
nodes `a`, `d`, `c`. -/
theorem search_fullTree_complete_witness :
    nodeAt sampleTree [0] =
      some (.mk "a" ⟨0, none⟩ [.mk "c" ⟨0, none⟩ [], .mk "d" ⟨0, none⟩ []]) ∧
    (Search sampleTree [0] SEARCHRESULT.calloc "dummy" searchMode.fullTree).nodes =
      [[0], [0, 1], [0, 0]] ∧
    (Search sampleTree [0] SEARCHRESULT.calloc "dummy" searchMode.fullTree).numNodes = 3 :=
  ⟨rfl, by decide,
   (search_fullTree_complete sampleTree [0]
    (.mk "a" ⟨0, none⟩ [.mk "c" ⟨0, none⟩ [], .mk "d" ⟨0, none⟩ []]) "dummy" rfl).2.2.2.2⟩

/-- C3 as stated fails: for a root with the children `a`, `b` (in this stored order)
the `fullTree` search returns root, `b`, `a`, not the first-child-first listing
root, `a`, `b`. -/
theorem search_fullTree_not_specPreorder :
    (Search twoLeaves [] SEARCHRESULT.calloc "dummy" searchMode.fullTree).nodes = [[], [1], [0]] ∧
    specPreorderFrom twoLeaves [] = [[], [0], [1]] ∧
    (Search twoLeaves [] SEARCHRESULT.calloc "dummy" searchMode.fullTree).nodes ≠
      specPreorderFrom twoLeaves [] := by
  decide

/-- C3, amended. The sequence returned by `fullTree`-mode `Search` is the recursive
listing in which each node is followed by the listings of its children taken from
the last stored child to the first (`visitOrder`). -/
theorem search_fullTree_eq_visitOrder (tree : NODE) (start : Ptr) (k : String) :
    (Search tree start SEARCHRESULT.calloc k searchMode.fullTree).nodes =
      match nodeAt tree start with
      | some n => visitOrder start n
      | none => [] := by
  rw [Search_fullTree]
  simp [SEARCHRESULT.calloc, visitFrom]

/-- C4. For a key `k` without '.', the sequence returned by `traversedTarget`-mode
`Search` is the prefix of the `fullTree`-mode sequence that ends at the first node
with key `k` (so the target is its last element) when such a node is in the
sequence, and the whole `fullTree`-mode sequence when there is none. -/
theorem search_traversedTarget_cut (tree : NODE) (start : Ptr) (k : String)
    (hk : '.' ∉ k.data) :
    ((∃ q ∈ (Search tree start SEARCHRESULT.calloc k searchMode.fullTree).nodes,
        keyAt tree q = some k) →
      ∃ pre p post,
        (Search tree start SEARCHRESULT.calloc k searchMode.fullTree).nodes = pre ++ p :: post ∧
        keyAt tree p = some k ∧ (∀ q ∈ pre, keyAt tree q ≠ some k) ∧
        (Search tree start SEARCHRESULT.calloc k searchMode.traversedTarget).nodes = pre ++ [p] ∧
        (Search tree start SEARCHRESULT.calloc k searchMode.traversedTarget).nodes.getLast? =
          some p) ∧
    ((∀ q ∈ (Search tree start SEARCHRESULT.calloc k searchMode.fullTree).nodes,
        keyAt tree q ≠ some k) →
      (Search tree start SEARCHRESULT.calloc k searchMode.traversedTarget).nodes =
        (Search tree start SEARCHRESULT.calloc k searchMode.fullTree).nodes) := by
  rw [Search_fullTree, Search_eq_DephtFirst tree start _ k _ hk, DephtFirst_eq_scanOrder]
  simp only [SEARCHRESULT.calloc, List.nil_append]
  constructor
  · intro h
    obtain ⟨pre, p, post, hl, hp, hpre⟩ :=
      first_match_split (fun q => keyAt tree q = some k) _ h
    refine ⟨pre, p, post, hl, hp, hpre, ?_⟩
    rw [hl, scanOrder_match tree k _ (by decide) p post hp pre _ hpre]
    simp
  · intro h
    rw [scanOrder_no_match tree k _ _ _ h]
    simp

/-- C4, evaluated: in `sampleTree` the walk to "d" is root, `b`, `a`, `d`, the
`fullTree` sequence root, `b`, `a`, `d`, `c` cut after `d`. -/
theorem search_traversedTarget_cut_witness :
    '.' ∉ "d".data ∧
    ∃ pre p post,
      (Search sampleTree [] SEARCHRESULT.calloc "d" searchMode.fullTree).nodes = pre ++ p :: post ∧
      keyAt sampleTree p = some "d" ∧ (∀ q ∈ pre, keyAt sampleTree q ≠ some "d") ∧
      (Search sampleTree [] SEARCHRESULT.calloc "d" searchMode.traversedTarget).nodes = pre ++ [p] ∧
      (Search sampleTree [] SEARCHRESULT.calloc "d" searchMode.traversedTarget).nodes.getLast? =
        some p :=
  ⟨by decide,
   (search_traversedTarget_cut sampleTree [] "d" (by decide)).1 ⟨[0, 1], by decide, by decide⟩⟩

/-! ## `strcmp` is a total order on keys -/

theorem strcmpAux_pos_iff (a b : List Char) : 0 < strcmpAux a b ↔ strcmpAux b a < 0 := by
  induction a generalizing b with
  | nil => cases b <;> simp [strcmpAux]
  | cons x xs ih =>
    cases b with
    | nil => simp [strcmpAux]
    | cons y ys =>
      rcases lt_trichotomy x y with h | h | h
      · have h1 : x ≠ y := ne_of_lt h
        have h2 : ¬ y < x := not_lt_of_gt h
        simp [strcmpAux, h1, h1.symm, h, h2]
      · subst h
        simpa [strcmpAux] using ih ys
      · have h1 : x ≠ y := ne_of_gt h
        have h2 : ¬ x < y := not_lt_of_gt h
        simp [strcmpAux, h1, h1.symm, h, h2]

theorem strcmpAux_trans (a b c : List Char) :
    strcmpAux a b ≤ 0 → strcmpAux b c ≤ 0 → strcmpAux a c ≤ 0 := by
  induction a generalizing b c with
  | nil => cases c <;> simp [strcmpAux]
  | cons x xs ih =>
    cases b with
    | nil => simp [strcmpAux]
    | cons y ys =>
      cases c with
      | nil => simp [strcmpAux]
      | cons z zs =>
        intro h1 h2
        rcases lt_trichotomy x y with hxy | hxy | hxy
        · rcases lt_trichotomy y z with hyz | hyz | hyz
          · have hxz : x < z := lt_trans hxy hyz
            simp [strcmpAux, ne_of_lt hxz, hxz]
          · subst hyz
            simp [strcmpAux, ne_of_lt hxy, hxy]
          · simp [strcmpAux, ne_of_gt hyz, not_lt_of_gt hyz] at h2
        · subst hxy
          rcases lt_trichotomy x z with hxz | hxz | hxz
          · simp [strcmpAux, ne_of_lt hxz, hxz]
          · subst hxz
            simp only [strcmpAux, if_true] at h1 h2 ⊢
            exact ih ys zs h1 h2
          · simp [strcmpAux, ne_of_gt hxz, not_lt_of_gt hxz] at h2
        · simp [strcmpAux, ne_of_gt hxy, not_lt_of_gt hxy] at h1

theorem strcmp_pos_iff (a b : String) : 0 < strcmp a b ↔ strcmp b a < 0 :=
  strcmpAux_pos_iff a.data b.data

theorem strcmp_trans (a b c : String) :
    strcmp a b ≤ 0 → strcmp b c ≤ 0 → strcmp a c ≤ 0 :=
  strcmpAux_trans a.data b.data c.data

/-! ## `BubbleSort` -/

theorem Swap_cons (a : NODE) (l : List NODE) (i : Nat) :
    Swap (a :: l) (i + 2) = a :: Swap l (i + 1) := by
  have e1 : i + 2 - 1 = i + 1 := rfl
  have e2 : i + 1 - 1 = i := rfl
  unfold Swap
  rw [e1, e2]
  simp only [List.getElem?_cons_succ]
  cases l[i]? <;> cases l[i + 1]? <;> simp

theorem Swap_split (pre : List NODE) (x y : NODE) (post : List NODE) :
    Swap (pre ++ x :: y :: post) (pre.length + 1) = pre ++ y :: x :: post := by
  induction pre with
  | nil => simp [Swap]
  | cons a pre ih =>
    simp only [List.cons_append, List.length_cons]
    rw [Swap_cons, ih]

theorem split_at_pair (cs : List NODE) (i : Nat) (x y : NODE) (hi : 1 ≤ i)
    (hx : cs[i - 1]? = some x) (hy : cs[i]? = some y) :
    ∃ pre post, cs = pre ++ x :: y :: post ∧ pre.length + 1 = i := by
  obtain ⟨h1, e1⟩ := List.getElem?_eq_some.1 hx
  obtain ⟨h2, e2⟩ := List.getElem?_eq_some.1 hy
  refine ⟨cs.take (i - 1), cs.drop (i + 1), ?_, ?_⟩
  · have d1 := List.drop_eq_getElem_cons h1
    have d2 := List.drop_eq_getElem_cons h2
    have hii : i - 1 + 1 = i := by omega
    rw [hii, e1] at d1
    rw [e2] at d2
    rw [← d2, ← d1, List.take_append_drop]
  · rw [List.length_take]
    omega

theorem inversions_swap (pre : List NODE) (x y : NODE) (post : List NODE)
    (h : 0 < strcmp x.key y.key) :
    inversions (pre ++ y :: x :: post) + 1 = inversions (pre ++ x :: y :: post) := by
  induction pre with
  | nil =>
    have h' : ¬ 0 < strcmp y.key x.key := by
      have := (strcmp_pos_iff x.key y.key).1 h
      omega
    simp only [List.nil_append, inversions, List.countP_cons, h, h', decide_True, decide_False]
    simp
    omega
  | cons a pre ih =>
    have hp : (pre ++ y :: x :: post).Perm (pre ++ x :: y :: post) :=
      List.Perm.append_left _ (List.Perm.swap _ _ _)
    show inversions (a :: (pre ++ y :: x :: post)) + 1 = inversions (a :: (pre ++ x :: y :: post))
    simp only [inversions, hp.countP_eq]
    omega

theorem inversions_le (cs : List NODE) : inversions cs ≤ cs.length * cs.length := by
  induction cs with
  | nil => simp [inversions]
  | cons c cs ih =>
    have := @List.countP_le_length NODE (fun y => decide (0 < strcmp c.key y.key)) cs
    simp only [inversions, List.length_cons]
    nlinarith

theorem BubbleSortLoop_spec :
    ∀ (fuel i : Nat) (cs : List NODE), 1 ≤ i →
      (∀ j a b, j + 1 < i → cs[j]? = some a → cs[j + 1]? = some b → keyLE a b) →
      inversions cs * cs.length + (cs.length - i) + 1 ≤ fuel →
      ∃ out, BubbleSortLoop fuel i cs = some out ∧ out.Perm cs ∧ List.Chain' keyLE out := by
  intro fuel
  induction fuel with
  | zero => intro i cs _ _ h; omega
  | succ fuel ih =>
    intro i cs hi hsorted hfuel
    by_cases hlt : i < cs.length
    · obtain ⟨x, hx⟩ : ∃ x, cs[i - 1]? = some x :=
        ⟨cs[i - 1], List.getElem?_eq_getElem (by omega)⟩
      obtain ⟨y, hy⟩ : ∃ y, cs[i]? = some y := ⟨cs[i], List.getElem?_eq_getElem hlt⟩
      obtain ⟨pre, post, hcs, hpre⟩ := split_at_pair cs i x y hi hx hy
      simp only [BubbleSortLoop, hlt, if_true, hx, hy]
      by_cases hgt : strcmp x.key y.key > 0
      · simp only [hgt, if_true]
        have hswap : Swap cs i = pre ++ y :: x :: post := by
          rw [hcs, ← hpre, Swap_split]
        have hinv := inversions_swap pre x y post hgt
        rw [← hcs] at hinv
        have hlen : (pre ++ y :: x :: post).length = cs.length := by
          rw [hcs]; simp
        obtain ⟨out, hout, hperm, hchain⟩ := ih 1 (Swap cs i) (le_refl 1)
          (by intro j a b hj; omega)
          (by
            rw [hswap, hlen]
            have : inversions (pre ++ y :: x :: post) * cs.length + cs.length
                = inversions cs * cs.length := by
              rw [← hinv]; ring
            omega)
        refine ⟨out, hout, hperm.trans ?_, hchain⟩
        rw [hswap, hcs]
        exact List.Perm.append_left _ (List.Perm.swap _ _ _)
      · simp only [hgt, if_false]
        apply ih (i + 1) cs (by omega)
        · intro j a b hj ha hb
          by_cases hji : j + 1 < i
          · exact hsorted j a b hji ha hb
          · have hj' : j + 1 = i := by omega
            have hj'' : j = i - 1 := by omega
            rw [hj'] at hb
            rw [hj''] at ha
            rw [hx] at ha
            rw [hy] at hb
            cases ha
            cases hb
            unfold keyLE
            omega
        · omega
    · refine ⟨cs, by simp [BubbleSortLoop, hlt], List.Perm.refl _, ?_⟩
      rw [List.chain'_iff_get]
      intro j h
      exact hsorted j _ _ (by omega) (List.getElem?_eq_getElem _) (List.getElem?_eq_getElem _)

theorem keyLE_trans (a b c : NODE) : keyLE a b → keyLE b c → keyLE a c :=
  strcmp_trans a.key b.key c.key

theorem BubbleSort_spec (cs : List NODE) :
    BubbleSortLoop (BubbleSortFuel cs.length) 1 cs = some (BubbleSort cs) ∧
    (BubbleSort cs).Perm cs ∧ (BubbleSort cs).Pairwise keyLE := by
  obtain ⟨out, hout, hperm, hchain⟩ := BubbleSortLoop_spec (BubbleSortFuel cs.length) 1 cs
    (le_refl 1) (by intro j a b hj; omega)
    (by
      have := inversions_le cs
      unfold BubbleSortFuel
      have h2 : inversions cs * cs.length ≤ cs.length * cs.length * cs.length :=
        Nat.mul_le_mul_right _ this
      omega)
  have hB : BubbleSort cs = out := by simp [BubbleSort, hout]
  haveI : IsTrans NODE keyLE := ⟨keyLE_trans⟩
  rw [hB]
  exact ⟨hout, hperm, List.chain'_iff_pairwise.1 hchain⟩

/-! ## Writing through a pointer -/

theorem set_of_getElem? {α : Type} (cs : List α) (i : Nat) (c : α) (hc : cs[i]? = some c) :
    cs.set i c = cs := by
  apply List.ext_getElem?
  intro j
  rw [List.getElem?_set]
  by_cases hij : i = j
  · subst hij
    simp [hc, (List.getElem?_eq_some.1 hc).1]
  · simp [hij]

theorem modifyAt_of_none (f : NODE → NODE) :
    ∀ (p : Ptr) (t : NODE), nodeAt t p = none → modifyAt t p f = t := by
  intro p
  induction p with
  | nil => intro t h; simp [nodeAt] at h
  | cons i p ih =>
    intro t h
    cases t with
    | mk k v cs =>
      simp only [nodeAt] at h
      simp only [modifyAt]
      cases hc : cs[i]? with
      | none => rfl
      | some c =>
        simp only [hc] at h
        simp only [ih c h]
        rw [set_of_getElem? cs i c hc]

theorem nodeAt_modifyAt_append (f : NODE → NODE) (r : Ptr) :
    ∀ (p : Ptr) (t n : NODE), nodeAt t p = some n →
      nodeAt (modifyAt t p f) (p ++ r) = nodeAt (f n) r := by
  intro p
  induction p with
  | nil =>
    intro t n h
    simp only [nodeAt, Option.some.injEq] at h
    subst h
    simp [modifyAt]
  | cons i p ih =>
    intro t n h
    cases t with
    | mk k v cs =>
      simp only [nodeAt] at h
      cases hc : cs[i]? with
      | none => simp [hc] at h
      | some c =>
        simp only [hc] at h
        have hi : i < cs.length := (List.getElem?_eq_some.1 hc).1
        simp only [modifyAt, hc, List.cons_append, nodeAt]
        rw [List.getElem?_set_self hi]
        exact ih c n h

theorem nodeAt_modifyAt_self (f : NODE → NODE) (p : Ptr) (t n : NODE)
    (h : nodeAt t p = some n) : nodeAt (modifyAt t p f) p = some (f n) := by
  have := nodeAt_modifyAt_append f [] p t n h
  simpa [nodeAt] using this

theorem nodeAt_modifyAt_frame (f : NODE → NODE) :
    ∀ (p q : Ptr) (t : NODE), ¬ p <+: q →
      (nodeAt (modifyAt t p f) q).map NODE.fields = (nodeAt t q).map NODE.fields := by
  intro p
  induction p with
  | nil => intro q t h; exact absurd List.nil_prefix h
  | cons i p ih =>
    intro q t h
    cases t with
    | mk k v cs =>
      simp only [modifyAt]
      cases hc : cs[i]? with
      | none => rfl
      | some c =>
        have hi : i < cs.length := (List.getElem?_eq_some.1 hc).1
        cases q with
        | nil => simp [nodeAt, NODE.fields, NODE.key, NODE.value, NODE.numChildren, NODE.children]
        | cons j q =>
          simp only [nodeAt]
          by_cases hij : i = j
          · subst hij
            rw [List.getElem?_set_self hi, hc]
            apply ih q c
            intro hpq
            exact h ((List.prefix_cons_inj i).2 hpq)
          · rw [List.getElem?_set_ne hij]

theorem nodeAt_modifyAt_isSome (f : NODE → NODE) :
    ∀ (p q : Ptr) (t : NODE), ¬ p <+: q →
      (nodeAt (modifyAt t p f) q).isSome = (nodeAt t q).isSome := by
  intro p q t h
  have := congrArg Option.isSome (nodeAt_modifyAt_frame f p q t h)
  simpa using this

theorem keyAt_modifyAt_frame (f : NODE → NODE) (p q : Ptr) (t : NODE) (h : ¬ p <+: q) :
    keyAt (modifyAt t p f) q = keyAt t q := by
  have := congrArg (Option.map Prod.fst) (nodeAt_modifyAt_frame f p q t h)
  simpa [keyAt, NODE.fields, Option.map_map, Function.comp] using this

/-! ## The visiting order as a relation on pointers -/

theorem visitedBefore_append (p r s : Ptr) :
    visitedBefore (p ++ r) (p ++ s) = visitedBefore r s := by
  induction p with
  | nil => rfl
  | cons i p ih => simp [visitedBefore, ih]

theorem visitedBefore_asymm : ∀ (a b : Ptr), visitedBefore a b = true → visitedBefore b a = false := by
  intro a
  induction a with
  | nil => intro b _; cases b <;> rfl
  | cons i a ih =>
    intro b h
    cases b with
    | nil => simp [visitedBefore] at h
    | cons j b =>
      simp only [visitedBefore, Bool.or_eq_true, decide_eq_true_eq, Bool.and_eq_true] at h
      simp only [visitedBefore, Bool.or_eq_false_iff, decide_eq_false_iff_not,
        Bool.and_eq_false_imp, decide_eq_true_eq]
      rcases h with h | ⟨h1, h2⟩
      · exact ⟨by omega, by intro hji; omega⟩
      · exact ⟨by omega, fun _ => ih b h2⟩

theorem visitedBefore_irrefl (a : Ptr) : visitedBefore a a = false := by
  cases h : visitedBefore a a with
  | false => rfl
  | true => simpa [h] using visitedBefore_asymm a a h

theorem visitedBefore_of_prefix (p q : Ptr) (h : p <+: q) : visitedBefore q p = false := by
  obtain ⟨r, rfl⟩ := h
  have := visitedBefore_append p r []
  rw [List.append_nil] at this
  rw [this]
  cases r <;> rfl

theorem visitOrderList_pairwise (cs : List NODE)
    (hmem : ∀ c ∈ cs, ∀ p q, q ∈ visitOrder p c ↔ ∃ r, q = p ++ r ∧ (nodeAt c r).isSome = true)
    (h : ∀ c ∈ cs, ∀ p, (visitOrder p c).Pairwise (fun a b => visitedBefore a b = true)) :
    ∀ p i, (visitOrderList p i cs).Pairwise (fun a b => visitedBefore a b = true) := by
  induction cs with
  | nil => intro p i; simp [visitOrderList]
  | cons c cs ih =>
    intro p i
    have hmem' : ∀ c' ∈ cs, ∀ p q, q ∈ visitOrder p c' ↔
        ∃ r, q = p ++ r ∧ (nodeAt c' r).isSome = true :=
      fun c' hc' => hmem c' (List.mem_cons_of_mem _ hc')
    have h1 := ih hmem' (fun c' hc' => h c' (List.mem_cons_of_mem _ hc')) p (i + 1)
    have h2 := h c (List.mem_cons_self _ _) (p ++ [i])
    simp only [visitOrderList]
    rw [List.pairwise_append]
    refine ⟨h1, h2, ?_⟩
    intro a ha b hb
    obtain ⟨j, c', r, _, rfl, _⟩ := (mem_visitOrderList cs hmem' p (i + 1) a).1 ha
    obtain ⟨r', rfl, _⟩ := (hmem c (List.mem_cons_self _ _) (p ++ [i]) b).1 hb
    rw [List.append_assoc, visitedBefore_append]
    simp [visitedBefore]
    omega

theorem visitOrder_pairwise (n : NODE) :
    ∀ p, (visitOrder p n).Pairwise (fun a b => visitedBefore a b = true) := by
  induction n using NODE.induct with
  | h k v cs ih =>
    intro p
    have hmem : ∀ c ∈ cs, ∀ p q, q ∈ visitOrder p c ↔
        ∃ r, q = p ++ r ∧ (nodeAt c r).isSome = true := fun c _ => mem_visitOrder c
    simp only [visitOrder, List.pairwise_cons]
    refine ⟨?_, visitOrderList_pairwise cs hmem ih p 0⟩
    intro b hb
    obtain ⟨j, c, r, _, rfl, _⟩ := (mem_visitOrderList cs hmem p 0 b).1 hb
    have := visitedBefore_append p [] ((0 + j) :: r)
    rw [List.append_nil] at this
    rw [this]
    rfl

theorem visitFrom_pairwise (tree : NODE) (p : Ptr) :
    (visitFrom tree p).Pairwise (fun a b => visitedBefore a b = true) := by
  unfold visitFrom
  cases nodeAt tree p with
  | none => simp
  | some n => exact visitOrder_pairwise n p

/-! ## The node a `targetNode` search returns -/

theorem mem_visitFrom_root_of_keyAt (tree : NODE) (q : Ptr) (k : String)
    (h : keyAt tree q = some k) : q ∈ visitFrom tree [] := by
  obtain ⟨n, hn, _⟩ := Option.map_eq_some'.1 h
  exact (mem_visitFrom tree [] q).2 ⟨List.nil_prefix, by simp [hn]⟩

theorem isFirst_of_split (tree : NODE) (k : String) (pre : List Ptr) (p : Ptr) (post : List Ptr)
    (hl : visitFrom tree [] = pre ++ p :: post) (hp : keyAt tree p = some k)
    (hpre : ∀ q ∈ pre, keyAt tree q ≠ some k) : isFirst tree k p := by
  refine ⟨hp, ?_⟩
  intro q hq
  have hmem := mem_visitFrom_root_of_keyAt tree q k hq
  have hpw := visitFrom_pairwise tree []
  rw [hl] at hmem hpw
  rcases List.mem_append.1 hmem with hq1 | hq2
  · exact absurd hq (hpre q hq1)
  · rcases List.mem_cons.1 hq2 with rfl | hq3
    · exact visitedBefore_irrefl q
    · have := (List.pairwise_cons.1 (List.pairwise_append.1 hpw).2.1).1 q hq3
      exact visitedBefore_asymm p q this

theorem isFirst_unique (tree : NODE) (k : String) (p q : Ptr)
    (hp : isFirst tree k p) (hq : isFirst tree k q) : p = q := by
  have hpm := mem_visitFrom_root_of_keyAt tree p k hp.1
  have hqm := mem_visitFrom_root_of_keyAt tree q k hq.1
  have hpw := visitFrom_pairwise tree []
  by_contra hne
  obtain ⟨i, hi, rfl⟩ := List.getElem_of_mem hpm
  obtain ⟨j, hj, rfl⟩ := List.getElem_of_mem hqm
  rw [List.pairwise_iff_getElem] at hpw
  rcases Nat.lt_trichotomy i j with hij | hij | hij
  · have := hpw i j hi hj hij
    rw [hq.2 _ hp.1] at this
    cases this
  · subst hij
    exact hne rfl
  · have := hpw j i hj hi hij
    rw [hp.2 _ hq.1] at this
    cases this

theorem exists_isFirst (tree : NODE) (k : String) (h : hasKey tree k) :
    ∃ pre p post, visitFrom tree [] = pre ++ p :: post ∧ isFirst tree k p ∧
      ∀ q ∈ pre, keyAt tree q ≠ some k := by
  obtain ⟨pre, p, post, hl, hp, hpre⟩ :=
    first_match_split (fun q => keyAt tree q = some k) _ ((hasKey_iff_mem_visitFrom tree k).1 h)
  exact ⟨pre, p, post, hl, isFirst_of_split tree k pre p post hl hp hpre, hpre⟩

theorem hasKey_of_isFirst (tree : NODE) (k : String) (p : Ptr) (h : isFirst tree k p) :
    hasKey tree k := by
  obtain ⟨n, hn, hk⟩ := Option.map_eq_some'.1 h.1
  exact ⟨p, n, hn, hk⟩

theorem Search_targetNode_of_isFirst (tree : NODE) (k : String) (result : SEARCHRESULT)
    (p : Ptr) (hk : '.' ∉ k.data) (hp : isFirst tree k p) :
    Search tree [] result k searchMode.targetNode = ⟨result.numNodes + 1, some p, result.nodes⟩ := by
  obtain ⟨pre, p0, post, hl, hp0, hpre⟩ := exists_isFirst tree k (hasKey_of_isFirst tree k p hp)
  have := isFirst_unique tree k p p0 hp hp0
  subst this
  rw [Search_eq_DephtFirst tree [] result k _ hk, DephtFirst_eq_scanOrder, hl,
    scanOrder_match tree k _ (by decide) p post hp.1 pre result hpre]
  simp

theorem Search_targetNode_of_not_hasKey (tree : NODE) (k : String) (result : SEARCHRESULT)
    (hk : '.' ∉ k.data) (h : ¬ hasKey tree k) :
    Search tree [] result k searchMode.targetNode = result := by
  rw [Search_eq_DephtFirst tree [] result k _ hk, DephtFirst_eq_scanOrder,
    scanOrder_no_match tree k _ _ result
      (fun q hq hc => h ((hasKey_iff_mem_visitFrom tree k).2 ⟨q, hq, hc⟩))]
  simp

/-- Writing through the pointer of the first node with key `k` leaves it the first
node with key `k`, as long as the write keeps its key. -/
theorem isFirst_modifyAt (tree : NODE) (k : String) (p : Ptr) (f : NODE → NODE)
    (hf : ∀ n, (f n).key = n.key) (hp : isFirst tree k p) :
    isFirst (modifyAt tree p f) k p := by
  obtain ⟨n, hn, hnk⟩ := Option.map_eq_some'.1 hp.1
  refine ⟨?_, ?_⟩
  · simp [keyAt, nodeAt_modifyAt_self f p tree n hn, hf, hnk]
  · intro q hq
    by_cases hpq : p <+: q
    · exact visitedBefore_of_prefix p q hpq
    · rw [keyAt_modifyAt_frame f p q tree hpq] at hq
      exact hp.2 q hq

/-! ## `AddNode` in closed form -/

theorem AddNode_of_hasKey (t : NODE) (p k : String) (hk : '.' ∉ k.data) (h : hasKey t k) :
    AddNode t p k = (ERROR, t) := by
  obtain ⟨_, target, _, _, htarget, _⟩ := exists_isFirst t k h
  simp [AddNode, Search_targetNode_of_isFirst t k _ target hk htarget]

theorem AddNode_of_no_parent (t : NODE) (p k : String) (hp : '.' ∉ p.data) (hk : '.' ∉ k.data)
    (h : ¬ hasKey t p) : AddNode t p k = (ERROR, t) := by
  by_cases hkey : hasKey t k
  · exact AddNode_of_hasKey t p k hk hkey
  · simp [AddNode, Search_targetNode_of_not_hasKey t k _ hk hkey,
      Search_targetNode_of_not_hasKey t p _ hp h, SEARCHRESULT.calloc]

theorem AddNode_of_isFirst (t : NODE) (p k : String) (target : Ptr) (hp : '.' ∉ p.data)
    (hk : '.' ∉ k.data) (hkey : ¬ hasKey t k) (htarget : isFirst t p target) :
    AddNode t p k = (OK, modifyAt t target
      (fun n => .mk n.key ⟨0, none⟩ (BubbleSort (n.children ++ [CreateNode k])))) := by
  simp [AddNode, Search_targetNode_of_not_hasKey t k _ hk hkey,
    Search_targetNode_of_isFirst t p _ target hp htarget, SEARCHRESULT.calloc]

theorem OK_ne_ERROR : OK ≠ ERROR := by decide

theorem strcmpAux_neg_iff_lex (a b : List Char) :
    strcmpAux a b < 0 ↔ List.Lex (fun x y => x < y) a b := by
  induction a generalizing b with
  | nil =>
    cases b with
    | nil => simp [strcmpAux]
    | cons y ys => simp [strcmpAux, List.Lex.nil]
  | cons x xs ih =>
    cases b with
    | nil => simp [strcmpAux]
    | cons y ys =>
      rcases lt_trichotomy x y with h | h | h
      · simp [strcmpAux, ne_of_lt h, h, List.Lex.rel h]
      · subst h
        simp only [strcmpAux, if_true, ih]
        constructor
        · intro hl
          exact List.Lex.cons hl
        · intro hl
          cases hl with
          | cons hl => exact hl
          | rel hr => exact absurd hr (lt_irrefl _)
      · simp only [strcmpAux, ne_of_gt h, not_lt_of_gt h, if_false]
        constructor
        · intro hc
          omega
        · intro hl
          cases hl with
          | cons _ => exact absurd h (lt_irrefl _)
          | rel hr => exact absurd hr (not_lt_of_gt h)

theorem keyLE_iff_lex (a b : NODE) :
    keyLE a b ↔ a.key = b.key ∨ List.Lex (fun x y => x < y) a.key.data b.key.data := by
  unfold keyLE
  rw [← strcmpAux_neg_iff_lex, ← strcmp_eq_zero]
  unfold strcmp
  omega

theorem AddNode_rc_ok_iff (t : NODE) (p k : String) (hp : '.' ∉ p.data) (hk : '.' ∉ k.data) :
    (AddNode t p k).1 = OK ↔ ¬ hasKey t k ∧ hasKey t p := by
  constructor
  · intro hok
    constructor
    · intro h
      rw [AddNode_of_hasKey t p k hk h] at hok
      exact OK_ne_ERROR hok.symm
    · by_contra h
      rw [AddNode_of_no_parent t p k hp hk h] at hok
      exact OK_ne_ERROR hok.symm
  · rintro ⟨hkey, hpar⟩
    obtain ⟨_, target, _, _, htarget, _⟩ := exists_isFirst t p hpar
    rw [AddNode_of_isFirst t p k target hp hk hkey htarget]

/-! ## Claims about `AddNode` -/

/-- C5. For a parent key `p` and a new key `k` without '.', and with every
allocation succeeding, `AddNode(p, k)` returns `OK` exactly when no node of the
tree has key `k` and some node has key `p`; it returns `ERROR` when `k` is the key
of a node and when no node has key `p`. -/
theorem addNode_ok_iff (t : NODE) (p k : String) (hp : '.' ∉ p.data) (hk : '.' ∉ k.data) :
    ((AddNode t p k).1 = OK ↔ ¬ hasKey t k ∧ hasKey t p) ∧
    (hasKey t k → (AddNode t p k).1 = ERROR) ∧
    (¬ hasKey t p → (AddNode t p k).1 = ERROR) := by
  refine ⟨AddNode_rc_ok_iff t p k hp hk, ?_, ?_⟩
  · intro h
    rw [AddNode_of_hasKey t p k hk h]
  · intro h
    rw [AddNode_of_no_parent t p k hp hk h]

/-- C5, evaluated: adding "e" under "a" in `sampleTree` returns `OK`. -/
theorem addNode_ok_iff_witness :
    '.' ∉ "a".data ∧ '.' ∉ "e".data ∧ (AddNode sampleTree "a" "e").1 = OK :=
  ⟨by decide, by decide,
   ((addNode_ok_iff sampleTree "a" "e" (by decide) (by decide)).1).2
     ⟨by
        rintro ⟨q, n, hq, hn⟩
        have hmem := (mem_visitFrom sampleTree [] q).2 ⟨List.nil_prefix, by simp [hq]⟩
        have hall : ∀ q ∈ visitFrom sampleTree [], keyAt sampleTree q ≠ some "e" := by decide
        exact hall q hmem (by simp [keyAt, hq, hn]),
      ⟨[0], _, rfl, rfl⟩⟩⟩

/-- C6. For keys without '.', `AddNode(p, k)` returns `ERROR` exactly when `k` is
already the key of a node or no node has key `p`, and whenever it returns `ERROR`
the tree after the call is the tree before it. -/
theorem addNode_error_unchanged (t : NODE) (p k : String) (hp : '.' ∉ p.data)
    (hk : '.' ∉ k.data) :
    ((hasKey t k ∨ ¬ hasKey t p) → (AddNode t p k).1 = ERROR ∧ (AddNode t p k).2 = t) ∧
    ((AddNode t p k).1 = ERROR → (hasKey t k ∨ ¬ hasKey t p) ∧ (AddNode t p k).2 = t) := by
  have h1 : (hasKey t k ∨ ¬ hasKey t p) → (AddNode t p k).1 = ERROR ∧ (AddNode t p k).2 = t := by
    rintro (h | h)
    · rw [AddNode_of_hasKey t p k hk h]
      exact ⟨rfl, rfl⟩
    · rw [AddNode_of_no_parent t p k hp hk h]
      exact ⟨rfl, rfl⟩
  refine ⟨h1, ?_⟩
  intro herr
  have hcause : hasKey t k ∨ ¬ hasKey t p := by
    by_contra hc
    push_neg at hc
    have := (AddNode_rc_ok_iff t p k hp hk).2 ⟨hc.1, hc.2⟩
    rw [this] at herr
    exact OK_ne_ERROR herr
  exact ⟨hcause, (h1 hcause).2⟩

/-- C6, evaluated: adding the existing key "c" under "b" in `sampleTree` returns
`ERROR` and leaves `sampleTree`. -/
theorem addNode_error_unchanged_witness :
    '.' ∉ "b".data ∧ '.' ∉ "c".data ∧
    (AddNode sampleTree "b" "c").1 = ERROR ∧ (AddNode sampleTree "b" "c").2 = sampleTree :=
  ⟨by decide, by decide,
   (addNode_error_unchanged sampleTree "b" "c" (by decide) (by decide)).1
     (Or.inl ⟨[0, 0], _, rfl, rfl⟩)⟩

theorem modifyAt_congr (f g : NODE → NODE) :
    ∀ (p : Ptr) (t n : NODE), nodeAt t p = some n → f n = g n →
      modifyAt t p f = modifyAt t p g := by
  intro p
  induction p with
  | nil =>
    intro t n h hfg
    simp only [nodeAt, Option.some.injEq] at h
    subst h
    simpa [modifyAt] using hfg
  | cons i p ih =>
    intro t n h hfg
    cases t with
    | mk k v cs =>
      simp only [nodeAt] at h
      cases hc : cs[i]? with
      | none => simp [hc] at h
      | some c =>
        simp only [hc] at h
        simp only [modifyAt, hc]
        rw [ih c n h hfg]

/-- C7. When `AddNode(p, k)` returns `OK` (keys without '.'), the node found for `p`
(the first node with key `p` in visiting order, `n` before the call and `n'` after
it) has as children its former children plus one new node with key `k`, no
children, integer 0 and no string, in ascending lexicographic key order whatever
their order was before; the tree is otherwise the old one, so every node outside the
subtree of `p` keeps key, value and number of children. -/
theorem addNode_ok_children (t : NODE) (p k : String) (hp : '.' ∉ p.data) (hk : '.' ∉ k.data)
    (hok : (AddNode t p k).1 = OK) :
    ∃ target n n', isFirst t p target ∧ nodeAt t target = some n ∧
      nodeAt (AddNode t p k).2 target = some n' ∧ n'.key = p ∧
      n'.children.Perm (n.children ++ [NODE.mk k ⟨0, none⟩ []]) ∧
      n'.children.Pairwise (fun a b => strcmp a.key b.key ≤ 0) ∧
      n'.children.Pairwise
        (fun a b => a.key = b.key ∨ List.Lex (fun x y => x < y) a.key.data b.key.data) ∧
      (AddNode t p k).2 = modifyAt t target (fun _ => n') ∧
      ∀ q, ¬ target <+: q →
        (nodeAt (AddNode t p k).2 q).map NODE.fields = (nodeAt t q).map NODE.fields := by
  obtain ⟨hkey, hpar⟩ := (AddNode_rc_ok_iff t p k hp hk).1 hok
  obtain ⟨_, target, _, _, htarget, _⟩ := exists_isFirst t p hpar
  obtain ⟨n, hn, hnk⟩ := Option.map_eq_some'.1 htarget.1
  obtain ⟨_, hperm, hsorted⟩ := BubbleSort_spec (n.children ++ [CreateNode k])
  rw [AddNode_of_isFirst t p k target hp hk hkey htarget]
  refine ⟨target, n, .mk n.key ⟨0, none⟩ (BubbleSort (n.children ++ [CreateNode k])),
    htarget, hn, nodeAt_modifyAt_self _ target t n hn, hnk, hperm, hsorted, ?_, ?_, ?_⟩
  · exact hsorted.imp (fun {a b} h => (keyLE_iff_lex a b).1 h)
  · exact modifyAt_congr _ _ target t n hn rfl
  · intro q hq
    exact nodeAt_modifyAt_frame _ target q t hq

/-- C7, evaluated: adding "c" under the root of `unsortedLeaves`, whose children are
stored as `b`, `a`. -/
theorem addNode_ok_children_witness :
    '.' ∉ "root".data ∧ '.' ∉ "c".data ∧ (AddNode unsortedLeaves "root" "c").1 = OK ∧
    (AddNode unsortedLeaves "root" "c").2 =
      .mk "root" ⟨0, none⟩ [.mk "a" ⟨0, none⟩ [], .mk "b" ⟨0, none⟩ [], .mk "c" ⟨0, none⟩ []] ∧
    ∃ target n n', isFirst unsortedLeaves "root" target ∧ nodeAt unsortedLeaves target = some n ∧
      nodeAt (AddNode unsortedLeaves "root" "c").2 target = some n' ∧ n'.key = "root" ∧
      n'.children.Perm (n.children ++ [NODE.mk "c" ⟨0, none⟩ []]) ∧
      n'.children.Pairwise (fun a b => strcmp a.key b.key ≤ 0) ∧
      n'.children.Pairwise
        (fun a b => a.key = b.key ∨ List.Lex (fun x y => x < y) a.key.data b.key.data) ∧
      (AddNode unsortedLeaves "root" "c").2 = modifyAt unsortedLeaves target (fun _ => n') ∧
      ∀ q, ¬ target <+: q →
        (nodeAt (AddNode unsortedLeaves "root" "c").2 q).map NODE.fields =
          (nodeAt unsortedLeaves q).map NODE.fields :=
  ⟨by decide, by decide, by decide, by decide,
   addNode_ok_children unsortedLeaves "root" "c" (by decide) (by decide) (by decide)⟩

/-- C8. When `AddNode(p, k)` returns `OK` (keys without '.'), the node found for `p`,
whatever it held before (a string or a non-zero integer if it was a leaf), holds
no string and integer 0 afterwards and `NodeType` of it is `parentNode`, so
`GetString(p)` returns `NULL` and `GetInt(p)` returns 0. -/
theorem addNode_clears_parent (t : NODE) (p k : String) (hp : '.' ∉ p.data)
    (hk : '.' ∉ k.data) (hok : (AddNode t p k).1 = OK) :
    ∃ target n', isFirst t p target ∧ isFirst (AddNode t p k).2 p target ∧
      nodeAt (AddNode t p k).2 target = some n' ∧
      n'.value.string = none ∧ n'.value.integer = 0 ∧
      NodeType (some n') = nodeType.parentNode ∧
      GetString (AddNode t p k).2 p = none ∧ GetInt (AddNode t p k).2 p = 0 := by
  obtain ⟨hkey, hpar⟩ := (AddNode_rc_ok_iff t p k hp hk).1 hok
  obtain ⟨_, target, _, _, htarget, _⟩ := exists_isFirst t p hpar
  obtain ⟨n, hn, hnk⟩ := Option.map_eq_some'.1 htarget.1
  obtain ⟨_, hperm, _⟩ := BubbleSort_spec (n.children ++ [CreateNode k])
  rw [AddNode_of_isFirst t p k target hp hk hkey htarget]
  have hfirst := isFirst_modifyAt t p target
    (fun n => .mk n.key ⟨0, none⟩ (BubbleSort (n.children ++ [CreateNode k])))
    (fun _ => rfl) htarget
  have hnode := nodeAt_modifyAt_self
    (fun n => NODE.mk n.key ⟨0, none⟩ (BubbleSort (n.children ++ [CreateNode k]))) target t n hn
  have hne : (NODE.mk n.key ⟨0, none⟩
      (BubbleSort (n.children ++ [CreateNode k]))).numChildren ≠ 0 := by
    show (BubbleSort (n.children ++ [CreateNode k])).length ≠ 0
    rw [hperm.length_eq]
    simp
  have htype : NodeType (some (NODE.mk n.key ⟨0, none⟩
      (BubbleSort (n.children ++ [CreateNode k])))) = nodeType.parentNode := by
    simp only [NodeType]
    rw [if_pos hne]
  refine ⟨target, _, htarget, hfirst, hnode, rfl, rfl, htype, ?_, ?_⟩
  · simp only [GetString, Search_targetNode_of_isFirst _ p _ target hp hfirst, hnode, htype]
    simp
  · simp only [GetInt, Search_targetNode_of_isFirst _ p _ target hp hfirst, hnode, htype]
    simp

/-- C8, evaluated: in `stringLeafTree` the leaf `p` holds "hello"; after adding "k"
under it `GetString` returns `NULL` and `GetInt` returns 0. -/
theorem addNode_clears_parent_witness :
    '.' ∉ "p".data ∧ '.' ∉ "k".data ∧ (AddNode stringLeafTree "p" "k").1 = OK ∧
    GetString stringLeafTree "p" = some "hello" ∧
    ∃ target n', isFirst stringLeafTree "p" target ∧
      isFirst (AddNode stringLeafTree "p" "k").2 "p" target ∧
      nodeAt (AddNode stringLeafTree "p" "k").2 target = some n' ∧
      n'.value.string = none ∧ n'.value.integer = 0 ∧
      NodeType (some n') = nodeType.parentNode ∧
      GetString (AddNode stringLeafTree "p" "k").2 "p" = none ∧
      GetInt (AddNode stringLeafTree "p" "k").2 "p" = 0 :=
  ⟨by decide, by decide, by decide, by decide,
   addNode_clears_parent stringLeafTree "p" "k" (by decide) (by decide) (by decide)⟩

/-! ## The keys of a tree -/

theorem keysList_append (l₁ l₂ : List NODE) :
    NODE.keysList (l₁ ++ l₂) = NODE.keysList l₁ ++ NODE.keysList l₂ := by
  induction l₁ with
  | nil => rfl
  | cons c l₁ ih => simp [NODE.keysList, ih]

theorem keysList_perm {l₁ l₂ : List NODE} (h : l₁.Perm l₂) :
    (NODE.keysList l₁).Perm (NODE.keysList l₂) := by
  induction h with
  | nil => exact List.Perm.refl _
  | cons c _ ih => exact List.Perm.append_left _ ih
  | swap a b l =>
    simp only [NODE.keysList, ← List.append_assoc]
    exact List.Perm.append_right _ List.perm_append_comm
  | trans _ _ ih₁ ih₂ => exact ih₁.trans ih₂

theorem keys_subset_keysList (cs : List NODE) (c : NODE) (hc : c ∈ cs) :
    ∀ x ∈ c.keys, x ∈ NODE.keysList cs := by
  induction cs with
  | nil => cases hc
  | cons e cs ih =>
    intro x hx
    simp only [NODE.keysList, List.mem_append]
    rcases List.mem_cons.1 hc with rfl | hc
    · exact Or.inl hx
    · exact Or.inr (ih hc x hx)

theorem mem_keysList (cs : List NODE) (x : String) (hx : x ∈ NODE.keysList cs) :
    ∃ c ∈ cs, x ∈ c.keys := by
  induction cs with
  | nil => cases hx
  | cons e cs ih =>
    simp only [NODE.keysList, List.mem_append] at hx
    rcases hx with hx | hx
    · exact ⟨e, List.mem_cons_self _ _, hx⟩
    · obtain ⟨c, hc, hxc⟩ := ih hx
      exact ⟨c, List.mem_cons_of_mem _ hc, hxc⟩

theorem mem_keys_iff_hasKey (n : NODE) : ∀ x, x ∈ n.keys ↔ hasKey n x := by
  induction n using NODE.induct with
  | h k v cs ih =>
    intro x
    constructor
    · intro hx
      simp only [NODE.keys, List.mem_cons] at hx
      rcases hx with rfl | hx
      · exact ⟨[], _, rfl, rfl⟩
      · obtain ⟨c, hc, hxc⟩ := mem_keysList cs x hx
        obtain ⟨p, m, hp, hm⟩ := (ih c hc x).1 hxc
        obtain ⟨i, hi, rfl⟩ := List.getElem_of_mem hc
        exact ⟨i :: p, m, by simp [nodeAt, List.getElem?_eq_getElem hi, hp], hm⟩
    · rintro ⟨p, m, hp, hm⟩
      cases p with
      | nil =>
        simp only [nodeAt, Option.some.injEq] at hp
        subst hp
        subst hm
        simp [NODE.keys, NODE.key]
      | cons i p =>
        simp only [nodeAt] at hp
        cases hc : cs[i]? with
        | none => simp [hc] at hp
        | some c =>
          simp only [hc] at hp
          have hmem := List.getElem?_mem hc
          simp only [NODE.keys, List.mem_cons]
          right
          exact keys_subset_keysList cs c hmem x ((ih c hmem x).2 ⟨p, m, hp, hm⟩)

theorem keysList_nodup_child (cs : List NODE) (h : (NODE.keysList cs).Nodup) :
    ∀ c ∈ cs, c.keys.Nodup := by
  induction cs with
  | nil => intro c hc; cases hc
  | cons e cs ih =>
    intro c hc
    simp only [NODE.keysList] at h
    have h' := List.nodup_append.1 h
    rcases List.mem_cons.1 hc with rfl | hc
    · exact h'.1
    · exact ih h'.2.1 c hc

theorem keysList_disjoint (cs : List NODE) (h : (NODE.keysList cs).Nodup) :
    ∀ (i j : Nat) (c d : NODE), cs[i]? = some c → cs[j]? = some d → i ≠ j →
      ∀ x, x ∈ c.keys → x ∉ d.keys := by
  induction cs with
  | nil => intro i j c d hc; simp at hc
  | cons e cs ih =>
    intro i j c d hc hd hij x hxc hxd
    simp only [NODE.keysList] at h
    have h' := List.nodup_append.1 h
    cases i with
    | zero =>
      cases j with
      | zero => exact hij rfl
      | succ j =>
        simp only [List.getElem?_cons_zero, Option.some.injEq] at hc
        simp only [List.getElem?_cons_succ] at hd
        subst hc
        exact h'.2.2 hxc (keys_subset_keysList cs d (List.getElem?_mem hd) x hxd)
    | succ i =>
      cases j with
      | zero =>
        simp only [List.getElem?_cons_zero, Option.some.injEq] at hd
        simp only [List.getElem?_cons_succ] at hc
        subst hd
        exact h'.2.2 hxd (keys_subset_keysList cs c (List.getElem?_mem hc) x hxc)
      | succ j =>
        simp only [List.getElem?_cons_succ] at hc hd
        exact ih h'.2.1 i j c d hc hd (by omega) x hxc hxd

theorem unique_of_keys_nodup (n : NODE) :
    n.keys.Nodup → ∀ p q a b, nodeAt n p = some a → nodeAt n q = some b →
      a.key = b.key → p = q := by
  induction n using NODE.induct with
  | h k v cs ih =>
    intro hnd p q a b hp hq hab
    simp only [NODE.keys, List.nodup_cons] at hnd
    have hroot : ∀ (j : Nat) (r : Ptr) (m : NODE),
        nodeAt (NODE.mk k v cs) (j :: r) = some m → m.key ≠ k := by
      intro j r m hm hk
      simp only [nodeAt] at hm
      cases hc : cs[j]? with
      | none => simp [hc] at hm
      | some c =>
        simp only [hc] at hm
        have hmem := List.getElem?_mem hc
        apply hnd.1
        rw [← hk]
        exact keys_subset_keysList cs c hmem _ ((mem_keys_iff_hasKey c _).2 ⟨r, m, hm, rfl⟩)
    cases p with
    | nil =>
      cases q with
      | nil => rfl
      | cons j q =>
        simp only [nodeAt, Option.some.injEq] at hp
        subst hp
        exact absurd hab.symm (hroot j q b hq)
    | cons i p =>
      cases q with
      | nil =>
        simp only [nodeAt, Option.some.injEq] at hq
        subst hq
        exact absurd hab (hroot i p a hp)
      | cons j q =>
        simp only [nodeAt] at hp hq
        cases hc : cs[i]? with
        | none => simp [hc] at hp
        | some c =>
          cases hd : cs[j]? with
          | none => simp [hd] at hq
          | some d =>
            simp only [hc] at hp
            simp only [hd] at hq
            by_cases hij : i = j
            · subst hij
              rw [hc] at hd
              cases hd
              have hmem := List.getElem?_mem hc
              rw [ih c hmem (keysList_nodup_child cs hnd.2 c hmem) p q a b hp hq hab]
            · exfalso
              exact keysList_disjoint cs hnd.2 i j c d hc hd hij a.key
                ((mem_keys_iff_hasKey c _).2 ⟨p, a, hp, rfl⟩)
                ((mem_keys_iff_hasKey d _).2 ⟨q, b, hq, hab.symm⟩)

theorem keysList_set (k : String) (c' : NODE) :
    ∀ (cs : List NODE) (i : Nat) (c : NODE), cs[i]? = some c →
      c'.keys.Perm (k :: c.keys) →
      (NODE.keysList (cs.set i c')).Perm (k :: NODE.keysList cs) := by
  intro cs
  induction cs with
  | nil => intro i c hc; simp at hc
  | cons e cs ih =>
    intro i c hc hperm
    cases i with
    | zero =>
      simp only [List.getElem?_cons_zero, Option.some.injEq] at hc
      subst hc
      simp only [List.set_cons_zero, NODE.keysList]
      exact (List.Perm.append_right _ hperm)
    | succ i =>
      simp only [List.getElem?_cons_succ] at hc
      simp only [List.set_cons_succ, NODE.keysList]
      exact (List.Perm.append_left _ (ih i c hc hperm)).trans List.perm_middle

theorem keys_modifyAt (k : String) (f : NODE → NODE) :
    ∀ (p : Ptr) (t n : NODE), nodeAt t p = some n → (f n).keys.Perm (k :: n.keys) →
      (modifyAt t p f).keys.Perm (k :: t.keys) := by
  intro p
  induction p with
  | nil =>
    intro t n h hf
    simp only [nodeAt, Option.some.injEq] at h
    subst h
    simpa [modifyAt] using hf
  | cons i p ih =>
    intro t n h hf
    cases t with
    | mk k0 v cs =>
      simp only [nodeAt] at h
      cases hc : cs[i]? with
      | none => simp [hc] at h
      | some c =>
        simp only [hc] at h
        simp only [modifyAt, hc, NODE.keys]
        exact ((keysList_set k _ cs i c hc (ih c n h hf)).cons k0).trans (List.Perm.swap _ _ _)

theorem keys_addNode_write (key k : String) (v : DATA) (cs : List NODE) :
    (NODE.mk key ⟨0, none⟩ (BubbleSort (cs ++ [CreateNode k]))).keys.Perm
      (k :: (NODE.mk key v cs).keys) := by
  obtain ⟨_, hperm, _⟩ := BubbleSort_spec (cs ++ [CreateNode k])
  have h1 := keysList_perm hperm
  rw [keysList_append] at h1
  simp only [NODE.keys]
  refine (h1.cons key).trans ?_
  simp only [NODE.keysList, CreateNode, NODE.keys, List.append_nil]
  exact (List.Perm.cons key (List.perm_append_singleton _ _)).trans (List.Perm.swap _ _ _)

/-! ## `AddNode` for arbitrary target keys -/

theorem scanOrder_targetNode_node (tree : NODE) (k : String) :
    ∀ (order : List Ptr) (r : SEARCHRESULT),
      (scanOrder tree k searchMode.targetNode order r).node = r.node ∨
      ∃ q ∈ order, (scanOrder tree k searchMode.targetNode order r).node = some q := by
  intro order
  induction order with
  | nil => intro r; left; rfl
  | cons a order ih =>
    intro r
    simp only [scanOrder]
    split
    · right
      exact ⟨a, List.mem_cons_self _ _, by simp⟩
    · rcases ih (if searchMode.targetNode ≠ searchMode.targetNode then
          { r with nodes := r.nodes ++ [a], numNodes := r.numNodes + 1 } else r) with h | ⟨q, hq, h⟩
      · left
        simpa using h
      · right
        exact ⟨q, List.mem_cons_of_mem _ hq, h⟩

theorem Search_targetNode_valid (tree : NODE) (key : String) (r : SEARCHRESULT)
    (hr : r.node = none) (target : Ptr)
    (h : (Search tree [] r key searchMode.targetNode).node = some target) :
    (nodeAt tree target).isSome = true := by
  have key_case : ∀ k', (DephtFirst tree [] r k' searchMode.targetNode).node = some target →
      (nodeAt tree target).isSome = true := by
    intro k' hk'
    rw [DephtFirst_eq_scanOrder] at hk'
    rcases scanOrder_targetNode_node tree k' (visitFrom tree []) r with h1 | ⟨q, hq, h1⟩
    · rw [h1, hr] at hk'
      cases hk'
    · rw [h1] at hk'
      rw [← Option.some.inj hk']
      exact ((mem_visitFrom tree [] q).1 hq).2
  unfold Search at h
  split at h
  · exact key_case _ h
  · exact key_case _ h

theorem AddNode_cases (t : NODE) (p k : String) (hk : '.' ∉ k.data) :
    AddNode t p k = (ERROR, t) ∨
    (¬ hasKey t k ∧ ∃ target n, nodeAt t target = some n ∧
      AddNode t p k = (OK, modifyAt t target
        (fun n => .mk n.key ⟨0, none⟩ (BubbleSort (n.children ++ [CreateNode k]))))) := by
  by_cases hkey : hasKey t k
  · exact Or.inl (AddNode_of_hasKey t p k hk hkey)
  · cases hs : (Search t [] SEARCHRESULT.calloc p searchMode.targetNode).node with
    | none =>
      left
      have hs' : (Search t [] ⟨0, none, []⟩ p searchMode.targetNode).node = none := hs
      simp [AddNode, Search_targetNode_of_not_hasKey t k _ hk hkey, SEARCHRESULT.calloc, hs']
    | some target =>
      right
      obtain ⟨n, hn⟩ := Option.isSome_iff_exists.1
        (Search_targetNode_valid t p SEARCHRESULT.calloc rfl target hs)
      have hs' : (Search t [] ⟨0, none, []⟩ p searchMode.targetNode).node = some target := hs
      refine ⟨hkey, target, n, hn, ?_⟩
      simp [AddNode, Search_targetNode_of_not_hasKey t k _ hk hkey, SEARCHRESULT.calloc, hs']

theorem modifyAt_key (f : NODE → NODE) (hf : ∀ n, (f n).key = n.key) (t : NODE) (p : Ptr) :
    (modifyAt t p f).key = t.key := by
  cases p with
  | nil => simp [modifyAt, hf]
  | cons i p =>
    cases t with
    | mk k v cs =>
      simp only [modifyAt]
      split <;> rfl

theorem AddNode_keys_nodup (t : NODE) (p k : String) (hk : '.' ∉ k.data) (h : t.keys.Nodup) :
    (AddNode t p k).2.keys.Nodup := by
  rcases AddNode_cases t p k hk with he | ⟨hkey, target, n, hn, he⟩
  · rw [he]
    exact h
  · rw [he]
    have hperm := keys_modifyAt k
      (fun n => NODE.mk n.key ⟨0, none⟩ (BubbleSort (n.children ++ [CreateNode k])))
      target t n hn (by
        cases n with
        | mk key v cs => exact keys_addNode_write key k v cs)
    rw [hperm.nodup_iff, List.nodup_cons]
    exact ⟨fun hmem => hkey ((mem_keys_iff_hasKey t k).1 hmem), h⟩

theorem AddNode_root_key (t : NODE) (p k : String) : (AddNode t p k).2.key = t.key := by
  unfold AddNode
  simp only
  split
  · rfl
  · split
    · rfl
    · exact modifyAt_key
        (fun n => NODE.mk n.key ⟨0, none⟩ (BubbleSort (n.children ++ [CreateNode k])))
        (fun _ => rfl) t _

theorem addNodes_invariant (calls : List (String × String)) :
    ∀ t : NODE, t.keys.Nodup → (∀ c ∈ calls, '.' ∉ c.2.data) →
      (addNodes t calls).keys.Nodup ∧ (addNodes t calls).key = t.key := by
  induction calls with
  | nil => intro t h _; exact ⟨h, rfl⟩
  | cons c calls ih =>
    intro t h hc
    have h1 := AddNode_keys_nodup t c.1 c.2 (hc c (List.mem_cons_self _ _)) h
    obtain ⟨h2, h3⟩ := ih (AddNode t c.1 c.2).2 h1 (fun c' hc' => hc c' (List.mem_cons_of_mem _ hc'))
    refine ⟨h2, ?_⟩
    show (addNodes (AddNode t c.1 c.2).2 calls).key = t.key
    rw [h3, AddNode_root_key]

/-- C9. Starting from the tree of `InitTree`, after every sequence of `AddNode`
calls whose new keys contain no '.', no two nodes of the tree have the same key;
the root keeps the key "root", so no other node has it. -/
theorem addNodes_unique_keys (calls : List (String × String))
    (h : ∀ c ∈ calls, '.' ∉ c.2.data) :
    (∀ p q a b, nodeAt (addNodes InitTree calls) p = some a →
      nodeAt (addNodes InitTree calls) q = some b → a.key = b.key → p = q) ∧
    keyAt (addNodes InitTree calls) [] = some "root" ∧
    (∀ p a, nodeAt (addNodes InitTree calls) p = some a → a.key = "root" → p = []) := by
  obtain ⟨h1, h2⟩ := addNodes_invariant calls InitTree (by decide) h
  have huniq := unique_of_keys_nodup _ h1
  have hroot : keyAt (addNodes InitTree calls) [] = some "root" := by
    simp only [keyAt, nodeAt, Option.map_some', h2]
    rfl
  refine ⟨huniq, hroot, ?_⟩
  intro p a hp ha
  have hnil : nodeAt (addNodes InitTree calls) [] = some (addNodes InitTree calls) := by
    cases addNodes InitTree calls
    rfl
  exact huniq p [] a (addNodes InitTree calls) hp hnil (by rw [ha, h2]; rfl)

/-- C9, evaluated: the third of these calls tries to add "a" a second time and the
fourth to add "root"; the tree keeps the three nodes root, a, b. -/
theorem addNodes_unique_keys_witness :
    (∀ c ∈ [("root", "a"), ("a", "b"), ("b", "a"), ("a", "root")], '.' ∉ c.2.data) ∧
    addNodes InitTree [("root", "a"), ("a", "b"), ("b", "a"), ("a", "root")] =
      .mk "root" ⟨0, none⟩ [.mk "a" ⟨0, none⟩ [.mk "b" ⟨0, none⟩ []]] ∧
    ∀ p q a b,
      nodeAt (addNodes InitTree [("root", "a"), ("a", "b"), ("b", "a"), ("a", "root")]) p = some a →
      nodeAt (addNodes InitTree [("root", "a"), ("a", "b"), ("b", "a"), ("a", "root")]) q = some b →
      a.key = b.key → p = q :=
  ⟨by decide, by decide,
   (addNodes_unique_keys [("root", "a"), ("a", "b"), ("b", "a"), ("a", "root")] (by decide)).1⟩

/-! ## Properties of all nodes, and writes that keep them -/

theorem allNodes_mk_iff (P : NODE → Prop) (k : String) (v : DATA) (cs : List NODE) :
    AllNodes P (NODE.mk k v cs) ↔ P (NODE.mk k v cs) ∧ ∀ c ∈ cs, AllNodes P c := by
  constructor
  · intro h
    refine ⟨h [] _ rfl, ?_⟩
    intro c hc p n hp
    obtain ⟨i, hi, rfl⟩ := List.getElem_of_mem hc
    exact h (i :: p) n (by simp [nodeAt, List.getElem?_eq_getElem hi, hp])
  · rintro ⟨h0, hcs⟩ p n hp
    cases p with
    | nil =>
      simp only [nodeAt, Option.some.injEq] at hp
      subst hp
      exact h0
    | cons i p =>
      simp only [nodeAt] at hp
      cases hc : cs[i]? with
      | none => simp [hc] at hp
      | some c =>
        simp only [hc] at hp
        exact hcs c (List.getElem?_mem hc) p n hp

theorem allNodes_modifyAt (P : NODE → Prop) (f : NODE → NODE)
    (hP : ∀ k v (cs cs' : List NODE), cs.length = cs'.length →
      P (NODE.mk k v cs) → P (NODE.mk k v cs')) :
    ∀ (p : Ptr) (t : NODE), AllNodes P t →
      (∀ n, nodeAt t p = some n → AllNodes P (f n)) → AllNodes P (modifyAt t p f) := by
  intro p
  induction p with
  | nil =>
    intro t _ hf
    have : nodeAt t [] = some t := by cases t; rfl
    simpa [modifyAt] using hf t this
  | cons i p ih =>
    intro t ht hf
    cases t with
    | mk k v cs =>
      simp only [modifyAt]
      cases hc : cs[i]? with
      | none => exact ht
      | some c =>
        simp only
        rw [allNodes_mk_iff] at ht ⊢
        refine ⟨hP k v cs _ (by simp) ht.1, ?_⟩
        intro c' hc'
        rcases List.mem_or_eq_of_mem_set hc' with hmem | rfl
        · exact ht.2 c' hmem
        · apply ih c (ht.2 c (List.getElem?_mem hc))
          intro n hn
          exact hf n (by simp [nodeAt, hc, hn])

theorem payloadExclusive_length (k : String) (v : DATA) (cs cs' : List NODE)
    (h : cs.length = cs'.length) :
    payloadExclusive (NODE.mk k v cs) → payloadExclusive (NODE.mk k v cs') := by
  unfold payloadExclusive
  simp only [NODE.numChildren, NODE.children, NODE.value, h]
  exact id

theorem allNodes_of_children_subset (P : NODE → Prop) (n : NODE) (k : String) (v : DATA)
    (cs : List NODE) (hsub : ∀ c ∈ cs, c ∈ n.children ∨ AllNodes P c) (h0 : P (NODE.mk k v cs))
    (hn : AllNodes P n) : AllNodes P (NODE.mk k v cs) := by
  rw [allNodes_mk_iff]
  refine ⟨h0, ?_⟩
  intro c hc
  rcases hsub c hc with hmem | hall
  · cases n with
    | mk k' v' cs' =>
      rw [allNodes_mk_iff] at hn
      exact hn.2 c hmem
  · exact hall

theorem AllNodes_root (P : NODE → Prop) (n : NODE) (h : AllNodes P n) : P n := by
  cases n
  exact h [] _ rfl

/-! ## Each mutator keeps parents without payload -/

theorem AddNode_payloadExclusive (t : NODE) (p k : String)
    (h : AllNodes payloadExclusive t) : AllNodes payloadExclusive (AddNode t p k).2 := by
  unfold AddNode
  simp only
  split
  · exact h
  · split
    · exact h
    · apply allNodes_modifyAt _ _ payloadExclusive_length _ t h
      intro n hn
      obtain ⟨_, hperm, _⟩ := BubbleSort_spec (n.children ++ [CreateNode k])
      refine allNodes_of_children_subset _ n _ _ _ ?_ ?_ (fun q m hq => h _ m (by
        rw [nodeAt_append, hn]; exact hq))
      · intro c hc
        rcases List.mem_append.1 (hperm.subset hc) with hc | hc
        · exact Or.inl hc
        · right
          simp only [List.mem_singleton] at hc
          subst hc
          intro q m hq
          cases q with
          | nil =>
            simp only [CreateNode, nodeAt, Option.some.injEq] at hq
            subst hq
            intro hne
            exact absurd rfl hne
          | cons i q => simp [CreateNode, nodeAt] at hq
      · intro _
        exact ⟨rfl, rfl⟩

theorem NodeType_ne_parent (o : Option NODE) (n : NODE) (ho : o = some n)
    (h : NodeType o ≠ nodeType.parentNode) : n.numChildren = 0 := by
  subst ho
  by_contra hne
  exact h (by simp [NodeType, hne])

theorem leaf_write_payloadExclusive (t : NODE) (target : Ptr) (g : NODE → NODE)
    (hg : ∀ n, (g n).children = n.children)
    (hleaf : ∀ n, nodeAt t target = some n → n.numChildren = 0)
    (h : AllNodes payloadExclusive t) : AllNodes payloadExclusive (modifyAt t target g) := by
  apply allNodes_modifyAt _ _ payloadExclusive_length _ t h
  intro n hn q m hq
  have h0 := hleaf n hn
  have hch : (g n).children = [] := by
    rw [hg]
    exact List.length_eq_zero.1 h0
  cases hgn : g n with
  | mk k v cs =>
    rw [hgn] at hq hch
    simp only [NODE.children] at hch
    subst hch
    cases q with
    | nil =>
      simp only [nodeAt, Option.some.injEq] at hq
      subst hq
      intro hne
      exact absurd rfl hne
    | cons i q => simp [nodeAt] at hq

theorem SetInt_payloadExclusive (t : NODE) (k : String) (v : Nat)
    (h : AllNodes payloadExclusive t) : AllNodes payloadExclusive (SetInt t k v).2 := by
  unfold SetInt
  simp only
  split
  · rename_i target _
    split
    · rename_i hty
      split
      · exact leaf_write_payloadExclusive t target _ (fun _ => rfl)
          (fun n hn => NodeType_ne_parent _ n hn hty) h
      · exact h
    · exact h
  · exact h

theorem SetString_payloadExclusive (t : NODE) (k s : String)
    (h : AllNodes payloadExclusive t) : AllNodes payloadExclusive (SetString t k s).2 := by
  unfold SetString
  simp only
  split
  · rename_i target _
    split
    · rename_i hty
      split
      · exact leaf_write_payloadExclusive t target _ (fun _ => rfl)
          (fun n hn => NodeType_ne_parent _ n hn hty) h
      · exact h
    · exact h
  · exact h

theorem swapOut_subset (keys : List String) (cs : List NODE) :
    ∀ c ∈ swapOut keys cs, c ∈ cs := by
  intro c hc
  unfold swapOut at hc
  cases hl : cs.getLast? with
  | none =>
    rw [hl] at hc
    exact hc
  | some last =>
    rw [hl] at hc
    simp only [List.mem_map] at hc
    obtain ⟨a, ha, hac⟩ := hc
    split at hac
    · rw [← hac]
      exact List.mem_of_mem_getLast? hl
    · rw [← hac]
      exact List.dropLast_subset cs ha

theorem swapOut_write_payloadExclusive (keys : List String) (n : NODE)
    (h : AllNodes payloadExclusive n) :
    AllNodes payloadExclusive (NODE.mk n.key n.value (swapOut keys n.children)) := by
  refine allNodes_of_children_subset _ n _ _ _
    (fun c hc => Or.inl (swapOut_subset keys n.children c hc)) ?_ h
  intro hne
  apply AllNodes_root _ n h
  intro h0
  apply hne
  have : n.children = [] := List.length_eq_zero.1 h0
  show (swapOut keys n.children).length = 0
  rw [this]
  rfl

theorem subtree_allNodes (P : NODE → Prop) (t : NODE) (p : Ptr) (n : NODE)
    (hn : nodeAt t p = some n) (h : AllNodes P t) : AllNodes P n := by
  intro q m hq
  exact h (p ++ q) m (by rw [nodeAt_append, hn]; exact hq)

theorem DeleteChildLoop_payloadExclusive (parent : Ptr) :
    ∀ (fuel i : Nat) (w : DeleteWalk), AllNodes payloadExclusive w.tree →
      AllNodes payloadExclusive (DeleteChildLoop parent fuel i w).tree := by
  intro fuel
  induction fuel with
  | zero => intro i w h; exact h
  | succ fuel ih =>
    intro i w h
    unfold DeleteChildLoop
    split
    · exact h
    · rename_i node hnode
      split
      · exact h
      · split
        · simp only
          split
          · exact ih _ _ h
          · split
            · apply ih
              simp only
              apply allNodes_modifyAt _ _ payloadExclusive_length _ _ h
              intro n hn
              exact swapOut_write_payloadExclusive _ n (subtree_allNodes _ _ _ n hn h)
            · exact ih _ _ h
        · exact ih _ _ h

theorem DeleteStep_foldl_payloadExclusive (ps : List Ptr) :
    ∀ w : DeleteWalk, AllNodes payloadExclusive w.tree →
      AllNodes payloadExclusive (ps.foldl DeleteStep w).tree := by
  induction ps with
  | nil => intro w h; exact h
  | cons p ps ih =>
    intro w h
    exact ih _ (DeleteChildLoop_payloadExclusive p _ _ w h)

theorem Delete_payloadExclusive (t : NODE) (k : String) (h : AllNodes payloadExclusive t) :
    AllNodes payloadExclusive (Delete t k).tree := by
  unfold Delete
  simp only
  split
  · exact h
  · split
    · exact DeleteStep_foldl_payloadExclusive _ _ h
    · exact h

theorem runCall_payloadExclusive (t t' : NODE) (c : Call) (h : AllNodes payloadExclusive t)
    (hrun : runCall t c = some t') : AllNodes payloadExclusive t' := by
  cases c with
  | addNode p k =>
    simp only [runCall, Option.some.injEq] at hrun
    rw [← hrun]
    exact AddNode_payloadExclusive t p k h
  | setInt k v =>
    simp only [runCall, Option.some.injEq] at hrun
    rw [← hrun]
    exact SetInt_payloadExclusive t k v h
  | setString k s =>
    simp only [runCall, Option.some.injEq] at hrun
    rw [← hrun]
    exact SetString_payloadExclusive t k s h
  | delete k =>
    simp only [runCall] at hrun
    split at hrun
    · simp only [Option.some.injEq] at hrun
      rw [← hrun]
      exact Delete_payloadExclusive t k h
    · cases hrun

theorem runCalls_payloadExclusive (calls : List Call) :
    ∀ t t' : NODE, AllNodes payloadExclusive t → runCalls t calls = some t' →
      AllNodes payloadExclusive t' := by
  induction calls with
  | nil =>
    intro t t' h hrun
    simp only [runCalls, Option.some.injEq] at hrun
    rw [← hrun]
    exact h
  | cons c calls ih =>
    intro t t' h hrun
    simp only [runCalls] at hrun
    cases hc : runCall t c with
    | none => simp [hc] at hrun
    | some t1 =>
      simp only [hc] at hrun
      exact ih t1 t' (runCall_payloadExclusive t t1 c h hc) hrun

/-- C10. In every tree reached from `InitTree` by a sequence of `AddNode`, `SetInt`,
`SetString` and `Delete` calls (each `Delete` leaving a tree of live blocks, as
`runCalls` requires), every node that has at least one child holds no string and
integer 0. -/
theorem reachable_payload_exclusive (calls : List Call) (t : NODE)
    (h : runCalls InitTree calls = some t) :
    ∀ p n, nodeAt t p = some n → n.numChildren ≠ 0 →
      n.value.string = none ∧ n.value.integer = 0 := by
  have hinit : AllNodes payloadExclusive InitTree := by
    intro p n hp
    cases p with
    | nil =>
      simp only [InitTree, CreateNode, nodeAt, Option.some.injEq] at hp
      subst hp
      intro hne
      exact absurd rfl hne
    | cons i p => simp [InitTree, CreateNode, nodeAt] at hp
  exact runCalls_payloadExclusive calls InitTree t hinit h

/-- C10, evaluated: `a` gets a string, then a child `b` (which clears the string),
`b` gets an integer, `c` is added and `b` deleted, which takes the emptied `a`
with it. -/
theorem reachable_payload_exclusive_witness :
    runCalls InitTree
      [Call.addNode "root" "a", Call.setString "a" "x", Call.setInt "a" 5,
       Call.addNode "a" "b", Call.setInt "b" 7, Call.addNode "root" "c", Call.delete "b"] =
      some (.mk "root" ⟨0, none⟩ [.mk "c" ⟨0, none⟩ []]) ∧
    ∀ p n, nodeAt (.mk "root" ⟨0, none⟩ [.mk "c" ⟨0, none⟩ []]) p = some n →
      n.numChildren ≠ 0 → n.value.string = none ∧ n.value.integer = 0 :=
  ⟨by decide,
   reachable_payload_exclusive
     [Call.addNode "root" "a", Call.setString "a" "x", Call.setInt "a" 5,
      Call.addNode "a" "b", Call.setInt "b" 7, Call.addNode "root" "c", Call.delete "b"]
     _ (by decide)⟩

/-! ## The fuel of the child loop of `Delete` is enough -/

theorem swapOut_length (keys : List String) (cs : List NODE) :
    (swapOut keys cs).length ≤ cs.length := by
  unfold swapOut
  cases cs.getLast? with
  | none => exact le_refl _
  | some last => simp

theorem numChildren_modifyAt_swapOut (keys : List String) (t : NODE) (parent : Ptr) :
    ((nodeAt (modifyAt t parent
        (fun n => NODE.mk n.key n.value (swapOut keys n.children))) parent).map
          NODE.numChildren).getD 0 ≤
      ((nodeAt t parent).map NODE.numChildren).getD 0 := by
  cases hn : nodeAt t parent with
  | none => rw [modifyAt_of_none _ parent t hn, hn]
  | some n =>
    rw [nodeAt_modifyAt_self _ parent t n hn]
    exact swapOut_length keys n.children

/-- Once the loop variable has reached `numChildren`, the loop has ended: fuel
beyond the number of children the visited node has on entry changes nothing. -/
theorem DeleteChildLoop_fuel (parent : Ptr) (extra : Nat) :
    ∀ (fuel i : Nat) (w : DeleteWalk),
      ((nodeAt w.tree parent).map NODE.numChildren).getD 0 ≤ i + fuel →
      DeleteChildLoop parent (fuel + extra) i w = DeleteChildLoop parent fuel i w := by
  intro fuel
  induction fuel with
  | zero =>
    intro i w h
    cases extra with
    | zero => rfl
    | succ extra =>
      rw [Nat.zero_add]
      unfold DeleteChildLoop
      cases hn : nodeAt w.tree parent with
      | none => rfl
      | some node =>
        simp only [hn, Option.map_some', Option.getD_some, Nat.add_zero] at h
        have : node.children[i]? = none := List.getElem?_eq_none h
        simp [this]
  | succ fuel ih =>
    intro i w h
    have hstep : ∀ w' : DeleteWalk,
        ((nodeAt w'.tree parent).map NODE.numChildren).getD 0 ≤
          ((nodeAt w.tree parent).map NODE.numChildren).getD 0 →
        DeleteChildLoop parent (fuel + extra) (i + 1) w' =
          DeleteChildLoop parent fuel (i + 1) w' := by
      intro w' hw'
      apply ih
      omega
    rw [show fuel + 1 + extra = (fuel + extra) + 1 by omega]
    unfold DeleteChildLoop
    split
    · rfl
    · split
      · rfl
      · split
        · simp only
          split
          · exact hstep _ (le_refl _)
          · split
            · exact hstep _ (numChildren_modifyAt_swapOut _ _ _)
            · exact hstep _ (le_refl _)
        · exact hstep _ (le_refl _)

/-! ## The fuel of `SplitEndKey` is enough -/

theorem length_dropWhile_le {α : Type} (f : α → Bool) (l : List α) :
    (l.dropWhile f).length ≤ l.length :=
  (List.dropWhile_sublist f).length_le

theorem strtok_length (delims s token rest : List Char)
    (h : strtok delims s = some (token, rest)) : rest.length < s.length := by
  unfold strtok at h
  have h1 := length_dropWhile_le (fun c => decide (c ∈ delims)) s
  cases hd : s.dropWhile (fun c => decide (c ∈ delims)) with
  | nil => simp [hd] at h
  | cons c cs =>
    rw [hd] at h h1
    simp only [Option.some.injEq, Prod.mk.injEq] at h
    have h2 := length_dropWhile_le (fun c => !decide (c ∈ delims)) (c :: cs)
    rw [← h.2, List.length_drop]
    simp only [List.length_cons] at h1 h2
    omega

/-- Every token `strtok` finds shortens the unread text, so fuel beyond its
length changes nothing. -/
theorem SplitEndKeyLoop_fuel (extra : Nat) :
    ∀ (fuel : Nat) (key rest : List Char), rest.length ≤ fuel →
      SplitEndKeyLoop (fuel + extra) key rest = SplitEndKeyLoop fuel key rest := by
  intro fuel
  induction fuel with
  | zero =>
    intro key rest h
    have : rest = [] := List.length_eq_zero.1 (Nat.le_zero.1 h)
    subst this
    cases extra with
    | zero => rfl
    | succ extra =>
      rw [Nat.zero_add]
      simp [SplitEndKeyLoop, strtok]
  | succ fuel ih =>
    intro key rest h
    rw [show fuel + 1 + extra = (fuel + extra) + 1 by omega]
    simp only [SplitEndKeyLoop]
    cases ht : strtok ['.', '*'] rest with
    | none => rfl
    | some tr =>
      obtain ⟨token, rest'⟩ := tr
      have := strtok_length _ _ _ _ ht
      exact ih token rest' (by omega)

/-! ## Node properties that every mutator keeps -/

/-- `Delete` keeps every property of all nodes that a node does not lose when its
child array shrinks. -/
theorem DeleteChildLoop_allNodes (P : NODE → Prop)
    (hP : ∀ k v (cs cs' : List NODE), cs'.length ≤ cs.length →
      P (NODE.mk k v cs) → P (NODE.mk k v cs'))
    (parent : Ptr) :
    ∀ (fuel i : Nat) (w : DeleteWalk), AllNodes P w.tree →
      AllNodes P (DeleteChildLoop parent fuel i w).tree := by
  intro fuel
  induction fuel with
  | zero => intro i w h; exact h
  | succ fuel ih =>
    intro i w h
    unfold DeleteChildLoop
    split
    · exact h
    · split
      · exact h
      · split
        · simp only
          split
          · exact ih _ _ h
          · split
            · apply ih
              simp only
              apply allNodes_modifyAt P _
                (fun k v cs cs' hl => hP k v cs cs' (le_of_eq hl.symm)) _ _ h
              intro n hn
              have hsub := subtree_allNodes P _ _ n hn h
              refine allNodes_of_children_subset P n _ _ _
                (fun c hc => Or.inl (swapOut_subset _ n.children c hc)) ?_ hsub
              have h0 := AllNodes_root P n hsub
              rw [← NODE.eta n] at h0
              exact hP _ _ _ _ (swapOut_length _ _) h0
            · exact ih _ _ h
        · exact ih _ _ h

theorem Delete_allNodes (P : NODE → Prop)
    (hP : ∀ k v (cs cs' : List NODE), cs'.length ≤ cs.length →
      P (NODE.mk k v cs) → P (NODE.mk k v cs'))
    (t : NODE) (k : String) (h : AllNodes P t) : AllNodes P (Delete t k).tree := by
  have hfold : ∀ (ps : List Ptr) (w : DeleteWalk), AllNodes P w.tree →
      AllNodes P (ps.foldl DeleteStep w).tree := by
    intro ps
    induction ps with
    | nil => intro w hw; exact hw
    | cons p ps ih =>
      intro w hw
      exact ih _ (DeleteChildLoop_allNodes P hP p _ _ w hw)
  unfold Delete
  simp only
  split
  · exact h
  · split
    · exact hfold _ _ h
    · exact h

theorem stringExclusive_children (k : String) (v : DATA) (cs cs' : List NODE) :
    stringExclusive (NODE.mk k v cs) → stringExclusive (NODE.mk k v cs') :=
  id

theorem allNodes_leaf (P : NODE → Prop) (k : String) (v : DATA) (h : P (NODE.mk k v [])) :
    AllNodes P (NODE.mk k v []) := by
  rw [allNodes_mk_iff]
  exact ⟨h, fun c hc => by cases hc⟩

theorem AddNode_stringExclusive (t : NODE) (p k : String)
    (h : AllNodes stringExclusive t) : AllNodes stringExclusive (AddNode t p k).2 := by
  unfold AddNode
  simp only
  split
  · exact h
  · split
    · exact h
    · apply allNodes_modifyAt _ _
        (fun k v cs cs' _ => stringExclusive_children k v cs cs') _ t h
      intro n hn
      obtain ⟨_, hperm, _⟩ := BubbleSort_spec (n.children ++ [CreateNode k])
      refine allNodes_of_children_subset _ n _ _ _ ?_ ?_ (subtree_allNodes _ t _ n hn h)
      · intro c hc
        rcases List.mem_append.1 (hperm.subset hc) with hc | hc
        · exact Or.inl hc
        · right
          simp only [List.mem_singleton] at hc
          subst hc
          exact allNodes_leaf _ _ _ (fun _ => rfl)
      · intro _
        rfl

theorem NodeType_integerNode (n : NODE) (h : NodeType (some n) = nodeType.integerNode) :
    n.numChildren = 0 ∧ n.value.string = none := by
  by_cases h0 : n.numChildren ≠ 0
  · simp [NodeType, h0] at h
  · by_cases hs : n.value.string.isSome = true
    · simp [NodeType, h0, hs] at h
    · exact ⟨by simpa using h0, by simpa using hs⟩

theorem NodeType_stringNode (n : NODE) (h : NodeType (some n) = nodeType.stringNode) :
    n.numChildren = 0 ∧ n.value.string ≠ none := by
  by_cases h0 : n.numChildren ≠ 0
  · simp [NodeType, h0] at h
  · by_cases hs : n.value.string.isSome = true
    · refine ⟨by simpa using h0, ?_⟩
      intro hn
      rw [hn] at hs
      cases hs
    · simp [NodeType, h0, hs] at h

theorem payload_write_allNodes (P : NODE → Prop)
    (hP : ∀ k v (cs cs' : List NODE), cs'.length ≤ cs.length →
      P (NODE.mk k v cs) → P (NODE.mk k v cs'))
    (t : NODE) (target : Ptr) (v : NODE → DATA)
    (hv : ∀ n, nodeAt t target = some n → P (NODE.mk n.key (v n) n.children))
    (h : AllNodes P t) :
    AllNodes P (modifyAt t target (fun n => NODE.mk n.key (v n) n.children)) := by
  apply allNodes_modifyAt P _ (fun k v cs cs' hl => hP k v cs cs' (le_of_eq hl.symm)) _ t h
  intro n hn
  refine allNodes_of_children_subset P n _ _ _ (fun c hc => Or.inl hc) (hv n hn)
    (subtree_allNodes P t _ n hn h)

theorem SetInt_stringExclusive (t : NODE) (k : String) (v : Nat)
    (h : AllNodes stringExclusive t) : AllNodes stringExclusive (SetInt t k v).2 := by
  unfold SetInt
  simp only
  split
  · rename_i target _
    split
    · split
      · rename_i hty
        apply payload_write_allNodes _
          (fun k v cs cs' _ => stringExclusive_children k v cs cs') t target
          (fun n => ⟨v, n.value.string⟩) _ h
        intro n hn hs
        rw [hn] at hty
        exact absurd (NodeType_integerNode n hty).2 hs
      · exact h
    · exact h
  · exact h

theorem SetString_stringExclusive (t : NODE) (k s : String)
    (h : AllNodes stringExclusive t) : AllNodes stringExclusive (SetString t k s).2 := by
  unfold SetString
  simp only
  split
  · rename_i target _
    split
    · split
      · rename_i hcond
        apply payload_write_allNodes _
          (fun k v cs cs' _ => stringExclusive_children k v cs cs') t target
          (fun n => ⟨n.value.integer, some s⟩) _ h
        intro n hn _
        rw [hn] at hcond
        rcases hcond with hty | h0
        · exact h target n hn (NodeType_stringNode n hty).2
        · simpa using h0
      · exact h
    · exact h
  · exact h

theorem runCalls_allNodes (P : NODE → Prop)
    (hstep : ∀ (t t' : NODE) (c : Call), AllNodes P t → runCall t c = some t' → AllNodes P t')
    (calls : List Call) :
    ∀ t t' : NODE, AllNodes P t → runCalls t calls = some t' → AllNodes P t' := by
  induction calls with
  | nil =>
    intro t t' h hrun
    simp only [runCalls, Option.some.injEq] at hrun
    rw [← hrun]
    exact h
  | cons c calls ih =>
    intro t t' h hrun
    simp only [runCalls] at hrun
    cases hc : runCall t c with
    | none => simp [hc] at hrun
    | some t1 =>
      simp only [hc] at hrun
      exact ih t1 t' (hstep t t1 c h hc) hrun

theorem runCall_stringExclusive (t t' : NODE) (c : Call) (h : AllNodes stringExclusive t)
    (hrun : runCall t c = some t') : AllNodes stringExclusive t' := by
  cases c with
  | addNode p k =>
    simp only [runCall, Option.some.injEq] at hrun
    rw [← hrun]
    exact AddNode_stringExclusive t p k h
  | setInt k v =>
    simp only [runCall, Option.some.injEq] at hrun
    rw [← hrun]
    exact SetInt_stringExclusive t k v h
  | setString k s =>
    simp only [runCall, Option.some.injEq] at hrun
    rw [← hrun]
    exact SetString_stringExclusive t k s h
  | delete k =>
    simp only [runCall] at hrun
    split at hrun
    · simp only [Option.some.injEq] at hrun
      rw [← hrun]
      exact Delete_allNodes _ (fun k v cs cs' _ => stringExclusive_children k v cs cs') t k h
    · cases hrun

/-- C12. In every tree reached from `InitTree` by a sequence of `AddNode`, `SetInt`,
`SetString` and `Delete` calls (each `Delete` leaving a tree of live blocks, as
`runCalls` requires), no node holds a string together with a non-zero integer. -/
theorem reachable_string_exclusive (calls : List Call) (t : NODE)
    (h : runCalls InitTree calls = some t) :
    ∀ p n, nodeAt t p = some n → ¬ (n.value.string ≠ none ∧ n.value.integer ≠ 0) := by
  have hinit : AllNodes stringExclusive InitTree := allNodes_leaf _ _ _ (fun _ => rfl)
  intro p n hp hboth
  exact hboth.2
    (runCalls_allNodes _ runCall_stringExclusive calls InitTree t hinit h p n hp hboth.1)

/-- C12, evaluated: `a` takes the string "x" (its integer being 0), `b` the integer
7; setting the integer of `a` and the string of `b` both fail and change nothing. -/
theorem reachable_string_exclusive_witness :
    runCalls InitTree
      [Call.addNode "root" "a", Call.addNode "root" "b", Call.setString "a" "x",
       Call.setInt "b" 7, Call.setInt "a" 5, Call.setString "b" "y"] =
      some (.mk "root" ⟨0, none⟩ [.mk "a" ⟨0, some "x"⟩ [], .mk "b" ⟨7, none⟩ []]) ∧
    ∀ p n, nodeAt (.mk "root" ⟨0, none⟩ [.mk "a" ⟨0, some "x"⟩ [], .mk "b" ⟨7, none⟩ []]) p
        = some n → ¬ (n.value.string ≠ none ∧ n.value.integer ≠ 0) :=
  ⟨by decide,
   reachable_string_exclusive
     [Call.addNode "root" "a", Call.addNode "root" "b", Call.setString "a" "x",
      Call.setInt "b" 7, Call.setInt "a" 5, Call.setString "b" "y"]
     _ (by decide)⟩

/-! ## Claims about `Delete` of an absent key, `SetString` and `SetInt` -/

theorem not_hasKey_of_keys (t : NODE) (k : String) (h : ∀ x ∈ t.keys, x ≠ k) : ¬ hasKey t k :=
  fun hk => h k ((mem_keys_iff_hasKey t k).2 hk) rfl

/-- C18. For every tree and every key `k` that no node of the tree has (with or
without '.'), `Delete(k)` returns `ERROR`, frees nothing and leaves the tree as it
was. -/
theorem delete_absent_key (t : NODE) (k : String) (h : ¬ hasKey t k) :
    (Delete t k).rc = ERROR ∧ (Delete t k).tree = t ∧ (Delete t k).freed = [] := by
  unfold Delete
  simp only
  split
  · exact ⟨rfl, rfl, rfl⟩
  · rename_i target _
    split
    · rename_i hmatch
      exfalso
      obtain ⟨key, hkey, h0⟩ := Option.map_eq_some'.1 hmatch
      obtain ⟨n, hn, hnk⟩ := Option.map_eq_some'.1 hkey
      exact h ⟨target, n, hn, by rw [hnk, (strcmp_eq_zero key k).1 h0]⟩
    · exact ⟨rfl, rfl, rfl⟩

/-- C18, evaluated: `sampleTree` has no node "zz". -/
theorem delete_absent_key_witness :
    ¬ hasKey sampleTree "zz" ∧
    (Delete sampleTree "zz").rc = ERROR ∧ (Delete sampleTree "zz").tree = sampleTree ∧
    (Delete sampleTree "zz").freed = [] :=
  ⟨not_hasKey_of_keys sampleTree "zz" (by decide),
   delete_absent_key sampleTree "zz" (not_hasKey_of_keys sampleTree "zz" (by decide))⟩

theorem NodeType_leaf (n : NODE) (h : n.numChildren = 0) :
    NodeType (some n) =
      if n.value.string.isSome then nodeType.stringNode else nodeType.integerNode := by
  simp [NodeType, h]

/-- C19. For a node `n` without children that the lookup of `k` finds:
`SetString(k, s)` returns `OK` and leaves the node with string `s` (key, integer
and the rest of the tree as before), hence string-typed, when `n` already holds a
string or its integer is 0; it returns `ERROR` and changes nothing when `n` holds a
non-zero integer and no string. -/
theorem setString_on_leaf (t : NODE) (k s : String) (target : Ptr) (n : NODE)
    (hfound : (Search t [] SEARCHRESULT.calloc k searchMode.targetNode).node = some target)
    (hn : nodeAt t target = some n) (hleaf : n.numChildren = 0) :
    ((n.value.string ≠ none ∨ n.value.integer = 0) →
      (SetString t k s).1 = OK ∧
      (SetString t k s).2 =
        modifyAt t target (fun _ => NODE.mk n.key ⟨n.value.integer, some s⟩ n.children) ∧
      nodeAt (SetString t k s).2 target =
        some (NODE.mk n.key ⟨n.value.integer, some s⟩ n.children) ∧
      NodeType (nodeAt (SetString t k s).2 target) = nodeType.stringNode) ∧
    ((n.value.string = none ∧ n.value.integer ≠ 0) →
      (SetString t k s).1 = ERROR ∧ (SetString t k s).2 = t) := by
  have hty := NodeType_leaf n hleaf
  constructor
  · intro hcond
    have hc : NodeType (some n) = nodeType.stringNode ∨ n.value.integer = 0 := by
      rcases hcond with hs | h0
      · left
        rw [hty]
        cases hstr : n.value.string with
        | none => exact absurd hstr hs
        | some _ => rfl
      · exact Or.inr h0
    have hnp : NodeType (some n) ≠ nodeType.parentNode := by
      rw [hty]
      split <;> decide
    have htree : (SetString t k s).2 =
        modifyAt t target (fun n => NODE.mk n.key ⟨n.value.integer, some s⟩ n.children) := by
      simp only [SetString, hfound, hn, Option.map_some', Option.some.injEq]
      rw [if_pos hnp, if_pos hc]
    have hrc : (SetString t k s).1 = OK := by
      simp only [SetString, hfound, hn, Option.map_some', Option.some.injEq]
      rw [if_pos hnp, if_pos hc]
    have hnode : nodeAt (SetString t k s).2 target =
        some (NODE.mk n.key ⟨n.value.integer, some s⟩ n.children) := by
      rw [htree]
      exact nodeAt_modifyAt_self _ target t n hn
    refine ⟨hrc, ?_, hnode, ?_⟩
    · rw [htree]
      exact modifyAt_congr _ _ target t n hn rfl
    · rw [hnode]
      have : (NODE.mk n.key ⟨n.value.integer, some s⟩ n.children).numChildren = 0 := hleaf
      rw [NodeType_leaf _ this]
      rfl
  · rintro ⟨hs, h0⟩
    have hc : ¬ (NodeType (some n) = nodeType.stringNode ∨ n.value.integer = 0) := by
      rw [hty, hs]
      rintro (h | h)
      · cases h
      · exact h0 h
    have hnp : NodeType (some n) ≠ nodeType.parentNode := by
      rw [hty]
      split <;> decide
    simp only [SetString, hfound, hn, Option.map_some', Option.some.injEq]
    rw [if_pos hnp, if_neg hc]
    exact ⟨rfl, rfl⟩

/-- C19, evaluated on `typedLeaves`: the leaf `s` already holds a string and takes
the new one. -/
theorem setString_on_leaf_witness :
    (Search typedLeaves [] SEARCHRESULT.calloc "s" searchMode.targetNode).node = some [1] ∧
    nodeAt typedLeaves [1] = some (.mk "s" ⟨0, some "x"⟩ []) ∧
    (SetString typedLeaves "s" "new").1 = OK ∧
    (SetString typedLeaves "s" "new").2 =
      .mk "root" ⟨0, none⟩ [.mk "i" ⟨7, none⟩ [], .mk "s" ⟨0, some "new"⟩ []] ∧
    (SetString typedLeaves "i" "new").1 = ERROR ∧
    NodeType (nodeAt (SetString typedLeaves "s" "new").2 [1]) = nodeType.stringNode :=
  ⟨by decide, by decide, by decide, by decide, by decide,
   ((setString_on_leaf typedLeaves "s" "new" [1] (.mk "s" ⟨0, some "x"⟩ [])
      (by decide) (by decide) (by decide)).1 (Or.inr rfl)).2.2.2⟩

/-- C20. `SetInt(k, v)` returns `ERROR` and changes nothing when no node has key `k`
(for `k` without '.'), when the node found has children, and when the node found
holds a string; when the node found is a leaf without string it returns `OK`,
the node's integer becomes `v` and the rest of the tree stays. -/
theorem setInt_cases (t : NODE) (k : String) (v : Nat) :
    ('.' ∉ k.data → ¬ hasKey t k → (SetInt t k v).1 = ERROR ∧ (SetInt t k v).2 = t) ∧
    (∀ target n,
      (Search t [] SEARCHRESULT.calloc k searchMode.targetNode).node = some target →
      nodeAt t target = some n →
      (n.numChildren ≠ 0 → (SetInt t k v).1 = ERROR ∧ (SetInt t k v).2 = t) ∧
      (n.value.string ≠ none → (SetInt t k v).1 = ERROR ∧ (SetInt t k v).2 = t) ∧
      (n.numChildren = 0 → n.value.string = none →
        (SetInt t k v).1 = OK ∧
        (SetInt t k v).2 = modifyAt t target (fun _ => NODE.mk n.key ⟨v, none⟩ n.children) ∧
        nodeAt (SetInt t k v).2 target = some (NODE.mk n.key ⟨v, none⟩ n.children))) := by
  constructor
  · intro hk hkey
    simp [SetInt, Search_targetNode_of_not_hasKey t k _ hk hkey, SEARCHRESULT.calloc]
  · intro target n hfound hn
    refine ⟨?_, ?_, ?_⟩
    · intro hpar
      have hty : NodeType (some n) = nodeType.parentNode := by simp [NodeType, hpar]
      simp only [SetInt, hfound, hn]
      rw [if_neg (by rw [hty]; exact fun h => h rfl)]
      exact ⟨rfl, rfl⟩
    · intro hs
      have hty : NodeType (some n) ≠ nodeType.integerNode := by
        intro hc
        exact hs (NodeType_integerNode n hc).2
      simp only [SetInt, hfound, hn]
      by_cases hnp : NodeType (some n) ≠ nodeType.parentNode
      · rw [if_pos hnp, if_neg hty]
        exact ⟨rfl, rfl⟩
      · rw [if_neg hnp]
        exact ⟨rfl, rfl⟩
    · intro hleaf hs
      have hty : NodeType (some n) = nodeType.integerNode := by
        rw [NodeType_leaf n hleaf, hs]
        rfl
      have htree : (SetInt t k v).2 =
          modifyAt t target (fun n => NODE.mk n.key ⟨v, n.value.string⟩ n.children) := by
        simp only [SetInt, hfound, hn]
        rw [if_pos (by rw [hty]; decide), if_pos hty]
      have hrc : (SetInt t k v).1 = OK := by
        simp only [SetInt, hfound, hn]
        rw [if_pos (by rw [hty]; decide), if_pos hty]
      refine ⟨hrc, ?_, ?_⟩
      · rw [htree]
        exact modifyAt_congr _ _ target t n hn (by simp only [hs])
      · rw [htree, nodeAt_modifyAt_self _ target t n hn, hs]

/-- C20, evaluated on `typedLeaves`: the integer leaf `i` takes the value 42, the
string leaf `s`, the parent `root` and the absent key "zz" give `ERROR`. -/
theorem setInt_cases_witness :
    (SetInt typedLeaves "i" 42).1 = OK ∧
    (SetInt typedLeaves "i" 42).2 =
      .mk "root" ⟨0, none⟩ [.mk "i" ⟨42, none⟩ [], .mk "s" ⟨0, some "x"⟩ []] ∧
    (SetInt typedLeaves "s" 42).1 = ERROR ∧ (SetInt typedLeaves "root" 42).1 = ERROR ∧
    '.' ∉ "zz".data ∧ ¬ hasKey typedLeaves "zz" ∧
    (SetInt typedLeaves "zz" 42).1 = ERROR ∧ (SetInt typedLeaves "zz" 42).2 = typedLeaves :=
  ⟨by decide, by decide, by decide, by decide, by decide,
   not_hasKey_of_keys typedLeaves "zz" (by decide),
   (setInt_cases typedLeaves "zz" 42).1 (by decide)
     (not_hasKey_of_keys typedLeaves "zz" (by decide))⟩

/-! ## Sorted children -/

theorem map_key_set (cs : List NODE) (i : Nat) (c c' : NODE) (hc : cs[i]? = some c)
    (hk : c'.key = c.key) : (cs.set i c').map NODE.key = cs.map NODE.key := by
  rw [List.map_set, hk]
  exact set_of_getElem? _ i _ (by simp [hc])

/-- A write that keeps the key of the node it changes keeps every property of all
nodes that depends on the children of a node only through their keys. -/
theorem allNodes_modifyAt_keys (P : NODE → Prop) (f : NODE → NODE)
    (hf : ∀ n, (f n).key = n.key)
    (hP : ∀ k v (cs cs' : List NODE), cs.map NODE.key = cs'.map NODE.key →
      P (NODE.mk k v cs) → P (NODE.mk k v cs')) :
    ∀ (p : Ptr) (t : NODE), AllNodes P t →
      (∀ n, nodeAt t p = some n → AllNodes P (f n)) → AllNodes P (modifyAt t p f) := by
  intro p
  induction p with
  | nil =>
    intro t _ hfn
    have : nodeAt t [] = some t := by cases t; rfl
    simpa [modifyAt] using hfn t this
  | cons i p ih =>
    intro t ht hfn
    cases t with
    | mk k v cs =>
      simp only [modifyAt]
      cases hc : cs[i]? with
      | none => exact ht
      | some c =>
        simp only
        rw [allNodes_mk_iff] at ht ⊢
        refine ⟨hP k v cs _ (map_key_set cs i c _ hc (modifyAt_key f hf c p)).symm ht.1, ?_⟩
        intro c' hc'
        rcases List.mem_or_eq_of_mem_set hc' with hmem | rfl
        · exact ht.2 c' hmem
        · apply ih c (ht.2 c (List.getElem?_mem hc))
          intro n hn
          exact hfn n (by simp [nodeAt, hc, hn])

theorem sortedChildren_keys (k : String) (v : DATA) (cs cs' : List NODE)
    (h : cs.map NODE.key = cs'.map NODE.key) :
    sortedChildren (NODE.mk k v cs) → sortedChildren (NODE.mk k v cs') := by
  intro hs
  have h1 : (cs.map NODE.key).Pairwise (fun a b => strcmp a b ≤ 0) :=
    List.pairwise_map.2 hs
  rw [h] at h1
  exact List.pairwise_map.1 h1

theorem AddNode_sortedChildren (t : NODE) (p k : String)
    (h : AllNodes sortedChildren t) : AllNodes sortedChildren (AddNode t p k).2 := by
  unfold AddNode
  simp only
  split
  · exact h
  · split
    · exact h
    · apply allNodes_modifyAt_keys _
        (fun n => NODE.mk n.key ⟨0, none⟩ (BubbleSort (n.children ++ [CreateNode k])))
        (fun _ => rfl) sortedChildren_keys _ t h
      intro n hn
      obtain ⟨_, hperm, hsorted⟩ := BubbleSort_spec (n.children ++ [CreateNode k])
      refine allNodes_of_children_subset _ n _ _ _ ?_ hsorted (subtree_allNodes _ t _ n hn h)
      intro c hc
      rcases List.mem_append.1 (hperm.subset hc) with hc | hc
      · exact Or.inl hc
      · right
        simp only [List.mem_singleton] at hc
        subst hc
        exact allNodes_leaf _ _ _ List.Pairwise.nil

theorem payload_write_sortedChildren (t : NODE) (target : Ptr) (v : NODE → DATA)
    (h : AllNodes sortedChildren t) :
    AllNodes sortedChildren (modifyAt t target (fun n => NODE.mk n.key (v n) n.children)) := by
  apply allNodes_modifyAt_keys _ (fun n => NODE.mk n.key (v n) n.children)
    (fun _ => rfl) sortedChildren_keys _ t h
  intro n hn
  have hsub := subtree_allNodes _ t _ n hn h
  exact allNodes_of_children_subset _ n _ _ _ (fun c hc => Or.inl hc)
    (AllNodes_root _ n hsub) hsub

theorem SetInt_sortedChildren (t : NODE) (k : String) (v : Nat)
    (h : AllNodes sortedChildren t) : AllNodes sortedChildren (SetInt t k v).2 := by
  unfold SetInt
  simp only
  split
  · split
    · split
      · exact payload_write_sortedChildren t _ (fun n => ⟨v, n.value.string⟩) h
      · exact h
    · exact h
  · exact h

theorem SetString_sortedChildren (t : NODE) (k s : String)
    (h : AllNodes sortedChildren t) : AllNodes sortedChildren (SetString t k s).2 := by
  unfold SetString
  simp only
  split
  · split
    · split
      · exact payload_write_sortedChildren t _ (fun n => ⟨n.value.integer, some s⟩) h
      · exact h
    · exact h
  · exact h

theorem runCalls_sortedChildren (calls : List Call) :
    ∀ t t' : NODE, (∀ c ∈ calls, c.isDelete = false) → AllNodes sortedChildren t →
      runCalls t calls = some t' → AllNodes sortedChildren t' := by
  induction calls with
  | nil =>
    intro t t' _ h hrun
    simp only [runCalls, Option.some.injEq] at hrun
    rw [← hrun]
    exact h
  | cons c calls ih =>
    intro t t' hnd h hrun
    simp only [runCalls] at hrun
    cases hc : runCall t c with
    | none => simp [hc] at hrun
    | some t1 =>
      simp only [hc] at hrun
      refine ih t1 t' (fun c' hc' => hnd c' (List.mem_cons_of_mem _ hc')) ?_ hrun
      have hcd := hnd c (List.mem_cons_self _ _)
      cases c with
      | addNode p k =>
        simp only [runCall, Option.some.injEq] at hc
        rw [← hc]
        exact AddNode_sortedChildren t p k h
      | setInt k v =>
        simp only [runCall, Option.some.injEq] at hc
        rw [← hc]
        exact SetInt_sortedChildren t k v h
      | setString k s =>
        simp only [runCall, Option.some.injEq] at hc
        rw [← hc]
        exact SetString_sortedChildren t k s h
      | delete k => cases hcd

/-- C11 as stated fails: after adding `a`, `b`, `c` under the root, `Delete("a")`
puts the last child `c` into the slot of `a` and leaves the children `c`, `b`, with
`strcmp("c", "b") > 0`. -/
theorem delete_unsorts_children :
    runCalls InitTree [Call.addNode "root" "a", Call.addNode "root" "b",
      Call.addNode "root" "c", Call.delete "a"] =
      some (.mk "root" ⟨0, none⟩ [.mk "c" ⟨0, none⟩ [], .mk "b" ⟨0, none⟩ []]) ∧
    ¬ (NODE.mk "root" ⟨0, none⟩ [.mk "c" ⟨0, none⟩ [], .mk "b" ⟨0, none⟩ []]).children.Pairwise
        (fun a b => strcmp a.key b.key ≤ 0) := by
  decide

/-- C11, amended. In every tree reached from `InitTree` by a sequence of `AddNode`,
`SetInt` and `SetString` calls (no `Delete`), the children of every node are in
ascending lexicographic order of their keys. -/
theorem reachable_sorted_without_delete (calls : List Call) (t : NODE)
    (hnd : ∀ c ∈ calls, c.isDelete = false) (h : runCalls InitTree calls = some t) :
    ∀ p n, nodeAt t p = some n →
      n.children.Pairwise (fun a b => strcmp a.key b.key ≤ 0) ∧
      n.children.Pairwise
        (fun a b => a.key = b.key ∨ List.Lex (fun x y => x < y) a.key.data b.key.data) := by
  have hinit : AllNodes sortedChildren InitTree := allNodes_leaf _ _ _ List.Pairwise.nil
  intro p n hp
  have hs := runCalls_sortedChildren calls InitTree t hnd hinit h p n hp
  exact ⟨hs, hs.imp (fun {a b} hab => (keyLE_iff_lex a b).1 hab)⟩

/-- C11 amended, evaluated: three children added in descending order end up sorted. -/
theorem reachable_sorted_without_delete_witness :
    (∀ c ∈ [Call.addNode "root" "c", Call.addNode "root" "b", Call.setInt "b" 3,
        Call.addNode "root" "a"], c.isDelete = false) ∧
    runCalls InitTree [Call.addNode "root" "c", Call.addNode "root" "b", Call.setInt "b" 3,
        Call.addNode "root" "a"] =
      some (.mk "root" ⟨0, none⟩
        [.mk "a" ⟨0, none⟩ [], .mk "b" ⟨3, none⟩ [], .mk "c" ⟨0, none⟩ []]) ∧
    ∀ p n, nodeAt (.mk "root" ⟨0, none⟩
        [.mk "a" ⟨0, none⟩ [], .mk "b" ⟨3, none⟩ [], .mk "c" ⟨0, none⟩ []]) p = some n →
      n.children.Pairwise (fun a b => strcmp a.key b.key ≤ 0) ∧
      n.children.Pairwise
        (fun a b => a.key = b.key ∨ List.Lex (fun x y => x < y) a.key.data b.key.data) :=
  ⟨by decide, by decide,
   reachable_sorted_without_delete
     [Call.addNode "root" "c", Call.addNode "root" "b", Call.setInt "b" 3,
      Call.addNode "root" "a"] _ (by decide) (by decide)⟩

/-! ## `Delete` in terms of the walk -/

theorem strcmp_map_eq_zero (o : Option String) (k : String) :
    o.map (fun x => strcmp x k) = some 0 ↔ o = some k := by
  cases o with
  | none => simp
  | some x => simp [strcmp_eq_zero]

theorem visitFrom_root_ne_nil (t : NODE) : ∃ rest, visitFrom t [] = [] :: rest := by
  cases t with
  | mk k v cs => exact ⟨visitOrderList [] 0 cs, rfl⟩

theorem DephtFirst_traversed_split (t : NODE) (k : String) :
    ∃ pre target post, visitFrom t [] = pre ++ target :: post ∧
      (∀ q ∈ pre, keyAt t q ≠ some k) ∧ (post ≠ [] → keyAt t target = some k) ∧
      (DephtFirst t [] SEARCHRESULT.calloc k searchMode.traversedTarget).nodes =
        pre ++ [target] := by
  rw [DephtFirst_eq_scanOrder]
  by_cases h : ∃ q ∈ visitFrom t [], keyAt t q = some k
  · obtain ⟨pre, p, post, hl, hp, hpre⟩ :=
      first_match_split (fun q => keyAt t q = some k) _ h
    refine ⟨pre, p, post, hl, hpre, fun _ => hp, ?_⟩
    rw [hl, scanOrder_match t k _ (by decide) p post hp pre _ hpre]
    simp [SEARCHRESULT.calloc]
  · have hno : ∀ q ∈ visitFrom t [], keyAt t q ≠ some k := fun q hq hc => h ⟨q, hq, hc⟩
    obtain ⟨rest, hrest⟩ := visitFrom_root_ne_nil t
    rcases List.eq_nil_or_concat (visitFrom t []) with hnil | ⟨pre, last, hl⟩
    · rw [hnil] at hrest
      cases hrest
    · rw [List.concat_eq_append] at hl
      refine ⟨pre, last, [], hl, ?_, fun hc => absurd rfl hc, ?_⟩
      · intro q hq
        exact hno q (by rw [hl]; exact List.mem_append_left _ hq)
      · rw [scanOrder_no_match t k _ _ _ hno, hl]
        simp [SEARCHRESULT.calloc]

theorem Delete_of_nodes (t : NODE) (k : String) (pre : List Ptr) (target : Ptr)
    (hnodes : (Search t [] SEARCHRESULT.calloc k searchMode.traversedTarget).nodes =
      pre ++ [target]) :
    (keyAt t target ≠ some k → Delete t k = ⟨ERROR, t, [], [], false⟩) ∧
    (keyAt t target = some k → Delete t k = DeleteResult.ofWalk t pre target) := by
  constructor
  · intro hne
    simp only [Delete, hnodes, List.getLast?_concat, strcmp_map_eq_zero]
    rw [if_neg hne]
  · intro hkey
    simp only [Delete, hnodes, List.getLast?_concat, strcmp_map_eq_zero]
    rw [if_pos hkey]
    simp [DeleteResult.ofWalk, DeleteWalk.start, Search_fullTree, SEARCHRESULT.calloc]

/-- For every target key the walk to the target is a beginning `pre ++ [target]` of
the visiting order; `Delete` goes on exactly when the node at `target` has the key. -/
theorem Delete_cases (t : NODE) (k : String) :
    ∃ pre target post, visitFrom t [] = pre ++ target :: post ∧
      ((keyAt t target ≠ some k ∧ Delete t k = ⟨ERROR, t, [], [], false⟩) ∨
       (keyAt t target = some k ∧ Delete t k = DeleteResult.ofWalk t pre target)) := by
  have hsearch : ∃ pre target post, visitFrom t [] = pre ++ target :: post ∧
      (Search t [] SEARCHRESULT.calloc k searchMode.traversedTarget).nodes = pre ++ [target] := by
    unfold Search
    split
    · obtain ⟨pre, target, post, hl, _, _, hn⟩ := DephtFirst_traversed_split t (SplitEndKey k)
      exact ⟨pre, target, post, hl, hn⟩
    · obtain ⟨pre, target, post, hl, _, _, hn⟩ := DephtFirst_traversed_split t k
      exact ⟨pre, target, post, hl, hn⟩
  obtain ⟨pre, target, post, hl, hn⟩ := hsearch
  refine ⟨pre, target, post, hl, ?_⟩
  by_cases hkey : keyAt t target = some k
  · exact Or.inr ⟨hkey, (Delete_of_nodes t k pre target hn).2 hkey⟩
  · exact Or.inl ⟨hkey, (Delete_of_nodes t k pre target hn).1 hkey⟩

/-- For a key without '.', `Delete` walks to the first node with the key. -/
theorem Delete_of_isFirst (t : NODE) (k : String) (target : Ptr) (hk : '.' ∉ k.data)
    (hfirst : isFirst t k target) :
    ∃ pre post, visitFrom t [] = pre ++ target :: post ∧
      (∀ q ∈ pre, keyAt t q ≠ some k) ∧ Delete t k = DeleteResult.ofWalk t pre target := by
  obtain ⟨pre, p, post, hl, hp, hpre⟩ :=
    exists_isFirst t k (hasKey_of_isFirst t k target hfirst)
  have := isFirst_unique t k target p hfirst hp
  subst this
  refine ⟨pre, post, hl, hpre, ?_⟩
  apply (Delete_of_nodes t k pre target ?_).2 hfirst.1
  rw [Search_eq_DephtFirst t [] _ k _ hk, DephtFirst_eq_scanOrder, hl,
    scanOrder_match t k _ (by decide) target post hfirst.1 pre _ hpre]
  simp [SEARCHRESULT.calloc]

/-! ## The root and `Delete` -/

theorem DeleteChildLoop_toFree (parent : Ptr) :
    ∀ (fuel i : Nat) (w : DeleteWalk),
      ∀ f ∈ (DeleteChildLoop parent fuel i w).toFree, f ∈ w.toFree ∨ f ≠ [] := by
  intro fuel
  induction fuel with
  | zero => intro i w f hf; exact Or.inl hf
  | succ fuel ih =>
    intro i w f hf
    unfold DeleteChildLoop at hf
    split at hf
    · exact Or.inl hf
    · split at hf
      · exact Or.inl hf
      · split at hf
        · simp only at hf
          split at hf
          · rename_i hq
            rcases ih _ _ f hf with h | h
            · simp only [List.mem_append, List.mem_singleton] at h
              rcases h with h | h
              · exact Or.inl h
              · right
                rw [h]
                exact hq.2
            · exact Or.inr h
          · split at hf
            · have h := ih _ _ f hf
              exact h
            · have h := ih _ _ f hf
              exact h
        · exact ih _ _ f hf

theorem DeleteStep_foldl_toFree (ps : List Ptr) :
    ∀ (w : DeleteWalk), ∀ f ∈ (ps.foldl DeleteStep w).toFree, f ∈ w.toFree ∨ f ≠ [] := by
  induction ps with
  | nil => intro w f hf; exact Or.inl hf
  | cons p ps ih =>
    intro w f hf
    rcases ih _ f hf with h | h
    · exact DeleteChildLoop_toFree p _ _ w f h
    · exact Or.inr h

theorem DeleteChildLoop_root_key (parent : Ptr) :
    ∀ (fuel i : Nat) (w : DeleteWalk),
      (DeleteChildLoop parent fuel i w).tree.key = w.tree.key := by
  intro fuel
  induction fuel with
  | zero => intro i w; rfl
  | succ fuel ih =>
    intro i w
    unfold DeleteChildLoop
    split
    · rfl
    · split
      · rfl
      · split
        · simp only
          split
          · exact ih _ _
          · split
            · rw [ih]
              exact modifyAt_key
                (fun n => NODE.mk n.key n.value
                  (swapOut (List.filterMap (keyAt w.tree) w.toFree) n.children))
                (fun _ => rfl) _ _
            · exact ih _ _
        · exact ih _ _

theorem DeleteStep_foldl_root_key (ps : List Ptr) :
    ∀ (w : DeleteWalk), (ps.foldl DeleteStep w).tree.key = w.tree.key := by
  induction ps with
  | nil => intro w; rfl
  | cons p ps ih =>
    intro w
    rw [List.foldl_cons, ih]
    exact DeleteChildLoop_root_key p _ _ w

theorem Delete_root_key (t : NODE) (k : String) : (Delete t k).tree.key = t.key := by
  obtain ⟨pre, target, post, _, h | h⟩ := Delete_cases t k
  · rw [h.2]
  · rw [h.2]
    exact DeleteStep_foldl_root_key _ _

theorem keyAt_root (t : NODE) : keyAt t [] = some t.key := by
  cases t
  rfl

theorem mem_drop_visitFrom (t : NODE) (target q : Ptr)
    (h : q ∈ (visitFrom t target).drop 1) : q ≠ [] := by
  intro hq
  subst hq
  have hmem := (mem_visitFrom t target []).1 (List.mem_of_mem_drop h)
  have htarget : target = [] := List.prefix_nil.1 hmem.1
  subst htarget
  obtain ⟨rest, hrest⟩ := visitFrom_root_ne_nil t
  have hnd := visitFrom_nodup t []
  rw [hrest] at h hnd
  exact (List.nodup_cons.1 hnd).1 (by simpa using h)

/-- C17 as stated fails: `Delete` with the key of the root frees every node of
`sampleTree`, the root (pointer `[]`) last. -/
theorem delete_root_frees_root :
    (Delete sampleTree "root").rc = OK ∧
    (Delete sampleTree "root").freed = [[1], [0], [0, 1], [0, 0], []] ∧
    [] ∈ (Delete sampleTree "root").freed := by
  decide

/-- C17, amended. `Delete` frees the root only when the root is itself the node
named by the target key, and for a target key without '.' that is the root's key
it frees every node of the tree, the root included; for every other target key
the root is not freed and stays the root of the tree, with or without children. -/
theorem delete_frees_root_iff (t : NODE) (k : String) :
    ([] ∈ (Delete t k).freed → t.key = k ∧ (Delete t k).rc = OK) ∧
    ('.' ∉ k.data → t.key = k →
      (Delete t k).rc = OK ∧ ∀ q, (nodeAt t q).isSome = true → q ∈ (Delete t k).freed) ∧
    (t.key ≠ k → [] ∉ (Delete t k).freed ∧ (Delete t k).tree.key = t.key) := by
  have h1 : [] ∈ (Delete t k).freed → t.key = k ∧ (Delete t k).rc = OK := by
    intro hmem
    obtain ⟨pre, target, post, _, h | h⟩ := Delete_cases t k
    · rw [h.2] at hmem
      cases hmem
    · rw [h.2] at hmem ⊢
      refine ⟨?_, rfl⟩
      simp only [DeleteResult.ofWalk, List.mem_append, List.mem_reverse] at hmem
      have htarget : target = [] := by
        rcases hmem with hm | hm
        · exact absurd rfl (mem_drop_visitFrom t target [] hm)
        · rcases DeleteStep_foldl_toFree _ _ _ hm with hm | hm
          · simp only [DeleteWalk.start, List.mem_singleton] at hm
            exact hm.symm
          · exact absurd rfl hm
      rw [htarget, keyAt_root] at h
      exact Option.some.inj h.1
  refine ⟨h1, ?_, ?_⟩
  · intro hk hkey
    have hfirst : isFirst t k [] := by
      refine ⟨by rw [keyAt_root, hkey], ?_⟩
      intro q _
      cases q <;> rfl
    obtain ⟨pre, post, hl, hpre, hdel⟩ := Delete_of_isFirst t k [] hk hfirst
    have hpre_nil : pre = [] := by
      obtain ⟨rest, hrest⟩ := visitFrom_root_ne_nil t
      cases pre with
      | nil => rfl
      | cons a pre =>
        rw [hrest] at hl
        simp only [List.cons_append, List.cons.injEq] at hl
        exact absurd hfirst.1 (hpre [] (by rw [hl.1]; exact List.mem_cons_self _ _))
    subst hpre_nil
    rw [hdel]
    refine ⟨rfl, ?_⟩
    intro q hq
    have hmem : q ∈ visitFrom t [] := (mem_visitFrom t [] q).2 ⟨List.nil_prefix, hq⟩
    obtain ⟨rest, hrest⟩ := visitFrom_root_ne_nil t
    simp only [DeleteResult.ofWalk, List.reverse_nil, List.foldl_nil, DeleteWalk.start,
      List.reverse_cons, List.nil_append, List.mem_append, List.mem_singleton]
    rw [hrest] at hmem ⊢
    rcases List.mem_cons.1 hmem with h | h
    · exact Or.inr h
    · exact Or.inl (by simpa using h)
  · intro hne
    exact ⟨fun hmem => hne (h1 hmem).1, Delete_root_key t k⟩

/-- C17 amended, evaluated: deleting the only child "a" of a root leaves the root,
childless; deleting "root" frees it. -/
theorem delete_frees_root_iff_witness :
    '.' ∉ "root".data ∧ InitTree.key = "root" ∧ (AddNode InitTree "root" "a").2.key ≠ "a" ∧
    (Delete (AddNode InitTree "root" "a").2 "a").tree = .mk "root" ⟨0, none⟩ [] ∧
    ([] ∉ (Delete (AddNode InitTree "root" "a").2 "a").freed ∧
      (Delete (AddNode InitTree "root" "a").2 "a").tree.key = (AddNode InitTree "root" "a").2.key) ∧
    ((Delete InitTree "root").rc = OK ∧
      ∀ q, (nodeAt InitTree q).isSome = true → q ∈ (Delete InitTree "root").freed) :=
  ⟨by decide, by decide, by decide, by decide,
   (delete_frees_root_iff (AddNode InitTree "root" "a").2 "a").2.2 (by decide),
   (delete_frees_root_iff InitTree "root").2.1 (by decide) (by decide)⟩

/-! ## The upward walk frees ancestors above the patched one -/

/-- C15 fails on the code: in `chainTree` (root → p → a → {s, t}), `Delete("t")`
patches `a`, which keeps the child `s`, and then queues and frees `p` (pointer
`[0]`), an ancestor above `a` whose only child `a` lies on the path to `t`; the
root still points to the freed `p`. -/
theorem delete_frees_ancestor_above_patched :
    chainTree = .mk "root" ⟨0, none⟩ [.mk "p" ⟨0, none⟩
      [.mk "a" ⟨0, none⟩ [.mk "s" ⟨0, none⟩ [], .mk "t" ⟨0, none⟩ []]]] ∧
    (Delete chainTree "t").rc = OK ∧
    (Delete chainTree "t").freed = [[0], [0, 0, 1]] ∧
    (Delete chainTree "t").unlinked = [[0, 0, 1]] ∧
    (Delete chainTree "t").dangling = [[0]] ∧
    (Delete chainTree "t").intact = false ∧
    (Delete chainTree "t").tree = .mk "root" ⟨0, none⟩ [.mk "p" ⟨0, none⟩
      [.mk "a" ⟨0, none⟩ [.mk "s" ⟨0, none⟩ []]]] := by
  decide

/-! ## The child loop of `Delete` when keys are distinct -/

theorem take_prefix_take (target : Ptr) (j l : Nat) (h : j ≤ l) :
    target.take j <+: target.take l := by
  rw [List.prefix_take_iff]
  exact ⟨List.take_prefix j target, by rw [List.length_take]; omega⟩

theorem nodeAt_take_isSome (t : NODE) (target : Ptr) (j : Nat)
    (h : (nodeAt t target).isSome = true) : (nodeAt t (target.take j)).isSome = true := by
  rw [← List.take_append_drop j target, nodeAt_append] at h
  cases hn : nodeAt t (target.take j) with
  | none => rw [hn] at h; simp at h
  | some n => rfl

/-- In a tree with distinct keys every proper ancestor of a node is visited before it. -/
theorem ancestors_visited_before (t : NODE) (pre : List Ptr) (target : Ptr) (post : List Ptr)
    (hsplit : visitFrom t [] = pre ++ target :: post) :
    ∀ j, j < target.length → target.take j ∈ pre := by
  intro j hj
  have htv : (nodeAt t target).isSome = true :=
    ((mem_visitFrom t [] target).1 (by rw [hsplit]; simp)).2
  have hmem : target.take j ∈ visitFrom t [] :=
    (mem_visitFrom t [] _).2 ⟨List.nil_prefix, nodeAt_take_isSome t target j htv⟩
  have hpw := visitFrom_pairwise t []
  rw [hsplit, List.pairwise_append] at hpw
  rw [hsplit] at hmem
  simp only [List.mem_append, List.mem_cons] at hmem
  rcases hmem with h1 | h2 | h3
  · exact h1
  · have := congrArg List.length h2
    rw [List.length_take] at this
    omega
  · have := List.rel_of_pairwise_cons hpw.2.1 h3
    rw [ visitedBefore_of_prefix _ _ (List.take_prefix j target)] at this
    cases this

theorem Search_eq_lookupKey (tree : NODE) (root : Ptr) (result : SEARCHRESULT)
    (k : String) (search : searchMode) (hmode : search ≠ searchMode.fullTree) :
    Search tree root result k search = DephtFirst tree root result (lookupKey k) search := by
  unfold Search lookupKey
  by_cases hk : '.' ∈ k.data
  · rw [if_pos ⟨hmode, hk⟩, if_pos hk]
  · rw [if_neg (fun h => hk h.2), if_neg hk]

theorem lookupKey_of_no_dot (k : String) (hk : '.' ∉ k.data) : lookupKey k = k := by
  unfold lookupKey
  rw [if_neg hk]

theorem DephtFirst_targetNode_of_isFirst (tree : NODE) (k : String) (result : SEARCHRESULT)
    (p : Ptr) (hp : isFirst tree k p) :
    DephtFirst tree [] result k searchMode.targetNode =
      ⟨result.numNodes + 1, some p, result.nodes⟩ := by
  obtain ⟨pre, p0, post, hl, hp0, hpre⟩ := exists_isFirst tree k (hasKey_of_isFirst tree k p hp)
  have := isFirst_unique tree k p p0 hp hp0
  subst this
  rw [DephtFirst_eq_scanOrder, hl,
    scanOrder_match tree k _ (by decide) p post hp.1 pre result hpre]
  simp

theorem DephtFirst_targetNode_of_not_hasKey (tree : NODE) (k : String) (result : SEARCHRESULT)
    (h : ¬ hasKey tree k) :
    DephtFirst tree [] result k searchMode.targetNode = result := by
  rw [DephtFirst_eq_scanOrder,
    scanOrder_no_match tree k _ _ result
      (fun q hq hc => h ((hasKey_iff_mem_visitFrom tree k).2 ⟨q, hq, hc⟩))]
  simp

/-- A `targetNode` lookup from the root, for any target key: it finds the first
node whose key is the key looked up, or nothing when there is none. -/
theorem Search_targetNode_cases (tree : NODE) (k : String) (result : SEARCHRESULT) :
    (¬ hasKey tree (lookupKey k) ∧
      Search tree [] result k searchMode.targetNode = result) ∨
    (∃ p, isFirst tree (lookupKey k) p ∧
      Search tree [] result k searchMode.targetNode =
        ⟨result.numNodes + 1, some p, result.nodes⟩) := by
  rw [Search_eq_lookupKey tree [] result k _ (by decide)]
  by_cases h : hasKey tree (lookupKey k)
  · right
    obtain ⟨_, p, _, _, hp, _⟩ := exists_isFirst tree _ h
    exact ⟨p, hp, DephtFirst_targetNode_of_isFirst tree _ result p hp⟩
  · left
    exact ⟨h, DephtFirst_targetNode_of_not_hasKey tree _ result h⟩

/-- A write to the node a lookup finds that keeps its key does not change what
the lookup finds. -/
theorem Search_targetNode_modifyAt (tree : NODE) (k : String) (result : SEARCHRESULT)
    (p : Ptr) (f : NODE → NODE) (hf : ∀ n, (f n).key = n.key)
    (h : (Search tree [] SEARCHRESULT.calloc k searchMode.targetNode).node = some p) :
    (Search (modifyAt tree p f) [] result k searchMode.targetNode).node = some p := by
  rcases Search_targetNode_cases tree k SEARCHRESULT.calloc with ⟨_, h1⟩ | ⟨q, hq, h1⟩
  · rw [h1] at h
    cases h
  · rw [h1] at h
    have hqp : q = p := Option.some.inj h
    subst hqp
    have := isFirst_modifyAt tree _ q f hf hq
    rw [Search_eq_lookupKey _ [] result k _ (by decide),
      DephtFirst_targetNode_of_isFirst _ _ result q this]

/-! ## `SetInt` and `SetString` in closed form -/

theorem NodeType_not_parent (n : NODE) (h : NodeType (some n) ≠ nodeType.parentNode) :
    n.numChildren = 0 := by
  by_contra h0
  exact h (by simp [NodeType, h0])

theorem SetString_cases (t : NODE) (k s : String) :
    SetString t k s = (ERROR, t) ∨
    ∃ target n, (Search t [] SEARCHRESULT.calloc k searchMode.targetNode).node = some target ∧
      nodeAt t target = some n ∧ n.numChildren = 0 ∧
      SetString t k s = (OK, modifyAt t target
        (fun n => NODE.mk n.key ⟨n.value.integer, some s⟩ n.children)) := by
  cases hfound : (Search t [] SEARCHRESULT.calloc k searchMode.targetNode).node with
  | none => left; simp only [SetString, hfound]
  | some target =>
    obtain ⟨n, hn⟩ := Option.isSome_iff_exists.1
      (Search_targetNode_valid t k SEARCHRESULT.calloc rfl target hfound)
    by_cases hnp : NodeType (some n) ≠ nodeType.parentNode
    · by_cases hc : NodeType (some n) = nodeType.stringNode ∨ n.value.integer = 0
      · right
        refine ⟨target, n, rfl, hn, NodeType_not_parent n hnp, ?_⟩
        simp only [SetString, hfound, hn, Option.map_some', Option.some.injEq]
        rw [if_pos hnp, if_pos hc]
      · left
        simp only [SetString, hfound, hn, Option.map_some', Option.some.injEq]
        rw [if_pos hnp, if_neg hc]
    · left
      simp only [SetString, hfound, hn]
      rw [if_neg hnp]

theorem SetInt_cases (t : NODE) (k : String) (v : Nat) :
    SetInt t k v = (ERROR, t) ∨
    ∃ target n, (Search t [] SEARCHRESULT.calloc k searchMode.targetNode).node = some target ∧
      nodeAt t target = some n ∧ n.numChildren = 0 ∧ n.value.string = none ∧
      SetInt t k v = (OK, modifyAt t target
        (fun n => NODE.mk n.key ⟨v, n.value.string⟩ n.children)) := by
  cases hfound : (Search t [] SEARCHRESULT.calloc k searchMode.targetNode).node with
  | none => left; simp only [SetInt, hfound]
  | some target =>
    obtain ⟨n, hn⟩ := Option.isSome_iff_exists.1
      (Search_targetNode_valid t k SEARCHRESULT.calloc rfl target hfound)
    by_cases hnp : NodeType (some n) ≠ nodeType.parentNode
    · by_cases hc : NodeType (some n) = nodeType.integerNode
      · right
        refine ⟨target, n, rfl, hn, NodeType_not_parent n hnp, (NodeType_integerNode n hc).2, ?_⟩
        simp only [SetInt, hfound, hn]
        rw [if_pos hnp, if_pos hc]
      · left
        simp only [SetInt, hfound, hn]
        rw [if_pos hnp, if_neg hc]
    · left
      simp only [SetInt, hfound, hn]
      rw [if_neg hnp]

/-- A write that keeps the key and the children of the node at `p` changes the
payload of that node and nothing else. -/
theorem modifyAt_payloadWriteAt (g : NODE → DATA) (p : Ptr) (t n : NODE)
    (hn : nodeAt t p = some n) :
    payloadWriteAt t (modifyAt t p (fun n => NODE.mk n.key (g n) n.children)) p := by
  intro q
  by_cases hpq : p <+: q
  · obtain ⟨r, rfl⟩ := hpq
    rw [nodeAt_modifyAt_append _ r p t n hn, nodeAt_append, hn]
    cases r with
    | nil =>
      refine ⟨?_, fun h => absurd (List.append_nil p) h⟩
      simp [nodeAt, NODE.numChildren, NODE.children, NODE.key]
    | cons i r =>
      have : nodeAt (NODE.mk n.key (g n) n.children) (i :: r) = nodeAt n (i :: r) := by
        cases n
        rfl
      simp only [Option.some_bind]
      rw [this]
      exact ⟨rfl, fun _ => rfl⟩
  · have h := nodeAt_modifyAt_frame (fun n => NODE.mk n.key (g n) n.children) p q t hpq
    constructor
    · have := congrArg (Option.map (fun x : String × DATA × Nat => (x.1, x.2.2))) h
      simpa [Option.map_map, Function.comp, NODE.fields] using this
    · intro _
      have := congrArg (Option.map (fun x : String × DATA × Nat => x.2.1)) h
      simpa [Option.map_map, Function.comp, NODE.fields] using this

/-! ## Claims about reading back what `SetString` and `SetInt` wrote -/

/-- C21. For every tree, target key `k` and string `s`: when `SetString(k, s)`
returns `OK`, `GetString(k)` on the tree it leaves returns `s`. -/
theorem setString_then_getString (t : NODE) (k s : String)
    (h : (SetString t k s).1 = OK) : GetString (SetString t k s).2 k = some s := by
  rcases SetString_cases t k s with he | ⟨target, n, hfound, hn, hleaf, he⟩
  · rw [he] at h
    exact absurd h.symm OK_ne_ERROR
  · rw [he]
    have hs := Search_targetNode_modifyAt t k SEARCHRESULT.calloc target
      (fun n => NODE.mk n.key ⟨n.value.integer, some s⟩ n.children) (fun _ => rfl) hfound
    have hleaf' : (NODE.mk n.key ⟨n.value.integer, some s⟩ n.children).numChildren = 0 := hleaf
    simp only [GetString, hs, nodeAt_modifyAt_self _ target t n hn, NodeType_leaf _ hleaf']
    rfl

theorem setString_then_getString_witness :
    (SetString typedLeaves "s" "new").1 = OK ∧
    GetString (SetString typedLeaves "s" "new").2 "s" = some "new" :=
  ⟨by decide, setString_then_getString typedLeaves "s" "new" (by decide)⟩

/-- C22. For every tree, target key `k` and unsigned integer `v`: when
`SetInt(k, v)` returns `OK`, `GetInt(k)` on the tree it leaves returns `v`.
`GetInt(k)` returns 0 when no node has the key `k` (without '.'), and when the
node the lookup finds has children or holds a string. -/
theorem setInt_then_getInt (t : NODE) (k : String) (v : Nat) :
    ((SetInt t k v).1 = OK → GetInt (SetInt t k v).2 k = v) ∧
    ('.' ∉ k.data → ¬ hasKey t k → GetInt t k = 0) ∧
    (∀ target n,
      (Search t [] SEARCHRESULT.calloc k searchMode.targetNode).node = some target →
      nodeAt t target = some n →
      (n.numChildren ≠ 0 ∨ n.value.string ≠ none) → GetInt t k = 0) := by
  refine ⟨?_, ?_, ?_⟩
  · intro h
    rcases SetInt_cases t k v with he | ⟨target, n, hfound, hn, hleaf, hstr, he⟩
    · rw [he] at h
      exact absurd h.symm OK_ne_ERROR
    · rw [he]
      have hs := Search_targetNode_modifyAt t k SEARCHRESULT.calloc target
        (fun n => NODE.mk n.key ⟨v, n.value.string⟩ n.children) (fun _ => rfl) hfound
      have hleaf' : (NODE.mk n.key ⟨v, none⟩ n.children).numChildren = 0 := hleaf
      have hty : NodeType (some (NODE.mk n.key ⟨v, none⟩ n.children)) =
          nodeType.integerNode := by
        rw [NodeType_leaf _ hleaf']
        rfl
      simp only [GetInt, hs, nodeAt_modifyAt_self _ target t n hn, hstr]
      rw [if_pos hty]
      rfl
  · intro hk hkey
    simp [GetInt, Search_targetNode_of_not_hasKey t k _ hk hkey, SEARCHRESULT.calloc]
  · intro target n hfound hn hcond
    have hty : NodeType (some n) ≠ nodeType.integerNode := by
      intro hc
      obtain ⟨h1, h2⟩ := NodeType_integerNode n hc
      rcases hcond with h | h
      · exact h h1
      · exact h h2
    simp only [GetInt, hfound, hn]
    rw [if_neg hty]

theorem setInt_then_getInt_witness :
    (SetInt typedLeaves "i" 42).1 = OK ∧ GetInt (SetInt typedLeaves "i" 42).2 "i" = 42 ∧
    GetInt typedLeaves "i" = 7 ∧ GetInt typedLeaves "zz" = 0 ∧
    GetInt typedLeaves "root" = 0 ∧ GetInt typedLeaves "s" = 0 :=
  ⟨by decide, (setInt_then_getInt typedLeaves "i" 42).1 (by decide), by decide,
   (setInt_then_getInt typedLeaves "zz" 0).2.1 (by decide)
     (not_hasKey_of_keys typedLeaves "zz" (by decide)),
   (setInt_then_getInt typedLeaves "root" 0).2.2 [] typedLeaves (by decide) (by decide)
     (Or.inl (by decide)),
   (setInt_then_getInt typedLeaves "s" 0).2.2 [1] (.mk "s" ⟨0, some "x"⟩ []) (by decide)
     (by decide) (Or.inr (by decide))⟩

/-- C23. A call of `SetInt` or of `SetString`, whatever it returns, changes
nothing in the tree but the payload of the node the lookup of the target key
finds: the same pointers lead to nodes, each with the key and the number of
children it had, and every other node has the payload it had; a call that returns
`ERROR` leaves the whole tree as it was. -/
theorem set_changes_payload_only (t : NODE) (k s : String) (v : Nat) :
    payloadWriteOnly t k (SetInt t k v) ∧ payloadWriteOnly t k (SetString t k s) := by
  constructor
  · rcases SetInt_cases t k v with he | ⟨target, n, hfound, hn, _, _, he⟩
    · rw [he]
      exact ⟨Or.inr rfl, fun _ => rfl, fun h => absurd h.symm OK_ne_ERROR⟩
    · rw [he]
      exact ⟨Or.inl rfl, fun h => absurd h OK_ne_ERROR,
        fun _ => ⟨target, hfound,
          modifyAt_payloadWriteAt (fun n => ⟨v, n.value.string⟩) target t n hn⟩⟩
  · rcases SetString_cases t k s with he | ⟨target, n, hfound, hn, _, he⟩
    · rw [he]
      exact ⟨Or.inr rfl, fun _ => rfl, fun h => absurd h.symm OK_ne_ERROR⟩
    · rw [he]
      exact ⟨Or.inl rfl, fun h => absurd h OK_ne_ERROR,
        fun _ => ⟨target, hfound,
          modifyAt_payloadWriteAt (fun n => ⟨n.value.integer, some s⟩) target t n hn⟩⟩

/-! ## `strtok` walks through the non-empty segments -/

theorem splitOnP_eq_takeWhile {α : Type} (p : α → Bool) (s : List α) :
    s.splitOnP p = s.takeWhile (fun c => !p c) ::
      (match s.dropWhile (fun c => !p c) with
       | [] => []
       | _ :: r => r.splitOnP p) := by
  induction s with
  | nil => rfl
  | cons x xs ih =>
    rw [List.splitOnP_cons]
    by_cases hx : p x = true
    · simp [hx]
    · simp only [hx, if_false]
      rw [ih]
      simp [List.modifyHead, List.takeWhile_cons, List.dropWhile_cons, hx]

theorem splitOnP_no_delim {α : Type} (p : α → Bool) :
    ∀ (n : Nat) (s : List α), s.length ≤ n → ∀ seg ∈ s.splitOnP p, ∀ c ∈ seg, p c = false := by
  intro n
  induction n with
  | zero =>
    intro s hs seg hseg c hc
    have : s = [] := List.length_eq_zero.1 (Nat.le_zero.1 hs)
    subst this
    simp only [List.splitOnP_nil, List.mem_singleton] at hseg
    subst hseg
    cases hc
  | succ n ih =>
    intro s hs seg hseg c hc
    rw [splitOnP_eq_takeWhile] at hseg
    rcases List.mem_cons.1 hseg with rfl | hseg
    · have := List.mem_takeWhile_imp hc
      simpa using this
    · have hlen := (List.dropWhile_sublist (fun c => !p c) (l := s)).length_le
      cases hd : s.dropWhile (fun c => !p c) with
      | nil => rw [hd] at hseg; cases hseg
      | cons d r =>
        rw [hd] at hseg hlen
        simp only [List.length_cons] at hlen
        exact ih r (by omega) seg hseg c hc

theorem segments_no_delim (delims : List Char) (s seg : List Char)
    (h : seg ∈ segments delims s) : ∀ c ∈ seg, c ∉ delims := by
  intro c hc
  have hmem : seg ∈ s.splitOnP (fun c => decide (c ∈ delims)) := (List.mem_filter.1 h).1
  have := splitOnP_no_delim _ s.length s (le_refl _) seg hmem c hc
  simpa using this

theorem segments_ne_nil (delims : List Char) (s seg : List Char)
    (h : seg ∈ segments delims s) : seg ≠ [] := by
  have := (List.mem_filter.1 h).2
  intro he
  subst he
  simp at this

theorem strtok_none (delims s : List Char) (h : strtok delims s = none) :
    segments delims s = [] := by
  induction s with
  | nil => rfl
  | cons c cs ih =>
    by_cases hc : c ∈ delims
    · have h1 : strtok delims (c :: cs) = strtok delims cs := by
        simp [strtok, List.dropWhile_cons, hc]
      have h2 : segments delims (c :: cs) = segments delims cs := by
        simp [segments, List.splitOnP_cons, hc, List.filter_cons]
      rw [h2]
      exact ih (h1 ▸ h)
    · simp [strtok, List.dropWhile_cons, hc] at h

theorem strtok_some (delims s token rest : List Char)
    (h : strtok delims s = some (token, rest)) :
    segments delims s = token :: segments delims rest := by
  induction s with
  | nil => simp [strtok] at h
  | cons c cs ih =>
    by_cases hc : c ∈ delims
    · have h1 : strtok delims (c :: cs) = strtok delims cs := by
        simp [strtok, List.dropWhile_cons, hc]
      have h2 : segments delims (c :: cs) = segments delims cs := by
        simp [segments, List.splitOnP_cons, hc, List.filter_cons]
      rw [h2]
      exact ih (h1 ▸ h)
    · have h1 : (c :: cs).dropWhile (fun c => decide (c ∈ delims)) = c :: cs := by
        simp [List.dropWhile_cons, hc]
      simp only [strtok, h1, Option.some.injEq, Prod.mk.injEq] at h
      obtain ⟨ht, hr⟩ := h
      have hne : token ≠ [] := by
        rw [← ht]
        simp [List.takeWhile_cons, hc]
      unfold segments
      rw [splitOnP_eq_takeWhile]
      rw [List.filter_cons, ht]
      have : (!token.isEmpty) = true := by
        cases token with
        | nil => exact absurd rfl hne
        | cons _ _ => rfl
      rw [if_pos this]
      congr 1
      cases hd : List.dropWhile (fun c => !decide (c ∈ delims)) (c :: cs) with
      | nil =>
        rw [hd] at hr
        simp only [List.drop_nil] at hr
        subst hr
        rfl
      | cons d r =>
        rw [hd] at hr
        simp only [List.drop_succ_cons, List.drop_zero] at hr
        subst hr
        rfl

/-- The loop of `SplitEndKey` ends with the last non-empty segment of the unread
text in the buffer, or with the buffer as it was when there is none. -/
theorem SplitEndKeyLoop_eq :
    ∀ (fuel : Nat) (key rest : List Char), rest.length < fuel →
      SplitEndKeyLoop fuel key rest = ((segments ['.', '*'] rest).getLast?).getD key := by
  intro fuel
  induction fuel with
  | zero => intro key rest h; omega
  | succ fuel ih =>
    intro key rest h
    unfold SplitEndKeyLoop
    cases hs : strtok ['.', '*'] rest with
    | none =>
      rw [strtok_none _ _ hs]
      rfl
    | some tr =>
      obtain ⟨token, rest'⟩ := tr
      have hlen := strtok_length _ _ _ _ hs
      simp only
      rw [ih token rest' (by omega), strtok_some _ _ _ _ hs, List.getLast?_cons]
      rfl

theorem SplitEndKey_eq (fullKey : String) :
    SplitEndKey fullKey = ((lastSegment fullKey).getD fullKey) := by
  unfold SplitEndKey lastSegment
  rw [SplitEndKeyLoop_eq _ _ _ (Nat.lt_succ_self _)]
  cases (segments ['.', '*'] fullKey.data).getLast? <;> rfl

theorem lastSegment_no_dot (fullKey seg : String) (h : lastSegment fullKey = some seg) :
    '.' ∉ seg.data ∧ '*' ∉ seg.data ∧ seg.data ≠ [] := by
  unfold lastSegment at h
  obtain ⟨l, hl, rfl⟩ := Option.map_eq_some'.1 h
  have hmem := List.mem_of_getLast?_eq_some hl
  have h1 := segments_no_delim _ _ _ hmem
  refine ⟨fun hc => h1 _ hc (by simp), fun hc => h1 _ hc (by simp),
    segments_ne_nil _ _ _ hmem⟩

/-! ## Claims about dotted target keys -/

/-- When a zero byte follows the copy that `SplitEndKey` cuts and `strcpy` leaves
an exact copy of each token (the case that `SplitEndKey` models): for every
target string that contains '.' and has a
non-empty segment when split at the characters '.' and '*', `Search` in
`targetNode` or `traversedTarget` mode returns what `Search` returns for its last
non-empty segment alone. -/
theorem search_dotted_key (tree : NODE) (root : Ptr) (result : SEARCHRESULT)
    (fullKey seg : String) (search : searchMode) (hdot : '.' ∈ fullKey.data)
    (hseg : lastSegment fullKey = some seg)
    (hmode : search = searchMode.targetNode ∨ search = searchMode.traversedTarget) :
    Search tree root result fullKey search = Search tree root result seg search := by
  have hm : search ≠ searchMode.fullTree := by
    rcases hmode with h | h <;> rw [h] <;> decide
  rw [Search_eq_lookupKey _ _ _ fullKey _ hm, Search_eq_lookupKey _ _ _ seg _ hm,
    lookupKey_of_no_dot seg (lastSegment_no_dot fullKey seg hseg).1]
  unfold lookupKey
  rw [if_pos hdot, SplitEndKey_eq, hseg]
  rfl

theorem search_dotted_key_witness :
    lastSegment "config.update.*" = some "update" ∧ lastSegment "root.*" = some "root" ∧
    Search sampleTree [] SEARCHRESULT.calloc "config.update.*" searchMode.targetNode =
      Search sampleTree [] SEARCHRESULT.calloc "update" searchMode.targetNode ∧
    Search sampleTree [] SEARCHRESULT.calloc "root.*" searchMode.traversedTarget =
      Search sampleTree [] SEARCHRESULT.calloc "root" searchMode.traversedTarget :=
  ⟨by decide, by decide,
   search_dotted_key sampleTree [] SEARCHRESULT.calloc "config.update.*" "update" _
     (by decide) (by decide) (Or.inl rfl),
   search_dotted_key sampleTree [] SEARCHRESULT.calloc "root.*" "root" _
     (by decide) (by decide) (Or.inr rfl)⟩

/-- C29. In a tree none of whose keys contains '.', `Delete` with a target string
that contains '.' returns `ERROR`, frees nothing and leaves the tree as it was:
the match test compares the key of the last visited node with the whole target
string. -/
theorem delete_dotted_target (t : NODE) (k : String)
    (hkeys : ∀ x ∈ t.keys, '.' ∉ x.data) (hk : '.' ∈ k.data) :
    (Delete t k).rc = ERROR ∧ (Delete t k).tree = t ∧ (Delete t k).freed = [] := by
  obtain ⟨pre, target, post, _, h | h⟩ := Delete_cases t k
  · rw [h.2]
    exact ⟨rfl, rfl, rfl⟩
  · exfalso
    obtain ⟨n, hn, hnk⟩ := Option.map_eq_some'.1 h.1
    have hmem : k ∈ t.keys := (mem_keys_iff_hasKey t k).2 ⟨target, n, hn, hnk⟩
    exact hkeys k hmem hk

theorem delete_dotted_target_witness :
    (∀ x ∈ sampleTree.keys, '.' ∉ x.data) ∧ hasKey sampleTree (lookupKey "root.a") ∧
    (Delete sampleTree "root.a").rc = ERROR ∧ (Delete sampleTree "root.a").tree = sampleTree ∧
    (Delete sampleTree "root.a").freed = [] :=
  ⟨by decide, (mem_keys_iff_hasKey sampleTree _).1 (by decide),
   delete_dotted_target sampleTree "root.a" (by decide) (by decide)⟩

/-! ## `AddNode` with any keys -/

/-- The three outcomes of `AddNode` for arbitrary keys, in terms of the keys that
its two lookups hand to `DephtFirst`. -/
theorem AddNode_closed (t : NODE) (p k : String) :
    (hasKey t (lookupKey k) → AddNode t p k = (ERROR, t)) ∧
    (¬ hasKey t (lookupKey k) → ¬ hasKey t (lookupKey p) → AddNode t p k = (ERROR, t)) ∧
    (¬ hasKey t (lookupKey k) → ∀ target, isFirst t (lookupKey p) target →
      AddNode t p k = (OK, modifyAt t target
        (fun n => NODE.mk n.key ⟨0, none⟩ (BubbleSort (n.children ++ [CreateNode k]))))) := by
  refine ⟨?_, ?_, ?_⟩
  · intro hk
    rcases Search_targetNode_cases t k SEARCHRESULT.calloc with ⟨h, _⟩ | ⟨q, _, h⟩
    · exact absurd hk h
    · simp only [AddNode, h]
  · intro hk hp
    rcases Search_targetNode_cases t k SEARCHRESULT.calloc with ⟨_, h⟩ | ⟨q, hq, _⟩
    · rcases Search_targetNode_cases t p SEARCHRESULT.calloc with ⟨_, h2⟩ | ⟨q, hq, _⟩
      · simp only [AddNode, h, h2]
        rfl
      · exact absurd (hasKey_of_isFirst t _ q hq) hp
    · exact absurd (hasKey_of_isFirst t _ q hq) hk
  · intro hk target hp
    rcases Search_targetNode_cases t k SEARCHRESULT.calloc with ⟨_, h⟩ | ⟨q, hq, _⟩
    · rcases Search_targetNode_cases t p SEARCHRESULT.calloc with ⟨h2, _⟩ | ⟨q, hq, h2⟩
      · exact absurd (hasKey_of_isFirst t _ target hp) h2
      · have := isFirst_unique t _ q target hq hp
        subst this
        simp only [AddNode, h, h2]
        rfl
    · exact absurd (hasKey_of_isFirst t _ q hq) hk

theorem AddNode_ok_keys (t : NODE) (p k : String) (target : Ptr)
    (hk : ¬ hasKey t (lookupKey k)) (hp : isFirst t (lookupKey p) target) :
    (AddNode t p k).1 = OK ∧ (AddNode t p k).2.keys.Perm (k :: t.keys) := by
  rw [(AddNode_closed t p k).2.2 hk target hp]
  obtain ⟨n, hn, _⟩ := Option.map_eq_some'.1 hp.1
  refine ⟨rfl, keys_modifyAt k
    (fun n => NODE.mk n.key ⟨0, none⟩ (BubbleSort (n.children ++ [CreateNode k])))
    target t n hn ?_⟩
  have := keys_addNode_write n.key k n.value n.children
  rwa [NODE.eta] at this

/-! ## Claims about dotted new keys -/

/-- When a zero byte follows the copy that `SplitEndKey` cuts and `strcpy` leaves
an exact copy of each token (the case that `SplitEndKey` models): for a new key
`k` that contains '.' and whose last non-empty segment is `y`, `AddNode(p, k)`
returns `ERROR` and changes nothing when some node has the key `y`; when no node
has the key `y` and the lookup of `p` finds a node, it returns `OK` and the keys
of the tree are the former keys and `k` once more, whether or not a node with key
`k` was there; a second call returns `OK` again, so that `k` is then the key of
two more nodes than before. -/
theorem addNode_dotted_key (t : NODE) (p k y : String) (hdot : '.' ∈ k.data)
    (hy : lastSegment k = some y) :
    (hasKey t y → AddNode t p k = (ERROR, t)) ∧
    (¬ hasKey t y → hasKey t (lookupKey p) →
      (AddNode t p k).1 = OK ∧ (AddNode t p k).2.keys.Perm (k :: t.keys) ∧
      (AddNode (AddNode t p k).2 p k).1 = OK ∧
      (AddNode (AddNode t p k).2 p k).2.keys.Perm (k :: k :: t.keys)) := by
  have hlk : lookupKey k = y := by
    unfold lookupKey
    rw [if_pos hdot, SplitEndKey_eq, hy]
    rfl
  have hyk : y ≠ k := by
    intro h
    rw [h] at hy
    exact (lastSegment_no_dot k k hy).1 hdot
  constructor
  · intro h
    exact (AddNode_closed t p k).1 (hlk ▸ h)
  · intro hno hp
    obtain ⟨_, target, _, _, htarget, _⟩ := exists_isFirst t _ hp
    obtain ⟨h1, h2⟩ := AddNode_ok_keys t p k target (hlk ▸ hno) htarget
    have hno' : ¬ hasKey (AddNode t p k).2 (lookupKey k) := by
      rw [hlk]
      intro h
      have := (mem_keys_iff_hasKey _ y).2 h
      rcases List.mem_cons.1 (h2.subset this) with h3 | h3
      · exact hyk h3
      · exact hno ((mem_keys_iff_hasKey t y).1 h3)
    have hp' : hasKey (AddNode t p k).2 (lookupKey p) :=
      (mem_keys_iff_hasKey _ _).1
        (h2.symm.subset (List.mem_cons_of_mem _ ((mem_keys_iff_hasKey t _).2 hp)))
    obtain ⟨_, target', _, _, htarget', _⟩ := exists_isFirst _ _ hp'
    obtain ⟨h3, h4⟩ := AddNode_ok_keys (AddNode t p k).2 p k target' hno' htarget'
    exact ⟨h1, h2, h3, h4.trans (List.Perm.cons k h2)⟩

theorem addNode_dotted_key_witness :
    '.' ∈ "x.y".data ∧ lastSegment "x.y" = some "y" ∧
    AddNode (AddNode InitTree "root" "y").2 "root" "x.y" =
      (ERROR, (AddNode InitTree "root" "y").2) ∧
    (AddNode (AddNode InitTree "root" "x.y").2 "root" "x.y").2 =
      .mk "root" ⟨0, none⟩ [.mk "x.y" ⟨0, none⟩ [], .mk "x.y" ⟨0, none⟩ []] ∧
    ((AddNode InitTree "root" "x.y").1 = OK ∧
      (AddNode InitTree "root" "x.y").2.keys.Perm ("x.y" :: InitTree.keys) ∧
      (AddNode (AddNode InitTree "root" "x.y").2 "root" "x.y").1 = OK ∧
      (AddNode (AddNode InitTree "root" "x.y").2 "root" "x.y").2.keys.Perm
        ("x.y" :: "x.y" :: InitTree.keys)) :=
  ⟨by decide, by decide,
   (addNode_dotted_key (AddNode InitTree "root" "y").2 "root" "x.y" "y" (by decide)
     (by decide)).1 ((mem_keys_iff_hasKey _ _).1 (by decide)),
   by decide,
   (addNode_dotted_key InitTree "root" "x.y" "y" (by decide) (by decide)).2
     (not_hasKey_of_keys InitTree "y" (by decide))
     ((mem_keys_iff_hasKey _ _).1 (by decide))⟩

/-! ## The ancestors of the target in the `traversedTarget` sequence -/

theorem visitedBefore_take (target : Ptr) (i j : Nat) (hij : i < j) (hj : j ≤ target.length) :
    visitedBefore (target.take i) (target.take j) = true := by
  obtain ⟨r, hr⟩ := take_prefix_take target i j (le_of_lt hij)
  have hlen := congrArg List.length hr
  rw [List.length_append, List.length_take, List.length_take] at hlen
  have h := visitedBefore_append (target.take i) [] r
  rw [List.append_nil, hr] at h
  rw [h]
  cases r with
  | nil => simp only [List.length_nil] at hlen; omega
  | cons _ _ => rfl

/-- The proper ancestors of a visited node, from the root downwards, are a
subsequence of the nodes visited before it. -/
theorem ancestors_sublist (t : NODE) (pre : List Ptr) (target : Ptr) (post : List Ptr)
    (hsplit : visitFrom t [] = pre ++ target :: post) :
    ((List.range target.length).map (fun j => target.take j)).Sublist pre := by
  haveI : IsAntisymm Ptr (fun a b => visitedBefore a b = true) :=
    ⟨fun a b hab hba => by rw [visitedBefore_asymm a b hab] at hba; cases hba⟩
  have hpw := visitFrom_pairwise t []
  rw [hsplit, List.pairwise_append] at hpw
  have hsorted : ((List.range target.length).map (fun j => target.take j)).Pairwise
      (fun a b => visitedBefore a b = true) := by
    rw [List.pairwise_map]
    refine List.Pairwise.imp_of_mem ?_ (List.pairwise_lt_range target.length)
    intro a b _ hb hab
    exact visitedBefore_take target a b hab (le_of_lt (List.mem_range.1 hb))
  have hnodup : ((List.range target.length).map (fun j => target.take j)).Nodup :=
    hsorted.imp (fun {a b} hab he => by
      rw [he, visitedBefore_irrefl] at hab
      cases hab)
  have hsub : (List.range target.length).map (fun j => target.take j) ⊆ pre := by
    intro x hx
    obtain ⟨j, hj, rfl⟩ := List.mem_map.1 hx
    exact ancestors_visited_before t pre target post hsplit j (List.mem_range.1 hj)
  exact List.sublist_of_subperm_of_sorted (List.subperm_of_subset hnodup hsub) hsorted hpw.1

/-- C28 as stated fails for a key that contains '.': in `dottedTree` the node
`p` (pointer `[0]`) is the parent of the node with key "x.y" (pointer `[0, 0]`),
and the `traversedTarget` sequence for "x.y" is the root followed by the node
`y`: the lookup is made with the last segment "y". -/
theorem search_traversedTarget_dotted_key :
    dottedTree = .mk "root" ⟨0, none⟩
      [.mk "p" ⟨0, none⟩ [.mk "x.y" ⟨0, none⟩ []], .mk "y" ⟨0, none⟩ []] ∧
    keyAt dottedTree [0, 0] = some "x.y" ∧
    (Search dottedTree [] SEARCHRESULT.calloc "x.y" searchMode.traversedTarget).nodes =
      [[], [1]] ∧
    [0] ∉ (Search dottedTree [] SEARCHRESULT.calloc "x.y" searchMode.traversedTarget).nodes := by
  decide

/-- C28, amended. For every tree and every key `k` without '.' that some node
has, the sequence that `Search` in `traversedTarget` mode returns from the root
ends with the target, the first node with key `k` in the visiting order; the
proper ancestors of the target, from the root downwards, are a subsequence of the
nodes before the target; and the root is the first element. -/
theorem search_traversedTarget_ancestors (t : NODE) (k : String) (hk : '.' ∉ k.data)
    (h : hasKey t k) :
    ∃ pre target,
      (Search t [] SEARCHRESULT.calloc k searchMode.traversedTarget).nodes = pre ++ [target] ∧
      isFirst t k target ∧
      ((List.range target.length).map (fun j => target.take j)).Sublist pre ∧
      (pre ++ [target]).head? = some [] := by
  obtain ⟨pre, target, post, hl, hfirst, hpre⟩ := exists_isFirst t k h
  refine ⟨pre, target, ?_, hfirst, ancestors_sublist t pre target post hl, ?_⟩
  · rw [Search_eq_DephtFirst t [] _ k _ hk, DephtFirst_eq_scanOrder, hl,
      scanOrder_match t k _ (by decide) target post hfirst.1 pre _ hpre]
    simp [SEARCHRESULT.calloc]
  · obtain ⟨rest, hrest⟩ := visitFrom_root_ne_nil t
    rw [hl] at hrest
    cases pre with
    | nil =>
      simp only [List.nil_append, List.cons.injEq] at hrest
      rw [hrest.1]
      rfl
    | cons a pre =>
      simp only [List.cons_append, List.cons.injEq] at hrest
      rw [hrest.1]
      rfl

theorem search_traversedTarget_ancestors_witness :
    '.' ∉ "d".data ∧ hasKey sampleTree "d" ∧
    (Search sampleTree [] SEARCHRESULT.calloc "d" searchMode.traversedTarget).nodes =
      [[], [1], [0], [0, 1]] ∧
    ∃ pre target,
      (Search sampleTree [] SEARCHRESULT.calloc "d" searchMode.traversedTarget).nodes =
        pre ++ [target] ∧
      isFirst sampleTree "d" target ∧
      ((List.range target.length).map (fun j => target.take j)).Sublist pre ∧
      (pre ++ [target]).head? = some [] :=
  ⟨by decide, (mem_keys_iff_hasKey sampleTree "d").1 (by decide), by decide,
   search_traversedTarget_ancestors sampleTree "d" (by decide)
     ((mem_keys_iff_hasKey sampleTree "d").1 (by decide))⟩

/-! ## `GetText` -/

theorem DephtFirst_targetNode_from (tree : NODE) (k : String) (start : Ptr)
    (result : SEARCHRESULT) (pre : List Ptr) (p : Ptr) (post : List Ptr)
    (hl : visitFrom tree start = pre ++ p :: post) (hp : keyAt tree p = some k)
    (hpre : ∀ q ∈ pre, keyAt tree q ≠ some k) :
    DephtFirst tree start result k searchMode.targetNode =
      ⟨result.numNodes + 1, some p, result.nodes⟩ := by
  rw [DephtFirst_eq_scanOrder, hl, scanOrder_match tree k _ (by decide) p post hp pre result hpre]
  simp

/-- In a tree with distinct keys a `targetNode` lookup that starts at a node finds
the node with the key looked up when it is that node or lies below it. -/
theorem Search_targetNode_below (tree : NODE) (k : String) (start p : Ptr)
    (result : SEARCHRESULT) (hk : '.' ∉ k.data) (hnd : tree.keys.Nodup)
    (hsp : start <+: p) (hp : keyAt tree p = some k) :
    Search tree start result k searchMode.targetNode =
      ⟨result.numNodes + 1, some p, result.nodes⟩ := by
  obtain ⟨n, hn, hnk⟩ := Option.map_eq_some'.1 hp
  have hmem : p ∈ visitFrom tree start := (mem_visitFrom tree start p).2 ⟨hsp, by simp [hn]⟩
  obtain ⟨pre, post, hl⟩ := List.append_of_mem hmem
  have hnodup := visitFrom_nodup tree start
  rw [hl] at hnodup
  rw [Search_eq_DephtFirst tree start result k _ hk]
  refine DephtFirst_targetNode_from tree k start result pre p post hl hp ?_
  intro q hq hqk
  obtain ⟨m, hm, hmk⟩ := Option.map_eq_some'.1 hqk
  have hqp : q = p := unique_of_keys_nodup tree hnd q p m n hm hn (hmk.trans hnk.symm)
  subst hqp
  exact (List.nodup_append.1 hnodup).2.2 hq (List.mem_cons_self _ _)

/-- C25 fails on the code. In a tree with distinct keys that has a node `L` and,
at or below it, a childless node that has the key `L ++ K` and holds the string
`s` (keys without '.'), the searches of `GetText(K, L)` end with `result->node`
at that node; the value returned is then read through the field `node` of the
block `result` as `free (result)` has left it.  It is `s` only when `free` has
left that field as it was. -/
theorem getText_reads_freed_result (free : SEARCHRESULT → SEARCHRESULT) (t : NODE)
    (K L s : String) (l c : Ptr) (cn : NODE) (hnd : t.keys.Nodup)
    (hL : '.' ∉ L.data) (hK : '.' ∉ K.data) (hl : keyAt t l = some L) (hlc : l <+: c)
    (hc : nodeAt t c = some cn) (hck : cn.key = L ++ K) (hleaf : cn.numChildren = 0)
    (hs : cn.value.string = some s) :
    GetText free t K L =
      ((free ⟨2, some c, []⟩).node.bind (nodeAt t)).map (fun n => n.value.string) ∧
    GetText id t K L = some (some s) := by
  have h1 : Search t [] SEARCHRESULT.calloc L searchMode.targetNode = ⟨1, some l, []⟩ :=
    Search_targetNode_below t L [] l SEARCHRESULT.calloc hL hnd List.nil_prefix hl
  have hpath : '.' ∉ (L ++ K).data := by
    rw [String.data_append]
    simp only [List.mem_append, not_or]
    exact ⟨hL, hK⟩
  have h2 : Search t l ⟨1, some l, []⟩ (L ++ K) searchMode.targetNode = ⟨2, some c, []⟩ :=
    Search_targetNode_below t (L ++ K) l c ⟨1, some l, []⟩ hpath hnd hlc
      (by rw [keyAt, hc, ← hck]; rfl)
  have hty : NodeType (some cn) = nodeType.stringNode := by
    rw [NodeType_leaf cn hleaf, hs]
    rfl
  have hfree : ∀ f : SEARCHRESULT → SEARCHRESULT, GetText f t K L =
      ((f ⟨2, some c, []⟩).node.bind (nodeAt t)).map (fun n => n.value.string) := by
    intro f
    simp only [GetText, h1, h2, Option.some_bind, hc, hty, ne_eq, not_true_eq_false, if_false]
  refine ⟨hfree free, ?_⟩
  rw [hfree id]
  simp [hc, hs]

/-- C25, evaluated on `textTree` for the key "greeting" and the language "no":
the searches end at the node `nogreeting`; a `free` that leaves the block as it
was gives its string, a `free` that clears the block makes the return statement
dereference a null pointer. -/
theorem getText_reads_freed_result_witness :
    textTree.keys.Nodup ∧ keyAt textTree [1] = some "no" ∧
    nodeAt textTree [1, 0] = some (.mk "nogreeting" ⟨0, some "hei"⟩ []) ∧
    GetText (fun _ => SEARCHRESULT.calloc) textTree "greeting" "no" = none ∧
    (GetText (fun _ => SEARCHRESULT.calloc) textTree "greeting" "no" =
      (((fun _ => SEARCHRESULT.calloc) (⟨2, some [1, 0], []⟩ : SEARCHRESULT)).node.bind
        (nodeAt textTree)).map (fun n => n.value.string) ∧
     GetText id textTree "greeting" "no" = some (some "hei")) :=
  ⟨by decide, by decide, by decide, by decide,
   getText_reads_freed_result (fun _ => SEARCHRESULT.calloc) textTree "greeting" "no" "hei"
     [1] [1, 0] (.mk "nogreeting" ⟨0, some "hei"⟩ []) (by decide) (by decide) (by decide)
     (by decide) (by decide) (by decide) (by decide) (by decide) (by decide)⟩

/-- When no node has the language key `L` (without '.'), `GetText(K, L)` searches
nothing more: the fallback to "en" stands inside `if (result->node)`, and the
return statement dereferences the null pointer that the first search has left in
`result->node` (for a `free` that leaves the block as it was). -/
theorem GetText_of_no_language (t : NODE) (K L : String) (hL : '.' ∉ L.data)
    (hno : ¬ hasKey t L) : GetText id t K L = none := by
  have h1 := Search_targetNode_of_not_hasKey t L SEARCHRESULT.calloc hL hno
  simp only [GetText, h1]
  rfl

/-- C26 fails on the code. `textTree` has the string "hello" at `greeting` under
`en` and no node "fr": `GetText("greeting", "fr")` does not return "hello", it
dereferences a null pointer.  In `leafLanguageTree` the language node `de` is a
leaf with a string and has nothing below it: the search below it leaves
`result->node` at `de`, and the string of `de` is returned instead of the one
under `en`.  (Both for a `free` that leaves the freed block as it was.) -/
theorem getText_without_language_node :
    GetString textTree "greeting" = some "hello" ∧ ¬ hasKey textTree "fr" ∧
    GetText id textTree "greeting" "fr" = none ∧
    GetString leafLanguageTree "greeting" = some "hello" ∧
    ¬ hasKey leafLanguageTree "degreeting" ∧
    GetText id leafLanguageTree "greeting" "de" = some (some "x") :=
  ⟨by decide, not_hasKey_of_keys textTree "fr" (by decide), by decide, by decide,
   not_hasKey_of_keys leafLanguageTree "degreeting" (by decide), by decide⟩

/-! ## The edges of a tree -/

theorem edgesList_eq_flatMap (k : String) (cs : List NODE) :
    NODE.edgesList k cs = cs.flatMap (fun c => (k, c.key) :: c.edges) := by
  induction cs with
  | nil => rfl
  | cons c cs ih =>
    rw [List.flatMap_cons, ← ih]
    rfl

theorem edgesList_append (k : String) (l₁ l₂ : List NODE) :
    NODE.edgesList k (l₁ ++ l₂) = NODE.edgesList k l₁ ++ NODE.edgesList k l₂ := by
  simp only [edgesList_eq_flatMap, List.flatMap_append]

theorem edgesList_perm (k : String) {l₁ l₂ : List NODE} (h : l₁.Perm l₂) :
    (NODE.edgesList k l₁).Perm (NODE.edgesList k l₂) := by
  simp only [edgesList_eq_flatMap]
  exact List.Perm.flatMap_right _ h

theorem edgesList_set (X : List (String × String)) (k : String) (c' : NODE) :
    ∀ (cs : List NODE) (i : Nat) (c : NODE), cs[i]? = some c → c'.key = c.key →
      c'.edges.Perm (X ++ c.edges) →
      (NODE.edgesList k (cs.set i c')).Perm (X ++ NODE.edgesList k cs) := by
  intro cs
  induction cs with
  | nil => intro i c hc; simp at hc
  | cons e cs ih =>
    intro i c hc hkey hperm
    cases i with
    | zero =>
      simp only [List.getElem?_cons_zero, Option.some.injEq] at hc
      subst hc
      simp only [List.set_cons_zero, NODE.edgesList, hkey]
      refine (List.Perm.cons _ (List.Perm.append_right _ hperm)).trans ?_
      rw [List.append_assoc]
      exact List.perm_middle.symm
    | succ i =>
      simp only [List.getElem?_cons_succ] at hc
      simp only [List.set_cons_succ, NODE.edgesList]
      refine (List.Perm.cons _ (List.Perm.append_left _ (ih i c hc hkey hperm))).trans ?_
      refine (List.Perm.cons _ ?_).trans List.perm_middle.symm
      rw [← List.append_assoc, ← List.append_assoc]
      exact List.Perm.append_right _ List.perm_append_comm

/-- A write that keeps keys and adds the edges `X` below the node at `p` adds them
to the tree. -/
theorem edges_modifyAt (X : List (String × String)) (f : NODE → NODE)
    (hf : ∀ m, (f m).key = m.key) :
    ∀ (p : Ptr) (t n : NODE), nodeAt t p = some n → (f n).edges.Perm (X ++ n.edges) →
      (modifyAt t p f).edges.Perm (X ++ t.edges) := by
  intro p
  induction p with
  | nil =>
    intro t n h hperm
    simp only [nodeAt, Option.some.injEq] at h
    subst h
    simpa [modifyAt] using hperm
  | cons i p ih =>
    intro t n h hperm
    cases t with
    | mk k0 v cs =>
      simp only [nodeAt] at h
      cases hc : cs[i]? with
      | none => simp [hc] at h
      | some c =>
        simp only [hc] at h
        simp only [modifyAt, hc, NODE.edges]
        exact edgesList_set X k0 _ cs i c hc (modifyAt_key f hf c p) (ih c n h hperm)

theorem edges_addNode_write (n : NODE) (s : String) :
    (NODE.mk n.key ⟨0, none⟩ (BubbleSort (n.children ++ [CreateNode s]))).edges.Perm
      ([(n.key, s)] ++ n.edges) := by
  obtain ⟨_, hperm, _⟩ := BubbleSort_spec (n.children ++ [CreateNode s])
  cases n with
  | mk k v cs =>
    simp only [NODE.edges, NODE.key, NODE.children] at hperm ⊢
    refine (edgesList_perm k hperm).trans ?_
    rw [edgesList_append]
    simp only [NODE.edgesList, CreateNode, NODE.edges, NODE.key, List.append_nil]
    exact List.perm_append_comm

theorem edges_payload_write (n : NODE) (d : DATA) :
    (NODE.mk n.key d n.children).edges = n.edges := by
  cases n
  rfl

/-- What a successful `AddNode` leaves, for any keys: the key `k` and, below the
node found for `p`, the edge to a new leaf with the key `k`. -/
theorem AddNode_ok_edges (t : NODE) (p k : String) (target : Ptr)
    (hk : ¬ hasKey t (lookupKey k)) (hp : isFirst t (lookupKey p) target) :
    (AddNode t p k).2.edges.Perm ([(lookupKey p, k)] ++ t.edges) ∧
    (AddNode t p k).2.key = t.key := by
  rw [(AddNode_closed t p k).2.2 hk target hp]
  obtain ⟨n, hn, hnk⟩ := Option.map_eq_some'.1 hp.1
  refine ⟨?_, modifyAt_key
    (fun n => NODE.mk n.key ⟨0, none⟩ (BubbleSort (n.children ++ [CreateNode k])))
    (fun _ => rfl) t target⟩
  have := edges_addNode_write n k
  rw [hnk] at this
  refine edges_modifyAt [(lookupKey p, k)]
    (fun n => NODE.mk n.key ⟨0, none⟩ (BubbleSort (n.children ++ [CreateNode k])))
    (fun _ => rfl) target t n hn ?_
  simp only
  rw [hnk]
  exact this

/-! ## The loop of `DeserializeTextFile` over the segments of a key path -/

theorem leafWith_length (sn : String) (C : DATA → Prop) (k : String) (v : DATA)
    (cs cs' : List NODE) (h : cs.length = cs'.length) :
    leafWith sn C (NODE.mk k v cs) → leafWith sn C (NODE.mk k v cs') := by
  intro hP hk
  have := hP hk
  simp only [NODE.numChildren, NODE.children, NODE.value] at this ⊢
  exact ⟨by omega, this.2⟩

theorem AddNode_allNodes (P : NODE → Prop)
    (hlen : ∀ k v (cs cs' : List NODE), cs.length = cs'.length →
      P (NODE.mk k v cs) → P (NODE.mk k v cs'))
    (t : NODE) (p k : String) (target : Ptr)
    (hk : ¬ hasKey t (lookupKey k)) (hp : isFirst t (lookupKey p) target)
    (htarget : ∀ cs, P (NODE.mk (lookupKey p) ⟨0, none⟩ cs))
    (hleaf : P (NODE.mk k ⟨0, none⟩ [])) (h : AllNodes P t) :
    AllNodes P (AddNode t p k).2 := by
  rw [(AddNode_closed t p k).2.2 hk target hp]
  apply allNodes_modifyAt _ _ hlen _ t h
  intro n hn
  have hnk : n.key = lookupKey p := by
    have := hp.1
    rw [keyAt, hn] at this
    exact Option.some.inj this
  obtain ⟨_, hperm, _⟩ := BubbleSort_spec (n.children ++ [CreateNode k])
  refine allNodes_of_children_subset _ n _ _ _ ?_ ?_ (subtree_allNodes _ t target n hn h)
  · intro c hc
    rcases List.mem_append.1 (hperm.subset hc) with hc | hc
    · exact Or.inl hc
    · right
      simp only [List.mem_singleton] at hc
      subst hc
      exact allNodes_leaf _ _ _ hleaf
  · rw [hnk]
    exact htarget _

theorem leafWith_other (sn : String) (C : DATA → Prop) (k : String) (v : DATA)
    (cs : List NODE) (h : k ≠ sn) : leafWith sn C (NODE.mk k v cs) :=
  fun hk => absurd hk h

theorem newEdges_cons_new (keys : List String) (prev s : String) (rest : List String)
    (hs : s ∉ keys) :
    newEdges keys prev (s :: rest) = (prev, s) :: newEdges keys s rest := by
  simp [newEdges, List.zip_cons_cons, List.filter_cons, hs]

theorem newEdges_cons_old (keys : List String) (prev s : String) (rest : List String)
    (hs : s ∈ keys) :
    newEdges keys prev (s :: rest) = newEdges keys s rest := by
  simp [newEdges, List.zip_cons_cons, List.filter_cons, hs]

theorem newEdges_congr (keys keys' : List String) (prev : String) (rest : List String)
    (h : ∀ s ∈ rest, s ∈ keys ↔ s ∈ keys') :
    newEdges keys prev rest = newEdges keys' prev rest := by
  unfold newEdges
  apply List.filter_congr
  intro e he
  have := h e.2 (List.of_mem_zip he).2
  simp [this]

/-- The loop over the segments of a key path, none of them "no" or with a '.': each
segment that is not in the tree is added below the node found for the segment
before it, the others are left alone.  A property `P` of all nodes that does not
depend on which children a node has, that new leaves have and that the nodes the
loop adds children to cannot lose, is kept. -/
theorem DeserializeKeys_spec (P : NODE → Prop)
    (hlen : ∀ k v (cs cs' : List NODE), cs.length = cs'.length →
      P (NODE.mk k v cs) → P (NODE.mk k v cs')) :
    ∀ (rest : List String) (T : NODE) (prev : String),
      hasKey T prev → '.' ∉ prev.data → prev ≠ "no" →
      (∀ s ∈ rest, '.' ∉ s.data ∧ s ≠ "no") → rest.Nodup →
      (∀ k ∈ (prev :: rest).dropLast, ∀ cs, P (NODE.mk k ⟨0, none⟩ cs)) →
      (∀ s ∈ rest, P (NODE.mk s ⟨0, none⟩ [])) → AllNodes P T →
      ∃ T', DeserializeKeys T prev none rest = (T', (rest.getLast?).getD prev, none) ∧
        T'.edges.Perm (newEdges T.keys prev rest ++ T.edges) ∧
        T'.keys.Perm (rest.filter (fun s => decide (s ∉ T.keys)) ++ T.keys) ∧
        T'.key = T.key ∧ AllNodes P T' := by
  intro rest
  induction rest with
  | nil =>
    intro T prev _ _ _ _ _ _ _ hP
    exact ⟨T, rfl, List.Perm.refl _, List.Perm.refl _, rfl, hP⟩
  | cons s rest ih =>
    intro T prev hprev hpd hpno hsegs hnd htargets hleaves hP
    obtain ⟨hsd, hsno⟩ := hsegs s (List.mem_cons_self _ _)
    have hsegs' : ∀ x ∈ rest, '.' ∉ x.data ∧ x ≠ "no" :=
      fun x hx => hsegs x (List.mem_cons_of_mem _ hx)
    obtain ⟨hsrest, hnd'⟩ := List.nodup_cons.1 hnd
    have htargets' : ∀ k ∈ (s :: rest).dropLast, ∀ cs, P (NODE.mk k ⟨0, none⟩ cs) := by
      intro k hk
      exact htargets k (by rw [List.dropLast_cons₂]; exact List.mem_cons_of_mem _ hk)
    have hprevP : ∀ cs, P (NODE.mk prev ⟨0, none⟩ cs) :=
      htargets prev (by rw [List.dropLast_cons₂]; exact List.mem_cons_self _ _)
    have hleaves' : ∀ x ∈ rest, P (NODE.mk x ⟨0, none⟩ []) :=
      fun x hx => hleaves x (List.mem_cons_of_mem _ hx)
    have hlast : ((s :: rest).getLast?).getD prev = (rest.getLast?).getD s := by
      rw [List.getLast?_cons]
      rfl
    rw [hlast]
    rcases Search_targetNode_cases T s SEARCHRESULT.calloc with ⟨hno, hsearch⟩ | ⟨q, hq, hsearch⟩
    · rw [lookupKey_of_no_dot s hsd] at hno
      have hstr : ¬ strcmp prev "no" = 0 := fun h => hpno ((strcmp_eq_zero _ _).1 h)
      have hunf : DeserializeKeys T prev none (s :: rest) =
          DeserializeKeys (AddNode T prev s).2 s none rest := by
        simp only [DeserializeKeys, hsearch]
        rw [if_neg hstr]
        rfl
      obtain ⟨_, target, _, _, htarget, _⟩ := exists_isFirst T prev hprev
      have htarget' : isFirst T (lookupKey prev) target := by
        rw [lookupKey_of_no_dot prev hpd]
        exact htarget
      have hno' : ¬ hasKey T (lookupKey s) := by
        rw [lookupKey_of_no_dot s hsd]
        exact hno
      obtain ⟨_, hkeys⟩ := AddNode_ok_keys T prev s target hno' htarget'
      obtain ⟨hedges, hkey⟩ := AddNode_ok_edges T prev s target hno' htarget'
      rw [lookupKey_of_no_dot prev hpd] at hedges
      have hP1 := AddNode_allNodes P hlen T prev s target hno' htarget'
        (by rw [lookupKey_of_no_dot prev hpd]; exact hprevP)
        (hleaves s (List.mem_cons_self _ _)) hP
      have hs1 : hasKey (AddNode T prev s).2 s :=
        (mem_keys_iff_hasKey _ s).1 (hkeys.symm.subset (List.mem_cons_self _ _))
      obtain ⟨T', hrun, he, hk, hroot, hP'⟩ :=
        ih (AddNode T prev s).2 s hs1 hsd hsno hsegs' hnd' htargets' hleaves' hP1
      have hsT : s ∉ T.keys := fun h => hno ((mem_keys_iff_hasKey T s).1 h)
      have hiff : ∀ x ∈ rest, x ∈ (AddNode T prev s).2.keys ↔ x ∈ T.keys := by
        intro x hx
        constructor
        · intro h
          rcases List.mem_cons.1 (hkeys.subset h) with h1 | h1
          · rw [h1] at hx
            exact absurd hx hsrest
          · exact h1
        · intro h
          exact hkeys.symm.subset (List.mem_cons_of_mem _ h)
      refine ⟨T', hunf.trans hrun, ?_, ?_, hroot.trans hkey, hP'⟩
      · rw [newEdges_cons_new T.keys prev s rest hsT,
          ← newEdges_congr _ _ s rest hiff]
        refine he.trans ?_
        refine (List.Perm.append_left _ hedges).trans ?_
        exact List.perm_middle
      · have hf : rest.filter (fun x => decide (x ∉ (AddNode T prev s).2.keys)) =
            rest.filter (fun x => decide (x ∉ T.keys)) := by
          apply List.filter_congr
          intro x hx
          simp [hiff x hx]
        rw [List.filter_cons, if_pos (by simpa using hsT)]
        rw [hf] at hk
        refine hk.trans ?_
        refine (List.Perm.append_left _ hkeys).trans ?_
        exact List.perm_middle
    · rw [lookupKey_of_no_dot s hsd] at hq
      have hunf : DeserializeKeys T prev none (s :: rest) = DeserializeKeys T s none rest := by
        simp only [DeserializeKeys, hsearch]
      have hs : hasKey T s := hasKey_of_isFirst T s q hq
      obtain ⟨T', hrun, he, hk, hroot, hP'⟩ :=
        ih T s hs hsd hsno hsegs' hnd' htargets' hleaves' hP
      have hsT : s ∈ T.keys := (mem_keys_iff_hasKey T s).2 hs
      refine ⟨T', hunf.trans hrun, ?_, ?_, hroot, hP'⟩
      · rw [newEdges_cons_old T.keys prev s rest hsT]
        exact he
      · rw [List.filter_cons, if_neg (by simpa using hsT)]
        exact hk

/-! ## `strtok` on a text made of tokens and delimiters -/

theorem takeWhile_no_delim (delims A R : List Char) (d : Char)
    (hA : ∀ c ∈ A, c ∉ delims) (hd : d ∈ delims) :
    (A ++ d :: R).takeWhile (fun c => !decide (c ∈ delims)) = A ∧
    (A ++ d :: R).dropWhile (fun c => !decide (c ∈ delims)) = d :: R := by
  constructor
  · rw [List.takeWhile_append_of_pos (fun a ha => by simp [hA a ha])]
    simp [List.takeWhile_cons, hd]
  · rw [List.dropWhile_append_of_pos (fun a ha => by simp [hA a ha])]
    simp [List.dropWhile_cons, hd]

theorem dropWhile_delim_of_token (delims A R : List Char) (hne : A ≠ [])
    (hA : ∀ c ∈ A, c ∉ delims) :
    (A ++ R).dropWhile (fun c => decide (c ∈ delims)) = A ++ R ∧
    (A ++ R).takeWhile (fun c => decide (c ∈ delims)) = [] := by
  cases A with
  | nil => exact absurd rfl hne
  | cons a A =>
    have ha : a ∉ delims := hA a (List.mem_cons_self _ _)
    simp [List.dropWhile_cons, List.takeWhile_cons, ha]

theorem strtok_of_token (delims A R : List Char) (d : Char) (hne : A ≠ [])
    (hA : ∀ c ∈ A, c ∉ delims) (hd : d ∈ delims) :
    strtok delims (A ++ d :: R) = some (A, R) := by
  unfold strtok
  rw [(dropWhile_delim_of_token delims A (d :: R) hne hA).1]
  cases hAR : A ++ d :: R with
  | nil => simp at hAR
  | cons c cs =>
    simp only
    rw [← hAR, (takeWhile_no_delim delims A R d hA hd).1,
      (takeWhile_no_delim delims A R d hA hd).2]
    rfl

theorem strtok_of_last (delims A : List Char) (hne : A ≠ []) (hA : ∀ c ∈ A, c ∉ delims) :
    strtok delims A = some (A, []) := by
  unfold strtok
  have h := (dropWhile_delim_of_token delims A [] hne hA).1
  rw [List.append_nil] at h
  rw [h]
  cases hAR : A with
  | nil => exact absurd hAR hne
  | cons c cs =>
    simp only
    rw [← hAR, List.takeWhile_eq_self_iff.2 (fun x hx => by simp [hA x hx]),
      List.dropWhile_eq_nil_iff.2 (fun x hx => by simp [hA x hx])]
    rfl

theorem strtok_skip (delims lead X : List Char) (hlead : ∀ c ∈ lead, c ∈ delims) :
    strtok delims (lead ++ X) = strtok delims X := by
  unfold strtok
  rw [List.dropWhile_append_of_pos (fun a ha => by simp [hlead a ha])]

theorem strtokCut_of_token (delims A R : List Char) (d : Char) (hne : A ≠ [])
    (hA : ∀ c ∈ A, c ∉ delims) (hd : d ∈ delims) :
    strtokCut delims (A ++ d :: R) = A := by
  unfold strtokCut
  rw [(dropWhile_delim_of_token delims A (d :: R) hne hA).1,
    (dropWhile_delim_of_token delims A (d :: R) hne hA).2,
    (takeWhile_no_delim delims A R d hA hd).1]
  rfl

theorem strtokCut_of_last (delims A : List Char) (hne : A ≠ []) (hA : ∀ c ∈ A, c ∉ delims) :
    strtokCut delims A = A := by
  unfold strtokCut
  have h := dropWhile_delim_of_token delims A [] hne hA
  rw [List.append_nil] at h
  rw [h.1, h.2, List.takeWhile_eq_self_iff.2 (fun x hx => by simp [hA x hx])]
  rfl

theorem strtokAll_eq_segments (delims : List Char) :
    ∀ (fuel : Nat) (s : List Char), s.length < fuel →
      strtokAll delims fuel s = segments delims s := by
  intro fuel
  induction fuel with
  | zero => intro s h; omega
  | succ fuel ih =>
    intro s h
    unfold strtokAll
    cases hs : strtok delims s with
    | none => rw [strtok_none _ _ hs]
    | some tr =>
      obtain ⟨token, rest⟩ := tr
      have hlen := strtok_length _ _ _ _ hs
      simp only
      rw [ih rest (by omega), strtok_some _ _ _ _ hs]

/-! ## The text of a key path -/

theorem dottedPath_cons (s s' : String) (rest : List String) :
    (dottedPath (s :: s' :: rest)).data = s.data ++ '.' :: (dottedPath (s' :: rest)).data := by
  simp [dottedPath, String.data_append]

theorem dottedPath_chars (delims : List Char) (hdot : '.' ∉ delims) :
    ∀ (segs : List String), (∀ s ∈ segs, ∀ c ∈ s.data, c ∉ delims) →
      ∀ c ∈ (dottedPath segs).data, c ∉ delims := by
  intro segs
  induction segs with
  | nil => intro _ c hc; simp [dottedPath] at hc
  | cons s rest ih =>
    intro h c hc
    cases rest with
    | nil => exact h s (List.mem_cons_self _ _) c hc
    | cons s' rest =>
      rw [dottedPath_cons] at hc
      rcases List.mem_append.1 hc with h1 | h1
      · exact h s (List.mem_cons_self _ _) c h1
      · rcases List.mem_cons.1 h1 with h2 | h2
        · rw [h2]
          exact hdot
        · exact ih (fun x hx => h x (List.mem_cons_of_mem _ hx)) c h2

theorem dottedPath_ne_nil (segs : List String) (hne : segs ≠ [])
    (h : ∀ s ∈ segs, s.data ≠ []) : (dottedPath segs).data ≠ [] := by
  cases segs with
  | nil => exact absurd rfl hne
  | cons s rest =>
    cases rest with
    | nil => exact h s (List.mem_cons_self _ _)
    | cons s' rest =>
      rw [dottedPath_cons]
      intro hc
      exact h s (List.mem_cons_self _ _) (List.append_eq_nil.1 hc).1

/-- The tokens of a key path are its segments. -/
theorem segments_dottedPath :
    ∀ (segs : List String), (∀ s ∈ segs, s.data ≠ [] ∧ '.' ∉ s.data) →
      segments ['.'] (dottedPath segs).data = segs.map String.data := by
  intro segs
  induction segs with
  | nil => intro _; rfl
  | cons s rest ih =>
    intro h
    obtain ⟨hne, hdot⟩ := h s (List.mem_cons_self _ _)
    have hA : ∀ c ∈ s.data, c ∉ ['.'] := by
      intro c hc hmem
      simp only [List.mem_singleton] at hmem
      rw [hmem] at hc
      exact hdot hc
    cases rest with
    | nil =>
      show segments ['.'] s.data = [s.data]
      rw [strtok_some ['.'] _ _ _ (strtok_of_last ['.'] s.data hne hA)]
      rfl
    | cons s' rest =>
      rw [dottedPath_cons,
        strtok_some ['.'] _ _ _ (strtok_of_token ['.'] s.data _ '.' hne hA (by simp)),
        ih (fun x hx => h x (List.mem_cons_of_mem _ hx))]
      rfl

/-! ## Decimal numbers -/

theorem toNat_data (s : String) (v : Nat) (h : s.toNat? = some v) :
    s.data ≠ [] ∧ (∀ c ∈ s.data, c.isDigit = true) ∧
    v = s.data.foldl (fun n c => n * 10 + (c.toNat - '0'.toNat)) 0 := by
  unfold String.toNat? at h
  split at h
  · rename_i hnat
    simp only [String.isNat, Bool.and_eq_true, Bool.not_eq_true', String.all_eq,
      List.all_eq_true] at hnat
    simp only [Option.some.injEq, String.foldl_eq] at h
    refine ⟨?_, hnat.2, h.symm⟩
    intro hd
    have hs : s = "" := by
      cases s
      simp_all
    have := (String.isEmpty_iff s).2 hs
    rw [hnat.1] at this
    cases this
  · cases h

theorem toNat_of_data (s : String) (h1 : s.data ≠ []) (h2 : ∀ c ∈ s.data, c.isDigit = true) :
    s.toNat? = some (s.data.foldl (fun n c => n * 10 + (c.toNat - '0'.toNat)) 0) := by
  unfold String.toNat?
  have : s.isNat = true := by
    simp only [String.isNat, Bool.and_eq_true, Bool.not_eq_true', String.all_eq,
      List.all_eq_true]
    refine ⟨?_, h2⟩
    cases hs : s.isEmpty with
    | false => rfl
    | true =>
      exfalso
      apply h1
      have := (String.isEmpty_iff s).1 hs
      rw [this]
  rw [if_pos this, String.foldl_eq]

theorem isDigit_not_special (c : Char) (h : c.isDigit = true) :
    isspace c = false ∧ c ≠ '-' ∧ c ≠ '+' ∧ c ∉ ['\t', ' ', '='] ∧ c ∉ ['"'] := by
  refine ⟨?_, ?_, ?_, ?_, ?_⟩
  · cases hs : isspace c with
    | false => rfl
    | true =>
      simp only [isspace, decide_eq_true_eq, List.mem_cons, List.mem_singleton,
        List.not_mem_nil, or_false] at hs
      rcases hs with rfl | rfl | rfl | rfl | rfl | rfl <;> exact absurd h (by decide)
  · rintro rfl
    exact absurd h (by decide)
  · rintro rfl
    exact absurd h (by decide)
  · intro hs
    simp only [List.mem_cons, List.mem_singleton, List.not_mem_nil, or_false] at hs
    rcases hs with rfl | rfl | rfl <;> exact absurd h (by decide)
  · intro hs
    simp only [List.mem_singleton] at hs
    subst hs
    exact absurd h (by decide)

/-- `strtoul` on a decimal number: its value, or `ULONG_MAX` when it does not fit. -/
theorem strtoul_digits (s : String) (v : Nat) (h : s.toNat? = some v) :
    strtoul s.data = if 2 ^ 64 ≤ v then 2 ^ 64 - 1 else v := by
  obtain ⟨hne, hdig, hv⟩ := toNat_data s v h
  cases hd : s.data with
  | nil => exact absurd hd hne
  | cons c cs =>
    rw [hd] at hdig hv
    have hc := isDigit_not_special c (hdig c (List.mem_cons_self _ _))
    have h1 : (c :: cs).dropWhile isspace = c :: cs := by
      simp [List.dropWhile_cons, hc.1]
    have h2 : ¬ (some c = some '-' ∨ some c = some '+') := by
      rintro (h | h)
      · exact hc.2.1 (Option.some.inj h)
      · exact hc.2.2.1 (Option.some.inj h)
    have h3 : ¬ some c = some '-' := fun h => hc.2.1 (Option.some.inj h)
    have h4 : (c :: cs).takeWhile Char.isDigit = c :: cs :=
      List.takeWhile_eq_self_iff.2 hdig
    simp only [strtoul, h1, List.head?_cons, if_neg h2, if_neg h3, h4, ← hv]

/-! ## Writing the value of a line -/

theorem GetString_SetString (t : NODE) (k s : String) (h : (SetString t k s).1 = OK) :
    GetString (SetString t k s).2 k = some s := by
  rcases SetString_cases t k s with he | ⟨target, n, hfound, hn, hleaf, he⟩
  · rw [he] at h
    exact absurd h.symm OK_ne_ERROR
  · rw [he]
    have hs := Search_targetNode_modifyAt t k SEARCHRESULT.calloc target
      (fun n => NODE.mk n.key ⟨n.value.integer, some s⟩ n.children) (fun _ => rfl) hfound
    have hleaf' : (NODE.mk n.key ⟨n.value.integer, some s⟩ n.children).numChildren = 0 := hleaf
    simp only [GetString, hs, nodeAt_modifyAt_self _ target t n hn, NodeType_leaf _ hleaf']
    rfl

theorem GetInt_SetInt (t : NODE) (k : String) (v : Nat) (h : (SetInt t k v).1 = OK) :
    GetInt (SetInt t k v).2 k = v := by
  rcases SetInt_cases t k v with he | ⟨target, n, hfound, hn, hleaf, hstr, he⟩
  · rw [he] at h
    exact absurd h.symm OK_ne_ERROR
  · rw [he]
    have hs := Search_targetNode_modifyAt t k SEARCHRESULT.calloc target
      (fun n => NODE.mk n.key ⟨v, n.value.string⟩ n.children) (fun _ => rfl) hfound
    have hleaf' : (NODE.mk n.key ⟨v, none⟩ n.children).numChildren = 0 := hleaf
    have hty : NodeType (some (NODE.mk n.key ⟨v, none⟩ n.children)) =
        nodeType.integerNode := by
      rw [NodeType_leaf _ hleaf']
      rfl
    simp only [GetInt, hs, nodeAt_modifyAt_self _ target t n hn, hstr]
    rw [if_pos hty]
    rfl

theorem SetString_edges (t : NODE) (k s : String) :
    (SetString t k s).2.edges.Perm t.edges ∧ (SetString t k s).2.key = t.key := by
  rcases SetString_cases t k s with he | ⟨target, n, _, hn, _, he⟩
  · rw [he]
    exact ⟨List.Perm.refl _, rfl⟩
  · rw [he]
    exact ⟨edges_modifyAt [] (fun n => NODE.mk n.key ⟨n.value.integer, some s⟩ n.children)
        (fun _ => rfl) target t n hn (by rw [edges_payload_write]; exact List.Perm.refl _),
      modifyAt_key (fun n => NODE.mk n.key ⟨n.value.integer, some s⟩ n.children)
        (fun _ => rfl) t target⟩

theorem SetInt_edges (t : NODE) (k : String) (v : Nat) :
    (SetInt t k v).2.edges.Perm t.edges ∧ (SetInt t k v).2.key = t.key := by
  rcases SetInt_cases t k v with he | ⟨target, n, _, hn, _, _, he⟩
  · rw [he]
    exact ⟨List.Perm.refl _, rfl⟩
  · rw [he]
    exact ⟨edges_modifyAt [] (fun n => NODE.mk n.key ⟨v, n.value.string⟩ n.children)
        (fun _ => rfl) target t n hn (by rw [edges_payload_write]; exact List.Perm.refl _),
      modifyAt_key (fun n => NODE.mk n.key ⟨v, n.value.string⟩ n.children)
        (fun _ => rfl) t target⟩

theorem SetString_ok_of_leafWith (t : NODE) (sn text : String) (hsd : '.' ∉ sn.data)
    (hhas : hasKey t sn)
    (hP : AllNodes (leafWith sn (fun d => d.string ≠ none ∨ d.integer = 0)) t) :
    (SetString t sn text).1 = OK := by
  obtain ⟨_, target, _, _, htarget, _⟩ := exists_isFirst t sn hhas
  have hfound := Search_targetNode_of_isFirst t sn SEARCHRESULT.calloc target hsd htarget
  obtain ⟨n, hn, hnk⟩ := Option.map_eq_some'.1 htarget.1
  obtain ⟨hleaf, hcond⟩ := hP target n hn hnk
  have hty := NodeType_leaf n hleaf
  have hnp : NodeType (some n) ≠ nodeType.parentNode := by
    rw [hty]
    split <;> decide
  have hc : NodeType (some n) = nodeType.stringNode ∨ n.value.integer = 0 := by
    rcases hcond with hs | h0
    · left
      rw [hty]
      cases hstr : n.value.string with
      | none => exact absurd hstr hs
      | some _ => rfl
    · exact Or.inr h0
  simp only [SetString, hfound, hn, Option.map_some', Option.some.injEq]
  rw [if_pos hnp, if_pos hc]

theorem SetInt_ok_of_leafWith (t : NODE) (sn : String) (v : Nat) (hsd : '.' ∉ sn.data)
    (hhas : hasKey t sn) (hP : AllNodes (leafWith sn (fun d => d.string = none)) t) :
    (SetInt t sn v).1 = OK := by
  obtain ⟨_, target, _, _, htarget, _⟩ := exists_isFirst t sn hhas
  have hfound := Search_targetNode_of_isFirst t sn SEARCHRESULT.calloc target hsd htarget
  obtain ⟨n, hn, hnk⟩ := Option.map_eq_some'.1 htarget.1
  obtain ⟨hleaf, hcond⟩ := hP target n hn hnk
  have hty : NodeType (some n) = nodeType.integerNode := by
    rw [NodeType_leaf n hleaf, hcond]
    rfl
  simp only [SetInt, hfound, hn]
  rw [if_pos (by rw [hty]; decide), if_pos hty]

/-! ## Reading one line -/

theorem String_mk_data (s : String) : String.mk s.data = s := by
  cases s
  rfl

/-- How the line `path = "text"` is taken apart. -/
theorem parse_quoted (segs : List String) (text : String) (hne : segs ≠ [])
    (hsegs : ∀ s ∈ segs, s.data ≠ [] ∧ ∀ c ∈ s.data, c ∉ ['.', '\t', ' ', '=', '"'])
    (htext : text.data ≠ []) (hquote : '"' ∉ text.data) :
    strtokSecond ['"'] (dottedPath segs ++ " = \"" ++ text ++ "\"").data = some text.data ∧
    strtok ['\t', ' ', '=']
        (strtokCut ['"'] (dottedPath segs ++ " = \"" ++ text ++ "\"").data) =
      some ((dottedPath segs).data, ['=', ' ']) := by
  have hK1 : ∀ c ∈ (dottedPath segs).data, c ∉ ['"'] :=
    dottedPath_chars ['"'] (by decide) segs
      (fun s hs c hc hm => (hsegs s hs).2 c hc (by
        simp only [List.mem_singleton] at hm
        simp [hm]))
  have hK2 : ∀ c ∈ (dottedPath segs).data, c ∉ ['\t', ' ', '='] :=
    dottedPath_chars ['\t', ' ', '='] (by decide) segs
      (fun s hs c hc hm => (hsegs s hs).2 c hc (by
        simp only [List.mem_cons, List.mem_singleton, List.not_mem_nil, or_false] at hm
        rcases hm with h | h | h <;> simp [h]))
  have hKne := dottedPath_ne_nil segs hne (fun s hs => (hsegs s hs).1)
  have hline : (dottedPath segs ++ " = \"" ++ text ++ "\"").data =
      ((dottedPath segs).data ++ [' ', '=', ' ']) ++ '"' :: (text.data ++ '"' :: []) := by
    simp [String.data_append]
  have hA : ∀ c ∈ (dottedPath segs).data ++ [' ', '=', ' '], c ∉ ['"'] := by
    intro c hc
    rcases List.mem_append.1 hc with h | h
    · exact hK1 c h
    · simp only [List.mem_cons, List.mem_singleton, List.not_mem_nil, or_false] at h
      rcases h with rfl | rfl | rfl <;> decide
  have hAne : (dottedPath segs).data ++ [' ', '=', ' '] ≠ [] := by simp
  have htq : ∀ c ∈ text.data, c ∉ ['"'] := by
    intro c hc hm
    simp only [List.mem_singleton] at hm
    rw [hm] at hc
    exact hquote hc
  constructor
  · unfold strtokSecond
    rw [hline, strtok_of_token ['"'] _ _ '"' hAne hA (by simp)]
    simp only
    rw [strtok_of_token ['"'] text.data [] '"' htext htq (by simp)]
    rfl
  · rw [hline, strtokCut_of_token ['"'] _ _ '"' hAne hA (by simp)]
    exact strtok_of_token ['\t', ' ', '='] _ ['=', ' '] ' ' hKne hK2 (by simp)

/-- How the line `path = digits` is taken apart. -/
theorem parse_unquoted (segs : List String) (digits : String) (hne : segs ≠ [])
    (hsegs : ∀ s ∈ segs, s.data ≠ [] ∧ ∀ c ∈ s.data, c ∉ ['.', '\t', ' ', '=', '"'])
    (hdne : digits.data ≠ []) (hdig : ∀ c ∈ digits.data, c.isDigit = true) :
    strtokSecond ['"'] (dottedPath segs ++ " = " ++ digits).data = none ∧
    strtokSecond ['\t', ' ', '=']
        (strtokCut ['"'] (dottedPath segs ++ " = " ++ digits).data) = some digits.data ∧
    strtok ['\t', ' ', '='] (strtokCut ['\t', ' ', '=']
        (strtokCut ['"'] (dottedPath segs ++ " = " ++ digits).data)) =
      some ((dottedPath segs).data, []) := by
  have hK1 : ∀ c ∈ (dottedPath segs).data, c ∉ ['"'] :=
    dottedPath_chars ['"'] (by decide) segs
      (fun s hs c hc hm => (hsegs s hs).2 c hc (by
        simp only [List.mem_singleton] at hm
        simp [hm]))
  have hK2 : ∀ c ∈ (dottedPath segs).data, c ∉ ['\t', ' ', '='] :=
    dottedPath_chars ['\t', ' ', '='] (by decide) segs
      (fun s hs c hc hm => (hsegs s hs).2 c hc (by
        simp only [List.mem_cons, List.mem_singleton, List.not_mem_nil, or_false] at hm
        rcases hm with h | h | h <;> simp [h]))
  have hKne := dottedPath_ne_nil segs hne (fun s hs => (hsegs s hs).1)
  have hline : (dottedPath segs ++ " = " ++ digits).data =
      (dottedPath segs).data ++ ' ' :: (['=', ' '] ++ digits.data) := by
    simp [String.data_append]
  have hall : ∀ c ∈ (dottedPath segs).data ++ ' ' :: (['=', ' '] ++ digits.data),
      c ∉ ['"'] := by
    intro c hc
    rcases List.mem_append.1 hc with h | h
    · exact hK1 c h
    · rcases List.mem_cons.1 h with rfl | h
      · decide
      · rcases List.mem_append.1 h with h | h
        · simp only [List.mem_cons, List.mem_singleton, List.not_mem_nil, or_false] at h
          rcases h with rfl | rfl <;> decide
        · exact (isDigit_not_special c (hdig c h)).2.2.2.2
  have hallne : (dottedPath segs).data ++ ' ' :: (['=', ' '] ++ digits.data) ≠ [] := by simp
  have hD : ∀ c ∈ digits.data, c ∉ ['\t', ' ', '='] :=
    fun c hc => (isDigit_not_special c (hdig c hc)).2.2.2.1
  have hcut : strtokCut ['"'] (dottedPath segs ++ " = " ++ digits).data =
      (dottedPath segs).data ++ ' ' :: (['=', ' '] ++ digits.data) := by
    rw [hline]
    exact strtokCut_of_last ['"'] _ hallne hall
  refine ⟨?_, ?_, ?_⟩
  · unfold strtokSecond
    rw [hline, strtok_of_last ['"'] _ hallne hall]
    rfl
  · rw [hcut]
    unfold strtokSecond
    rw [strtok_of_token ['\t', ' ', '='] _ _ ' ' hKne hK2 (by simp)]
    simp only
    rw [strtok_skip ['\t', ' ', '='] ['=', ' '] digits.data (by simp),
      strtok_of_last ['\t', ' ', '='] digits.data hdne hD]
    rfl
  · rw [hcut, strtokCut_of_token ['\t', ' ', '='] _ _ ' ' hKne hK2 (by simp)]
    exact strtok_of_last ['\t', ' ', '='] _ hKne hK2

theorem tokens_dottedPath (segs : List String)
    (hsegs : ∀ s ∈ segs, s.data ≠ [] ∧ ∀ c ∈ s.data, c ∉ ['.', '\t', ' ', '=', '"']) :
    (strtokAll ['.'] ((dottedPath segs).data.length + 1) (dottedPath segs).data).map
      String.mk = segs := by
  rw [strtokAll_eq_segments ['.'] _ _ (Nat.lt_succ_self _),
    segments_dottedPath segs (fun s hs => ⟨(hsegs s hs).1,
      fun hc => (hsegs s hs).2 '.' hc (by simp)⟩), List.map_map]
  conv => rhs; rw [← List.map_id segs]
  apply List.map_congr_left
  intro s _
  exact String_mk_data s

/-- What `DeserializeLine` does with a line `path = "text"`, in terms of the loop
over the segments of the path. -/
theorem DeserializeLine_quoted (s : Deserializer) (segs : List String) (text : String)
    (hne : segs ≠ [])
    (hsegs : ∀ s ∈ segs, s.data ≠ [] ∧ ∀ c ∈ s.data, c ∉ ['.', '\t', ' ', '=', '"'])
    (htext : text.data ≠ []) (hquote : '"' ∉ text.data) (T : NODE) (k : String)
    (hkeys : DeserializeKeys s.root s.root.key s.path segs = (T, k, none)) :
    DeserializeLine s (dottedPath segs ++ " = \"" ++ text ++ "\"") =
      ⟨(SetString T k text).2, s.integer, none, s.iRc⟩ := by
  obtain ⟨h1, h2⟩ := parse_quoted segs text hne hsegs htext hquote
  simp only [DeserializeLine, h1, h2, tokens_dottedPath segs hsegs, hkeys, String_mk_data]

/-- What `DeserializeLine` does with a line `path = digits`. -/
theorem DeserializeLine_unquoted (s : Deserializer) (segs : List String) (digits : String)
    (v : Nat) (hne : segs ≠ [])
    (hsegs : ∀ s ∈ segs, s.data ≠ [] ∧ ∀ c ∈ s.data, c ∉ ['.', '\t', ' ', '=', '"'])
    (hv : digits.toNat? = some v) (hfit : v < 2 ^ 64) (T : NODE) (k : String)
    (hkeys : DeserializeKeys s.root s.root.key s.path segs = (T, k, none)) :
    DeserializeLine s (dottedPath segs ++ " = " ++ digits) =
      ⟨(SetInt T k v).2, v, none, s.iRc⟩ := by
  obtain ⟨hdne, hdig, _⟩ := toNat_data digits v hv
  obtain ⟨h1, h2, h3⟩ := parse_unquoted segs digits hne hsegs hdne hdig
  have h4 : strtoul digits.data = v := by
    rw [strtoul_digits digits v hv, if_neg (by omega)]
  simp only [DeserializeLine, h1, h2, h3, h4, tokens_dottedPath segs hsegs, hkeys]

/-! ## Claims about reading a line of the text file -/

/-- C27 as stated fails when the last segment is in the tree with a payload of
another kind, when the text between the quotes is empty, and when the number does
not fit an `unsigned long`. After `a = 5` the line `a = "x"` leaves `a` an integer
node (`SetString` returns `ERROR`); after `a.b = 1` the line `a = 2` leaves the
parent `a` without value; the line `a = ""` has no second token between quotes and
is read as a line without value; the number 2 ^ 64 is read as 2 ^ 64 - 1. -/
theorem deserialize_value_not_set :
    GetString (DeserializeTextFile InitTree ["a = 5", "a = \"x\""]).2 "a" = none ∧
    GetInt (DeserializeTextFile InitTree ["a = 5", "a = \"x\""]).2 "a" = 5 ∧
    GetInt (DeserializeTextFile InitTree ["a.b = 1", "a = 2"]).2 "a" = 0 ∧
    DeserializeTextFile InitTree ["a = \"\""] =
      (ERROR, .mk "root" ⟨0, none⟩ [.mk "a" ⟨0, none⟩ []]) ∧
    GetString (DeserializeTextFile InitTree ["a = \"\""]).2 "a" = none ∧
    GetInt (DeserializeTextFile InitTree ["a = 18446744073709551616"]).2 "a" =
      18446744073709551615 := by
  decide

theorem hasKey_root (t : NODE) : hasKey t t.key :=
  ⟨[], t, by cases t; rfl, rfl⟩

theorem dropLast_ne_last (segs : List String) (sn : String) (hnd : segs.Nodup)
    (hlast : segs.getLast? = some sn) : ∀ s ∈ segs.dropLast, s ≠ sn := by
  obtain ⟨ys, rfl⟩ := List.getLast?_eq_some_iff.1 hlast
  rw [List.dropLast_concat]
  intro s hs he
  subst he
  exact (List.nodup_append.1 hnd).2.2 hs (List.mem_singleton_self _)

/-- The loop over the segments of a key path read into the tree `t`: what it adds. -/
theorem DeserializeKeys_line (t : NODE) (segs : List String) (sn : String)
    (hroot : '.' ∉ t.key.data) (hrootno : t.key ≠ "no")
    (hsegs : ∀ s ∈ segs, s.data ≠ [] ∧ ∀ c ∈ s.data, c ∉ ['.', '\t', ' ', '=', '"'])
    (hno : "no" ∉ segs) (hnd : segs.Nodup) (hlast : segs.getLast? = some sn) :
    ∃ T', DeserializeKeys t t.key none segs = (T', sn, none) ∧
      T'.edges.Perm (newEdges t.keys t.key segs ++ t.edges) ∧
      hasKey T' sn ∧ '.' ∉ sn.data ∧
      ∀ C : DATA → Prop, C ⟨0, none⟩ → sn ≠ t.key →
        AllNodes (leafWith sn C) t → AllNodes (leafWith sn C) T' := by
  have hsegs' : ∀ s ∈ segs, '.' ∉ s.data ∧ s ≠ "no" := by
    intro s hs
    refine ⟨fun hc => (hsegs s hs).2 '.' hc (by simp), ?_⟩
    rintro rfl
    exact hno hs
  have hmem : sn ∈ segs := List.mem_of_getLast?_eq_some hlast
  have hne : segs ≠ [] := List.ne_nil_of_mem hmem
  obtain ⟨T', hrun, he, hk, _, _⟩ :=
    DeserializeKeys_spec (fun _ => True) (fun _ _ _ _ _ _ => trivial) segs t t.key
      (hasKey_root t) hroot hrootno hsegs' hnd (fun _ _ _ => trivial) (fun _ _ => trivial)
      (fun _ _ _ => trivial)
  rw [hlast] at hrun
  refine ⟨T', hrun, he, ?_, (hsegs' sn hmem).1, ?_⟩
  · apply (mem_keys_iff_hasKey T' sn).1
    apply hk.symm.subset
    by_cases h : sn ∈ t.keys
    · exact List.mem_append_right _ h
    · exact List.mem_append_left _ (List.mem_filter.2 ⟨hmem, by simpa using h⟩)
  · intro C hC hsn hP
    obtain ⟨T'', hrun', _, _, _, hP'⟩ :=
      DeserializeKeys_spec (leafWith sn C) (leafWith_length sn C) segs t t.key
        (hasKey_root t) hroot hrootno hsegs' hnd
        (by
          intro k hk cs
          apply leafWith_other
          cases segs with
          | nil => exact absurd rfl hne
          | cons s rest =>
            rw [List.dropLast_cons₂] at hk
            rcases List.mem_cons.1 hk with h | h
            · rw [h]
              exact fun h' => hsn h'.symm
            · exact dropLast_ne_last (s :: rest) sn hnd hlast k h)
        (fun s _ _ => ⟨rfl, hC⟩) hP
    rw [hrun] at hrun'
    have : T' = T'' := congrArg Prod.fst hrun'
    rw [this]
    exact hP'

/-- C27, amended. Let the segments `segs` of a key path be distinct, non-empty,
without separator character, and none of them "no"; let the root have a key
without '.' other than "no", and let no earlier line have left a `path` behind.
Reading the line `path = "text"` with a non-empty `text`, and reading the line
`path = digits` for a decimal number below 2 ^ 64, adds each segment that is not
in the tree as a child of a node with the key of the segment before it (the key
of the root for the first one) and adds nothing else.  When moreover the last
segment `sn` is not the key of the root and every node with the key `sn` is a leaf
that holds a string or the integer 0 (for the text), or a leaf without string (for
the number), as is the case when `sn` is not in the tree, then the value is set:
`GetString(sn)` returns `text`, and `GetInt(sn)` the number.  Reading
`a.b.c = "hello"` and `a.b.d = 5` into the tree of `InitTree` leaves `b` a parent
with the two children `c` and `d`. -/
theorem deserialize_line (t : NODE) (segs : List String) (sn : String) (integer : Nat)
    (iRc : Int) (hroot : '.' ∉ t.key.data) (hrootno : t.key ≠ "no")
    (hsegs : ∀ s ∈ segs, s.data ≠ [] ∧ ∀ c ∈ s.data, c ∉ ['.', '\t', ' ', '=', '"'])
    (hno : "no" ∉ segs) (hnd : segs.Nodup) (hlast : segs.getLast? = some sn) :
    (∀ text : String, text.data ≠ [] → '"' ∉ text.data →
      (DeserializeLine ⟨t, integer, none, iRc⟩
          (dottedPath segs ++ " = \"" ++ text ++ "\"")).root.edges.Perm
        (newEdges t.keys t.key segs ++ t.edges) ∧
      (DeserializeLine ⟨t, integer, none, iRc⟩
          (dottedPath segs ++ " = \"" ++ text ++ "\"")).path = none ∧
      (DeserializeLine ⟨t, integer, none, iRc⟩
          (dottedPath segs ++ " = \"" ++ text ++ "\"")).iRc = iRc ∧
      (sn ≠ t.key →
        AllNodes (leafWith sn (fun d => d.string ≠ none ∨ d.integer = 0)) t →
        GetString (DeserializeLine ⟨t, integer, none, iRc⟩
          (dottedPath segs ++ " = \"" ++ text ++ "\"")).root sn = some text)) ∧
    (∀ (digits : String) (v : Nat), digits.toNat? = some v → v < 2 ^ 64 →
      (DeserializeLine ⟨t, integer, none, iRc⟩
          (dottedPath segs ++ " = " ++ digits)).root.edges.Perm
        (newEdges t.keys t.key segs ++ t.edges) ∧
      (DeserializeLine ⟨t, integer, none, iRc⟩
          (dottedPath segs ++ " = " ++ digits)).path = none ∧
      (DeserializeLine ⟨t, integer, none, iRc⟩
          (dottedPath segs ++ " = " ++ digits)).iRc = iRc ∧
      (sn ≠ t.key → AllNodes (leafWith sn (fun d => d.string = none)) t →
        GetInt (DeserializeLine ⟨t, integer, none, iRc⟩
          (dottedPath segs ++ " = " ++ digits)).root sn = v)) ∧
    DeserializeTextFile InitTree ["a.b.c = \"hello\"", "a.b.d = 5"] =
      (OK, .mk "root" ⟨0, none⟩ [.mk "a" ⟨0, none⟩ [.mk "b" ⟨0, none⟩
        [.mk "c" ⟨0, some "hello"⟩ [], .mk "d" ⟨5, none⟩ []]]]) := by
  have hne : segs ≠ [] := by
    rintro rfl
    cases hlast
  obtain ⟨T', hrun, he, hhas, hsd, hP'⟩ :=
    DeserializeKeys_line t segs sn hroot hrootno hsegs hno hnd hlast
  refine ⟨?_, ?_, by decide⟩
  · intro text htext hquote
    rw [DeserializeLine_quoted ⟨t, integer, none, iRc⟩ segs text hne hsegs htext hquote
      T' sn hrun]
    refine ⟨(SetString_edges T' sn text).1.trans he, rfl, rfl, ?_⟩
    intro hsn hP
    exact GetString_SetString T' sn text
      (SetString_ok_of_leafWith T' sn text hsd hhas
        (hP' (fun d => d.string ≠ none ∨ d.integer = 0) (Or.inr rfl) hsn hP))
  · intro digits v hv hfit
    rw [DeserializeLine_unquoted ⟨t, integer, none, iRc⟩ segs digits v hne hsegs hv hfit
      T' sn hrun]
    refine ⟨(SetInt_edges T' sn v).1.trans he, rfl, rfl, ?_⟩
    intro hsn hP
    exact GetInt_SetInt T' sn v
      (SetInt_ok_of_leafWith T' sn v hsd hhas
        (hP' (fun d => d.string = none) rfl hsn hP))

/-- C27, amended, for the line `a.b.c = "hello"` read into the tree of `InitTree`
and the line `a.b.d = 5` read into the tree that the first line leaves: the first
adds `a` below the root, `b` below `a` and `c` below `b`, the second only `d`
below `b`. -/
theorem deserialize_line_witness :
    dottedPath ["a", "b", "c"] ++ " = \"" ++ "hello" ++ "\"" = "a.b.c = \"hello\"" ∧
    newEdges InitTree.keys InitTree.key ["a", "b", "c"] =
      [("root", "a"), ("a", "b"), ("b", "c")] ∧
    newEdges (DeserializeLine ⟨InitTree, 0, none, OK⟩ "a.b.c = \"hello\"").root.keys "root"
      ["a", "b", "d"] = [("b", "d")] ∧
    "5".toNat? = some 5 ∧
    ((DeserializeLine ⟨InitTree, 0, none, OK⟩
          (dottedPath ["a", "b", "c"] ++ " = \"" ++ "hello" ++ "\"")).root.edges.Perm
        (newEdges InitTree.keys InitTree.key ["a", "b", "c"] ++ InitTree.edges)) ∧
    GetString (DeserializeLine ⟨InitTree, 0, none, OK⟩
          (dottedPath ["a", "b", "c"] ++ " = \"" ++ "hello" ++ "\"")).root "c" =
        some "hello" ∧
    GetInt (DeserializeLine
        ⟨(DeserializeLine ⟨InitTree, 0, none, OK⟩ "a.b.c = \"hello\"").root, 0, none, OK⟩
        (dottedPath ["a", "b", "d"] ++ " = " ++ "5")).root "d" = 5 :=
  ⟨by decide, by decide, by decide,
   by rw [toNat_of_data "5" (by decide) (by decide)]; decide,
   ((deserialize_line InitTree ["a", "b", "c"] "c" 0 OK (by decide) (by decide) (by decide)
     (by decide) (by decide) (by decide)).1 "hello" (by decide) (by decide)).1,
   ((deserialize_line InitTree ["a", "b", "c"] "c" 0 OK (by decide) (by decide) (by decide)
     (by decide) (by decide) (by decide)).1 "hello" (by decide) (by decide)).2.2.2
     (by decide) (allNodes_leaf _ _ _ (fun h => absurd h (by decide))),
   ((deserialize_line (DeserializeLine ⟨InitTree, 0, none, OK⟩ "a.b.c = \"hello\"").root
     ["a", "b", "d"] "d" 0 OK (by decide) (by decide) (by decide)
     (by decide) (by decide) (by decide)).2.1 "5" 5
     (by rw [toNat_of_data "5" (by decide) (by decide)]; decide) (by decide)).2.2.2
     (by decide)
     (fun p n hn hk => absurd
       ((mem_keys_iff_hasKey _ "d").2 ⟨p, n, hn, hk⟩) (by decide))⟩

/-! ## The copy that `SplitEndKey` cuts has no terminator -/

theorem SplitEndKeyBeyond_nil (fullKey : String) :
    SplitEndKeyBeyond [] fullKey = SplitEndKey fullKey := by
  simp [SplitEndKeyBeyond, SplitEndKey]

/-- C24 fails on the code. `Search` copies the target into a buffer of
`strlen (targetKey)` bytes, without terminator, and `SplitEndKey` cuts it with
`strtok`, which reads on until it meets a zero byte.  For the target
"aaaaaaaaaaaaaaaaaaaaaa.b", whose last segment is "b", the key looked up is "b"
when a zero byte follows the buffer, and "b!" when the byte '!' and then a zero
byte follow it. -/
theorem splitEndKey_reads_past_copy :
    lastSegment "aaaaaaaaaaaaaaaaaaaaaa.b" = some "b" ∧
    "aaaaaaaaaaaaaaaaaaaaaa.b".length = 24 ∧
    SplitEndKeyBeyond [] "aaaaaaaaaaaaaaaaaaaaaa.b" = "b" ∧
    SplitEndKeyBeyond ['!'] "aaaaaaaaaaaaaaaaaaaaaa.b" = "b!" ∧
    (∀ fullKey, SplitEndKeyBeyond [] fullKey = SplitEndKey fullKey) :=
  ⟨by decide, by decide, by decide, by decide, SplitEndKeyBeyond_nil⟩

/-! ## `SetValue` drops the return codes of `SetInt` and `SetString` -/

theorem setCall_error (t : NODE) (k : String) (a : VaArg)
    (h : (setCall t k a).1 = ERROR) : (setCall t k a).2 = t := by
  cases a with
  | integer v =>
    rcases SetInt_cases t k v with h1 | ⟨_, _, _, _, _, _, h1⟩
    · simp only [setCall, h1]
    · simp only [setCall, h1] at h
      exact absurd h OK_ne_ERROR
  | string s =>
    rcases SetString_cases t k s with h1 | ⟨_, _, _, _, _, h1⟩
    · simp only [setCall, h1]
    · simp only [setCall, h1] at h
      exact absurd h OK_ne_ERROR

/-- On a format made of the directives of its arguments, `SetValue` makes the
calls one after the other and returns `OK`, whatever the calls return. -/
theorem SetValue_directives (k : String) :
    ∀ (ap : List VaArg) (t : NODE),
      SetValue t k (directives ap) ap =
        some (OK, ap.foldl (fun r a => (setCall r k a).2) t) := by
  intro ap
  induction ap with
  | nil => intro t; rfl
  | cons a ap ih =>
    intro t
    have ih2 := ih (setCall t k a).2
    simp only [SetValue] at ih2 ⊢
    cases a with
    | integer v =>
      simp only [directives, directive, String.data_append, List.foldl_cons]
      exact ih2
    | string s =>
      simp only [directives, directive, String.data_append, List.foldl_cons]
      exact ih2

/-- C31: when `SetValue` is called with a format made only of "%d" and "%s"
directives, one for each unnamed argument, and every `SetInt` or `SetString`
call it makes returns `ERROR`, then `SetValue` returns `OK` all the same and the
tree is unchanged. -/
theorem setValue_ok_on_error (t : NODE) (k : String) (ap : List VaArg)
    (h : ∀ a ∈ ap, (setCall t k a).1 = ERROR) :
    SetValue t k (directives ap) ap = some (OK, t) := by
  rw [SetValue_directives]
  congr 2
  induction ap with
  | nil => rfl
  | cons a ap ih =>
    rw [List.foldl_cons, setCall_error t k a (h a (List.mem_cons_self _ _))]
    exact ih (fun b hb => h b (List.mem_cons_of_mem _ hb))

theorem setValue_ok_on_error_witness :
    directives [VaArg.integer 73, VaArg.string "text"] = "%d%s" ∧
    (∀ a ∈ [VaArg.integer 73, VaArg.string "text"],
      (setCall textTree "absent" a).1 = ERROR) ∧
    SetValue textTree "absent" "%d%s" [VaArg.integer 73, VaArg.string "text"] =
      some (OK, textTree) :=
  ⟨by decide, by decide,
   setValue_ok_on_error textTree "absent" [VaArg.integer 73, VaArg.string "text"]
     (by decide)⟩

/-! ## `BubbleSort` terminates -/

theorem BubbleSortLoop_mono :
    ∀ (fuel i : Nat) (cs out : List NODE),
      BubbleSortLoop fuel i cs = some out → BubbleSortLoop (fuel + 1) i cs = some out := by
  intro fuel
  induction fuel with
  | zero => intro i cs out h; simp [BubbleSortLoop] at h
  | succ fuel ih =>
    intro i cs out h
    rw [BubbleSortLoop] at h ⊢
    by_cases hlt : i < cs.length
    · rw [if_pos hlt] at h ⊢
      cases hx : cs[i - 1]? with
      | none => simp [hx] at h
      | some x =>
        cases hy : cs[i]? with
        | none => simp [hx, hy] at h
        | some y =>
          simp only [hx, hy] at h ⊢
          by_cases hgt : strcmp x.key y.key > 0
          · rw [if_pos hgt] at h ⊢
            exact ih _ _ _ h
          · rw [if_neg hgt] at h ⊢
            exact ih _ _ _ h
    · rw [if_neg hlt] at h ⊢
      exact h

theorem BubbleSortLoop_add (fuel i : Nat) (cs out : List NODE)
    (h : BubbleSortLoop fuel i cs = some out) :
    ∀ extra, BubbleSortLoop (fuel + extra) i cs = some out := by
  intro extra
  induction extra with
  | zero => exact h
  | succ e ih => exact BubbleSortLoop_mono _ _ _ _ ih

/-- C32: for every child array `cs`, whatever its length and order and whether
or not keys repeat, the loop of `BubbleSort`, which goes back to the start of
the array after each swap, ends: with the fuel `BubbleSortFuel cs.length`, and
with any larger fuel, it returns an array, the result of `BubbleSort`, and that
array is a permutation of `cs`. -/
theorem bubbleSort_terminates_perm (cs : List NODE) :
    (∀ extra, BubbleSortLoop (BubbleSortFuel cs.length + extra) 1 cs =
      some (BubbleSort cs)) ∧
    (BubbleSort cs).Perm cs :=
  ⟨BubbleSortLoop_add _ _ _ _ (BubbleSort_spec cs).1, (BubbleSort_spec cs).2.1⟩

/-! ## `SplitEndKey` on the buffer -/

theorem SplitEndKeyMemLoop_exact :
    ∀ (fuel pos : Nat) (key rest : List Char),
      SplitEndKeyMemLoop (fun _ token => token) fuel pos key rest =
        SplitEndKeyLoop fuel key rest := by
  intro fuel
  induction fuel with
  | zero => intro pos key rest; rfl
  | succ fuel ih =>
    intro pos key rest
    unfold SplitEndKeyMemLoop SplitEndKeyLoop
    cases strtok ['.', '*'] rest with
    | none => rfl
    | some tr =>
      obtain ⟨token, rest'⟩ := tr
      simp only [strcpyInBuffer, ite_self]
      exact ih _ _ _

/-- With an exact copy in every `strcpy`, `SplitEndKeyMem` is `SplitEndKeyBeyond`. -/
theorem SplitEndKeyMem_exact (beyond : List Char) (fullKey : String) :
    SplitEndKeyMem (fun _ token => token) beyond fullKey = SplitEndKeyBeyond beyond fullKey := by
  unfold SplitEndKeyMem SplitEndKeyBeyond
  rw [SplitEndKeyMemLoop_exact]

/-- With an exact copy in every `strcpy` and a zero byte behind the buffer,
`SplitEndKeyMem` is `SplitEndKey`. -/
theorem SplitEndKeyMem_exact_nil (fullKey : String) :
    SplitEndKeyMem (fun _ token => token) [] fullKey = SplitEndKey fullKey := by
  rw [SplitEndKeyMem_exact, SplitEndKeyBeyond_nil]

theorem SearchVia_SplitEndKey (tree : NODE) (root : Ptr) (result : SEARCHRESULT)
    (targetKey : String) (search : searchMode) :
    SearchVia SplitEndKey tree root result targetKey search =
      Search tree root result targetKey search := rfl

theorem AddNodeVia_SplitEndKey (root : NODE) (targetKey key : String) :
    AddNodeVia SplitEndKey root targetKey key = AddNode root targetKey key := rfl

/-- C30 fails on the code.  In the tree root → abcd the key "x.abcd" has the last
segment "abcd", the key of a node, so that the claim has `AddNode(root, "x.abcd")`
return `ERROR`.  `SplitEndKey` copies the token "abcd" with `strcpy` to the start
of the buffer that holds it two bytes further on: source and destination
overlap.  With an exact copy the key looked up is "abcd" and `AddNode` returns
`ERROR`; with a copy that leaves "adcd" at the start of the buffer the key looked
up is "adcd", which no node has, and `AddNode` returns `OK` and adds a node
keyed "x.abcd".  For "x.y" source and destination do not overlap, and the key
looked up is "y" whatever an overlapping copy does. -/
theorem addNode_dotted_key_overlapping_copy :
    abcdTree = .mk "root" ⟨0, none⟩ [.mk "abcd" ⟨0, none⟩ []] ∧
    lastSegment "x.abcd" = some "abcd" ∧
    SplitEndKeyMem (fun _ token => token) [] "x.abcd" = "abcd" ∧
    AddNodeVia (SplitEndKeyMem (fun _ token => token) []) abcdTree "root" "x.abcd" =
      (ERROR, abcdTree) ∧
    SplitEndKeyMem (fun gap token => if gap = 2 then ['a', 'd', 'c', 'd'] else token) []
      "x.abcd" = "adcd" ∧
    AddNodeVia
      (SplitEndKeyMem (fun gap token => if gap = 2 then ['a', 'd', 'c', 'd'] else token) [])
      abcdTree "root" "x.abcd" =
      (OK, .mk "root" ⟨0, none⟩ [.mk "abcd" ⟨0, none⟩ [], .mk "x.abcd" ⟨0, none⟩ []]) ∧
    (∀ overlap, SplitEndKeyMem overlap [] "x.y" = "y") ∧
    (∀ t p k, AddNodeVia (SplitEndKeyMem (fun _ token => token) []) t p k = AddNode t p k) := by
  refine ⟨by decide, by decide, by decide, by decide, by decide, by decide, ?_, ?_⟩
  · intro overlap
    rfl
  · intro t p k
    have h : SplitEndKeyMem (fun _ token => token) [] = SplitEndKey :=
      funext SplitEndKeyMem_exact_nil
    rw [h]
    rfl

/-! ## Keys with '.' in `SetInt` and `GetInt` -/

/-- C20 as stated fails: in the tree root → b no node has the key "a.b",
and yet `SetInt("a.b", 5)` returns `OK` and sets the integer of `b`, the node
whose key is the last segment of "a.b". -/
theorem setInt_dotted_key_not_absent :
    oneLeaf = .mk "root" ⟨0, none⟩ [.mk "b" ⟨0, none⟩ []] ∧
    "a.b" ∉ oneLeaf.keys ∧
    SetInt oneLeaf "a.b" 5 = (OK, .mk "root" ⟨0, none⟩ [.mk "b" ⟨5, none⟩ []]) := by
  decide

/-- C22 as stated fails: in the tree root → b with the integer 7 in `b`, no
node has the key "a.b", and yet `GetInt("a.b")` returns 7, the integer of the
node whose key is the last segment of "a.b". -/
theorem getInt_dotted_key_not_absent :
    (SetInt oneLeaf "b" 7).2 = .mk "root" ⟨0, none⟩ [.mk "b" ⟨7, none⟩ []] ∧
    "a.b" ∉ (SetInt oneLeaf "b" 7).2.keys ∧
    GetInt (SetInt oneLeaf "b" 7).2 "a.b" = 7 := by
  decide

/-! ## Runs through a `Delete` that leaves no tree -/

/-- C10 as stated fails: the calls `AddNode(root, p)`, `AddNode(p, a)`,
`AddNode(a, s)`, `AddNode(a, t)` and `Delete(t)` all return `OK`, and `Delete`
frees the block of `p`, which is still child 0 of the root and still has its
child `a`.  What the root links to after this run is no tree of live nodes: no
payload of `p` is left to speak of, and the run has no tree.  The same holds
after `AddNode(root, a)` and `Delete(root)`, which frees the root together with
`a`. -/
theorem run_frees_linked_parent :
    (AddNode InitTree "root" "p").1 = OK ∧
    (AddNode (addNodes InitTree [("root", "p")]) "p" "a").1 = OK ∧
    (AddNode (addNodes InitTree [("root", "p"), ("p", "a")]) "a" "s").1 = OK ∧
    (AddNode (addNodes InitTree [("root", "p"), ("p", "a"), ("a", "s")]) "a" "t").1 = OK ∧
    runCalls InitTree
      [Call.addNode "root" "p", Call.addNode "p" "a", Call.addNode "a" "s",
       Call.addNode "a" "t"] = some chainTree ∧
    (Delete chainTree "t").rc = OK ∧
    [0] ∈ (Delete chainTree "t").freed ∧
    (nodeAt (Delete chainTree "t").tree [0]).map NODE.numChildren = some 1 ∧
    (Delete chainTree "t").intact = false ∧
    runCalls InitTree
      [Call.addNode "root" "p", Call.addNode "p" "a", Call.addNode "a" "s",
       Call.addNode "a" "t", Call.delete "t"] = none ∧
    (Delete (AddNode InitTree "root" "a").2 "root").rc = OK ∧
    (Delete (AddNode InitTree "root" "a").2 "root").freed = [[0], []] ∧
    runCalls InitTree [Call.addNode "root" "a", Call.delete "root"] = none := by
  decide

/-- C12 as stated fails: `SetString(root, "x")` on the tree of `InitTree`
and then `Delete(root)` both return `OK`, and `Delete` frees the root, its string
with it, while the root pointer of the caller still leads to the freed block.
After this run there is no tree of live nodes.  Nor is there one after
`Delete("t")` in `chainTree` (root → p → a → {s, t}), which returns `OK` and frees
the block of `p`, still child 0 of the root. -/
theorem run_frees_root_with_string :
    SetString InitTree "root" "x" = (OK, .mk "root" ⟨0, some "x"⟩ []) ∧
    (Delete (.mk "root" ⟨0, some "x"⟩ []) "root").rc = OK ∧
    (Delete (.mk "root" ⟨0, some "x"⟩ []) "root").freed = [[]] ∧
    (Delete (.mk "root" ⟨0, some "x"⟩ []) "root").dangling = [[]] ∧
    (Delete (.mk "root" ⟨0, some "x"⟩ []) "root").intact = false ∧
    runCalls InitTree [Call.setString "root" "x", Call.delete "root"] = none ∧
    (Delete chainTree "t").rc = OK ∧
    (Delete chainTree "t").dangling = [[0]] ∧
    runCalls chainTree [Call.delete "t"] = none := by
  decide

end TreeDB
